import Mathlib

/-!
# The file-aware decoder of `schema` (multipartdecoder.go)

A shallow embedding of `MultipartDecoder.Decode` and `MultipartDecoder.decodeMultipart`.

The Go code drives the target through `reflect`.  Here the target is a tree `Val`; a
`reflect.Value` that refers into the target is a `Value`: a location `Loc` (the steps from the
root) with the two read-only flag bits of package reflect.  `v.Set(x)` rewrites the tree at the
location, so the decoder is a state-passing function on the root.  A panic of the Go runtime or of
package reflect is the `Except.error` result.

Conventions of the embedding:
* a pointer owns its target (`Val.ptrTo`): two pointers of the target never alias; the section
  "The decoder on a store" repeats the embedding for targets in which they do;
* `multipart.FileHeader` is a struct of another package and is kept as one record
  (`Val.fileHeader`); a path into one of its fields ends where the decoder ends with it, in a
  panic or at a Value that cannot be set (`Value.FieldByName`);
* the kinds are int, string, struct, pointer and slice; interfaces, maps and arrays are absent, so
  "assignable" is "identical type";
* lengths are mathematical integers, `idx+1` is computed in 64 bits and `reflect.MakeSlice`
  panics beyond `maxAlloc` bytes; running out of memory below that is not represented.

`Decoder.Decode`, `cache.parsePath`, `MultiError` and `ConversionError` are declared in files that
are not part of the sources at hand; the decoder takes the first two as fields of
`MultipartDecoder` and the error shapes are read off their uses in multipartdecoder.go.

What a key does to the target is described twice: by the code (`decodeMultipart`, and `resolve`,
its descent without the last assignment) and by `Val.put`, the filling of a location that makes
the pointers and slice elements on the way.  A key that decodes fills its leaf
(`Key.Decodes.run`), a key decodes as well in a target that was filled at another place
(`resolve_sim`), and fillings at different places commute (`Val.put_put_comm`); the results on
several keys rest on these three.
-/

set_option autoImplicit false

namespace Schema

/-! ## Types and values -/

/-- One field of a struct: `reflect.StructField` with the data the decoder looks at. `exported`
is `PkgPath == ""`, `embedded` is `Anonymous`. -/
structure StructField (α : Type) where
  name : String
  exported : Bool
  embedded : Bool
  val : α

/-- The fragment of `reflect.Type` that targets are built from. -/
inductive Ty where
  | int
  | string
  | fileHeader
  | ptr (elem : Ty)
  | slice (elem : Ty)
  | struct (name : String) (fields : List (StructField Ty))

/-- The record `multipart.FileHeader`: file name and the bytes of the upload. -/
structure FileHeader where
  Filename : String
  content : String
deriving DecidableEq, Repr

/-- Go values of the types `Ty`. A nil pointer and a nil slice remember their element type. -/
inductive Val where
  | int (n : Int)
  | str (s : String)
  | fileHeader (h : FileHeader)
  | nilPtr (elem : Ty)
  | ptrTo (target : Val)
  | nilSlice (elem : Ty)
  | slice (elem : Ty) (items : List Val)
  | struct (name : String) (fields : List (StructField Val))

mutual
/-- The type of a value, `reflect.TypeOf`. -/
def Val.typeOf : Val → Ty
  | .int _ => .int
  | .str _ => .string
  | .fileHeader _ => .fileHeader
  | .nilPtr e => .ptr e
  | .ptrTo x => .ptr x.typeOf
  | .nilSlice e => .slice e
  | .slice e _ => .slice e
  | .struct n fs => .struct n (Val.typeOfFields fs)
/-- The field declarations of a struct value. -/
def Val.typeOfFields : List (StructField Val) → List (StructField Ty)
  | [] => []
  | f :: fs => ⟨f.name, f.exported, f.embedded, f.val.typeOf⟩ :: Val.typeOfFields fs
end

mutual
/-- The zero value of a type, `reflect.Zero`. -/
def Ty.zero : Ty → Val
  | .int => .int 0
  | .string => .str ""
  | .fileHeader => .fileHeader ⟨"", ""⟩
  | .ptr e => .nilPtr e
  | .slice e => .nilSlice e
  | .struct n fs => .struct n (Ty.zeroFields fs)
/-- The zero values of the fields of a struct type. -/
def Ty.zeroFields : List (StructField Ty) → List (StructField Val)
  | [] => []
  | f :: fs => ⟨f.name, f.exported, f.embedded, f.val.zero⟩ :: Ty.zeroFields fs
end

mutual
/-- Type identity. -/
def Ty.same : Ty → Ty → Bool
  | .int, .int => true
  | .string, .string => true
  | .fileHeader, .fileHeader => true
  | .ptr a, .ptr b => Ty.same a b
  | .slice a, .slice b => Ty.same a b
  | .struct n fs, .struct m gs => n == m && Ty.sameFields fs gs
  | _, _ => false
/-- Identity of two lists of field declarations. -/
def Ty.sameFields : List (StructField Ty) → List (StructField Ty) → Bool
  | [], [] => true
  | f :: fs, g :: gs =>
    f.name == g.name && f.exported == g.exported && f.embedded == g.embedded
      && Ty.same f.val g.val && Ty.sameFields fs gs
  | _, _ => false
end

/-! ## Locations inside a value -/

/-- One step from a value to a part of it. -/
inductive Step where
  | field (i : Nat)
  | elem
  | index (i : Nat)
deriving DecidableEq, Repr

/-- A location: the steps from the root. -/
abbrev Loc := List Step

/-- The value at a location; `none` when the location does not exist (a step through a nil
pointer, past the end of a slice, or of the wrong kind). -/
def Val.get : Val → Loc → Option Val
  | x, [] => some x
  | .struct _ fs, .field i :: l =>
    match fs[i]? with
    | some f => f.val.get l
    | none => none
  | .ptrTo x, .elem :: l => x.get l
  | .slice _ xs, .index i :: l =>
    match xs[i]? with
    | some x => x.get l
    | none => none
  | _, _ :: _ => none

/-- The value with the part at a location replaced; unchanged when the location does not exist. -/
def Val.set : Val → Loc → Val → Val
  | _, [], y => y
  | .struct n fs, .field i :: l, y =>
    match fs[i]? with
    | some f => .struct n (fs.set i ⟨f.name, f.exported, f.embedded, f.val.set l y⟩)
    | none => .struct n fs
  | .ptrTo x, .elem :: l, y => .ptrTo (x.set l y)
  | .slice e xs, .index i :: l, y =>
    match xs[i]? with
    | some x => .slice e (xs.set i (x.set l y))
    | none => .slice e xs
  | x, _ :: _, _ => x

/-! ## Package reflect -/

/-- What the Go runtime and package reflect panic with. -/
inductive Panic where
  /-- A nil pointer is dereferenced. -/
  | nilDereference
  /-- An index is out of range: `parts[0]`, `Value.Index`. -/
  | indexOutOfRange
  /-- A method is called on the zero Value. -/
  | zeroValue
  /-- A method is called on a Value of a kind it does not accept. -/
  | wrongKind
  /-- `Set` on a Value obtained through an unexported field. -/
  | unexported
  /-- `Set`: the value is not assignable to the type of the location. -/
  | notAssignable
  /-- `FieldByIndex`: indirection through nil pointer to embedded struct. -/
  | nilEmbedded
  /-- `MakeSlice` with a negative length. -/
  | negativeLen
  /-- `MakeSlice` of more bytes than the runtime allocates: "allocation size out of range". -/
  | allocation
  /-- A field of a `multipart.FileHeader` was selected through a Value that can be set; reflect
  refuses what the decoder does with it next (see `Value.FieldByName`). -/
  | fileField
  /-- A Value whose location is not in the target; no Value built by the decoder is. -/
  | dangling
deriving DecidableEq, Repr

/-- The read-only bits of a `reflect.Value`: `flagStickyRO` and `flagEmbedRO`. -/
structure Flag where
  stickyRO : Bool
  embedRO : Bool
deriving DecidableEq, Repr

/-- Whether one of the read-only bits is set: `flag & flagRO != 0`. -/
def Flag.ro (f : Flag) : Bool := f.stickyRO || f.embedRO

/-- A `reflect.Value` inside the target: the zero Value, or an addressable location with its
read-only bits. -/
inductive Value where
  | invalid
  | ref (loc : Loc) (flag : Flag)
deriving DecidableEq, Repr

/-- The Value of the struct the target pointer refers to: `reflect.ValueOf(dst).Elem()`. -/
def Value.root : Value := .ref [] ⟨false, false⟩

/-- The value a Value refers to. -/
def Value.read (root : Val) : Value → Except Panic Val
  | .invalid => .error .zeroValue
  | .ref loc _ =>
    match root.get loc with
    | some x => .ok x
    | none => .error .dangling

/-- The method `v.Type()`. -/
def Value.Type (root : Val) (v : Value) : Except Panic Ty :=
  match v.read root with
  | .ok x => .ok x.typeOf
  | .error p => .error p

/-- The method `v.CanSet()`: addressable and not read-only; false for the zero Value. -/
def Value.CanSet : Value → Bool
  | .invalid => false
  | .ref _ fl => !fl.ro

/-- The method `v.IsNil()`, for pointers and slices; it panics on the other kinds. -/
def Value.IsNil (root : Val) (v : Value) : Except Panic Bool :=
  match v.read root with
  | .ok (.nilPtr _) => .ok true
  | .ok (.ptrTo _) => .ok false
  | .ok (.nilSlice _) => .ok true
  | .ok (.slice _ _) => .ok false
  | .ok _ => .error .wrongKind
  | .error p => .error p

/-- The method `v.Len()`, for slices and strings; it panics on the other kinds. -/
def Value.Len (root : Val) (v : Value) : Except Panic Int :=
  match v.read root with
  | .ok (.nilSlice _) => .ok 0
  | .ok (.slice _ xs) => .ok xs.length
  | .ok (.str s) => .ok s.utf8ByteSize
  | .ok _ => .error .wrongKind
  | .error p => .error p

/-- The method `v.Elem()` of a pointer: the zero Value for nil, else the target, which keeps the
read-only bits of the pointer. -/
def Value.Elem (root : Val) (v : Value) : Except Panic Value :=
  match v, v.read root with
  | .ref loc fl, .ok (.ptrTo _) => .ok (.ref (loc ++ [.elem]) fl)
  | _, .ok (.nilPtr _) => .ok .invalid
  | _, .ok _ => .error .wrongKind
  | _, .error p => .error p

/-- The method `v.Set(x)`; `x` is `none` for the zero Value. The checks are those of reflect, in
its order: `v` assignable, `x` valid, type of `x` assignable to the type of `v`. -/
def Value.Set (root : Val) (v : Value) (x : Option Val) : Except Panic Val :=
  match v with
  | .invalid => .error .zeroValue
  | .ref loc fl =>
    if fl.ro then .error .unexported
    else
      match x with
      | none => .error .zeroValue
      | some y =>
        match root.get loc with
        | none => .error .dangling
        | some old =>
          if Ty.same y.typeOf old.typeOf then .ok (root.set loc y) else .error .notAssignable

/-- The method `v.Index(i)` of a slice. The element is addressable; a read-only slice gives a
sticky read-only element. -/
def Value.Index (root : Val) (v : Value) (i : Int) : Except Panic Value :=
  match v, v.read root with
  | .ref loc fl, .ok (.slice _ xs) =>
    if 0 ≤ i ∧ i < xs.length then .ok (.ref (loc ++ [.index i.toNat]) ⟨fl.ro, false⟩)
    else .error .indexOutOfRange
  | _, .ok (.nilSlice _) => .error .indexOutOfRange
  | _, .ok _ => .error .wrongKind
  | _, .error p => .error p

/-- The method `v.Field(i)` of a struct. The sticky bit is inherited and the embed bit is not; an
unexported field sets the embed bit when it is embedded and the sticky bit otherwise. -/
def Value.Field (root : Val) (v : Value) (i : Nat) : Except Panic Value :=
  match v, v.read root with
  | .ref loc fl, .ok (.struct _ fs) =>
    match fs[i]? with
    | some f =>
      .ok (.ref (loc ++ [.field i])
        ⟨fl.stickyRO || (!f.exported && !f.embedded), !f.exported && f.embedded⟩)
    | none => .error .indexOutOfRange
  | _, .ok _ => .error .wrongKind
  | _, .error p => .error p

/-- A candidate of the field search: the depth of the match, the number of matches at that depth
and the index sequence of the first of them. -/
abbrev Found := Nat × Nat × List Nat

/-- The candidates of two fields of one struct: the shallower wins, equal depths add up. -/
def Found.merge : Option Found → Option Found → Option Found
  | none, r => r
  | l, none => l
  | some (d, c, p), some (e, k, q) =>
    if d < e then some (d, c, p) else if e < d then some (e, k, q) else some (d, c + k, p)

/-- One level down: the candidate of an embedded field `i` seen from the enclosing struct. -/
def Found.under (i : Nat) : Option Found → Option Found
  | none => none
  | some (d, c, p) => some (d + 1, c, i :: p)

mutual
/-- The candidates for `name` among the fields of a struct type (`Ty.search`) counted from field
number `i`: a field of that name matches at depth 0, an embedded struct or pointer to struct is
searched one level down. -/
def Ty.searchFields (name : String) : Nat → List (StructField Ty) → Option Found
  | _, [] => none
  | i, f :: fs =>
    Found.merge
      (if f.name == name then some (0, 1, [i])
       else if f.embedded then Found.under i (Ty.searchEmbedded name f.val) else none)
      (Ty.searchFields name (i + 1) fs)
/-- The candidates inside an embedded field of type `T` or `*T`, `T` a struct. -/
def Ty.searchEmbedded (name : String) : Ty → Option Found
  | .struct _ fs => Ty.searchFields name 0 fs
  | .ptr (.struct _ fs) => Ty.searchFields name 0 fs
  | _ => none
end

/-- The method `FieldByName` of a struct type, as an index sequence: a field of the struct itself
if there is one (the first), else the unique field of that name at the shallowest depth of the
embedded structs; none if there is no such field or more than one at that depth. -/
def Ty.FieldByName (t : Ty) (name : String) : Option (List Nat) :=
  match t with
  | .struct _ fs =>
    if name = "" then none
    else
      match fs.findIdx? (fun f => f.name == name) with
      | some i => some [i]
      | none =>
        match Ty.searchFields name 0 fs with
        | some (_, 1, p) => some p
        | _ => none
  | _ => none

/-- The loop of `v.FieldByIndex(index)` after its first step: through a pointer to a struct
(panic if it is nil) and into field `x`. -/
def Value.fieldByIndexLoop (root : Val) : Value → List Nat → Except Panic Value
  | v, [] => .ok v
  | v, x :: index =>
    match v.read root with
    | .ok (.nilPtr (.struct _ _)) => .error .nilEmbedded
    | .ok (.ptrTo (.struct _ _)) =>
      match v.Elem root with
      | .ok w =>
        match w.Field root x with
        | .ok u => Value.fieldByIndexLoop root u index
        | .error p => .error p
      | .error p => .error p
    | .ok _ =>
      match v.Field root x with
      | .ok u => Value.fieldByIndexLoop root u index
      | .error p => .error p
    | .error p => .error p

/-- The method `v.FieldByIndex(index)`. -/
def Value.FieldByIndex (root : Val) (v : Value) : List Nat → Except Panic Value
  | [] => .ok v
  | x :: index =>
    match v.Field root x with
    | .ok u => Value.fieldByIndexLoop root u index
    | .error p => .error p

/-- The exported fields of `multipart.FileHeader`: `Filename string`, `Header
textproto.MIMEHeader` and `Size int64`. -/
def fileHeaderFields : List String := ["Filename", "Header", "Size"]

/-- The method `v.FieldByName(name)`: panics unless `v` is a struct; the zero Value if the type
has no such field.

A `multipart.FileHeader` is kept as one record, so a Value inside it is not represented. What
the decoder does with such a Value is this. An exported field (a string, a map, an int64)
selected through a Value that can be set can be set itself, and every way the decoder goes on
ends in a panic of reflect: `FieldByName` on it for a further name, `IsNil` or `MakeSlice` or
`Index` for a further part, and `Set` of a file header at the leaf; that panic is raised here.
Any other name, and any name below a read-only Value, gives a Value that cannot be set (the real
one is the zero Value or a read-only field), and the zero Value stands for it: the decoder
returns at `CanSet`, or panics on a further name as it does on the zero Value. -/
def Value.FieldByName (root : Val) (v : Value) (name : String) : Except Panic Value :=
  match v.read root with
  | .ok (.struct n fs) =>
    match (Val.struct n fs).typeOf.FieldByName name with
    | some index => v.FieldByIndex root index
    | none => .ok .invalid
  | .ok (.fileHeader _) =>
    if fileHeaderFields.contains name && v.CanSet then .error .fileField else .ok .invalid
  | .ok _ => .error .wrongKind
  | .error p => .error p

/-- The function `reflect.New(t)`: a pointer to a new zero value. -/
def reflectNew (t : Ty) : Val := .ptrTo t.zero

mutual
/-- The size of a value of the type in bytes, on a 64-bit platform: a word is 8 bytes, a string
is 2 words, a slice 3, a `multipart.FileHeader` 11, and a struct that is not empty and ends in
a field of size 0 is padded by a word. -/
def Ty.size : Ty → Nat
  | .int => 8
  | .string => 16
  | .fileHeader => 88
  | .ptr _ => 8
  | .slice _ => 24
  | .struct _ fs =>
    match Ty.sizeFields fs with
    | (s, z) => if z && s != 0 then s + 8 else s
/-- The sum of the sizes of the fields, and whether the last field has the size 0. -/
def Ty.sizeFields : List (StructField Ty) → Nat × Bool
  | [] => (0, false)
  | f :: fs =>
    match Ty.sizeFields fs with
    | (s, z) => (f.val.size + s, if fs.isEmpty then f.val.size == 0 else z)
end

/-- The most bytes the runtime allocates at once, `maxAlloc`: 2^48 on a 64-bit platform. -/
def maxAlloc : Nat := 2 ^ 48

/-- The function `reflect.MakeSlice(t, n, n)`: it panics on a type that is no slice, on a
negative length, and when the `n` elements take more than `maxAlloc` bytes ("runtime: allocation
size out of range"). -/
def reflectMakeSlice (t : Ty) (n : Int) : Except Panic Val :=
  match t with
  | .slice e =>
    if n < 0 then .error .negativeLen
    else if maxAlloc < e.size * n.toNat then .error .allocation
    else .ok (.slice e (List.replicate n.toNat e.zero))
  | _ => .error .wrongKind

/-- The function `reflect.Copy(dst, src)` on two slices of one type: the first
`min (len dst) (len src)` elements of `dst` become those of `src`. -/
def reflectCopy (dst src : Val) : Except Panic Val :=
  match dst, src with
  | .slice e xs, .slice _ ys => .ok (.slice e (ys.take xs.length ++ xs.drop ys.length))
  | .slice e xs, .nilSlice _ => .ok (.slice e xs)
  | _, _ => .error .wrongKind

/-- The function `reflect.Append(s, items...)`: every item must be assignable to the element type. -/
def reflectAppend (s : Val) (items : List Val) : Except Panic Val :=
  match s with
  | .slice e xs =>
    if items.all (fun x => Ty.same x.typeOf e) then .ok (.slice e (xs ++ items))
    else .error .notAssignable
  | .nilSlice e =>
    if items.all (fun x => Ty.same x.typeOf e) then .ok (.slice e items)
    else .error .notAssignable
  | _ => .error .wrongKind

/-- The function `reflect.ValueOf(p)` of a `*multipart.FileHeader`. -/
def reflectValueOf : Option FileHeader → Val
  | none => .nilPtr .fileHeader
  | some h => .ptrTo (.fileHeader h)

/-- The expression `reflect.ValueOf(p).Elem()`: the zero Value for a nil pointer. -/
def reflectValueOfElem : Option FileHeader → Option Val
  | none => none
  | some h => some (.fileHeader h)

/-- Go addition on `int` (64 bits, wrapping). -/
def wrapInt (x : Int) : Int := (x + 2 ^ 63) % 2 ^ 64 - 2 ^ 63

/-! ## multipartdecoder.go -/

/-- Modelled from the spec: the declaration of `pathPart` is not in the sources. A part of a
parsed path has the two fields `decodeMultipart` reads: `path`, the field names to select, and
`index`, for a part that is followed by another the position in the slice of structs (§3). -/
structure PathPart where
  path : List String
  index : Int
deriving DecidableEq, Repr

/-- Modelled from the spec: the declarations of `MultiError` and `ConversionError` are not in the
sources. The values of the Go type `error` that the decoder meets are `errors.New(msg)`,
`fmt.Errorf("schema: invalid path %q", path)`, a `ConversionError`, the typed error with the key
and the raw value (§4.2), and a `MultiError`, the map from key to error (§3), here the list of its
entries. -/
inductive Error where
  | new (msg : String)
  | invalidPath (path : String)
  | conversion (key : String) (value : String)
  | multi (entries : List (String × Error))

/-- The entries of a `MultiError`. -/
abbrev MultiError := List (String × Error)

/-- The entry of a key: `errors[key]`. -/
def MultiError.lookup (m : MultiError) (key : String) : Option Error :=
  match m with
  | [] => none
  | (k, e) :: rest => if k = key then some e else MultiError.lookup rest key

/-- The assignment `errors[key] = err`: the entry of the key is replaced, or added. -/
def MultiError.insert (m : MultiError) (key : String) (err : Error) : MultiError :=
  match m with
  | [] => [(key, err)]
  | (k, e) :: rest => if k = key then (k, err) :: rest else (k, e) :: MultiError.insert rest key err

/-- The form `multipart.Form`: the string values and the file headers, each a map from key to
list, in the order in which `range` visits the keys. -/
structure Form where
  Value : List (String × List String)
  File : List (String × List (Option FileHeader))

/-- The decoder. `decode` is `d.Decoder.Decode(dst, src.Value)` seen from the struct that `dst`
points to: the error it returns and the struct it leaves behind. `parsePath` is
`d.cache.parsePath`; `none` stands for a non-nil error. -/
structure MultipartDecoder where
  ignoreUnknownKeys : Bool
  parsePath : String → Ty → Option (List PathPart)
  decode : Val → List (String × List String) → Except Panic (Option Error × Val)

/-- The step through a pointer, made in the loop over the field names and again under
"Dereference if needed": if the type `t` of `v` is a pointer, `t` becomes the element type, a nil
pointer is set to a new zero value and `v` moves to the target. -/
def dereference (root : Val) (v : Value) : Except Panic (Val × Value × Ty) := do
  let t ← v.Type root
  match t with
  | .ptr e =>
    let root ← (if (← v.IsNil root) then v.Set root (some (reflectNew e)) else pure root)
    let v ← v.Elem root
    pure (root, v, e)
  | _ => pure (root, v, t)

/-- The loop over `parts[0].path` at the head of `decodeMultipart`: through a pointer (set to a
new zero value first if it is nil), then into the field of that name. -/
def walkFields (root : Val) (v : Value) : List String → Except Panic (Val × Value)
  | [] => .ok (root, v)
  | name :: names =>
    match dereference root v with
    | .error p => .error p
    | .ok (root, v, _) =>
      match v.FieldByName root name with
      | .error p => .error p
      | .ok v => walkFields root v names

/-- The slice that takes the place of a nil or short one: `reflect.MakeSlice(t, idx+1, idx+1)`,
with the elements of `v` copied into it if `v.Len() < idx+1`. -/
def grownSlice (root : Val) (v : Value) (t : Ty) (idx : Int) : Except Panic Val := do
  let value ← reflectMakeSlice t (wrapInt (idx + 1))
  if (← v.Len root) < wrapInt (idx + 1) then reflectCopy value (← v.read root) else pure value

/-- The "Slice of structs" step up to the recursive call: the slice is replaced by one of length
`idx+1` when it is nil or shorter, and `v` moves to element `idx`. -/
def growAndIndex (root : Val) (v : Value) (t : Ty) (idx : Int) : Except Panic (Val × Value) := do
  let short ← (if (← v.IsNil root) then pure true
    else do pure (decide ((← v.Len root) < wrapInt (idx + 1))))
  let root ← (if short then do v.Set root (some (← grownSlice root v t idx)) else pure root)
  let v ← v.Index root idx
  pure (root, v)

/-- The "Simple case": a slice takes all values, anything else the last one. -/
def assignLeaf (root : Val) (v : Value) (t : Ty) (values : List (Option FileHeader)) :
    Except Panic Val :=
  match t with
  | .slice _ => do
    let items := values.map reflectValueOf
    let value ← reflectAppend (← reflectMakeSlice t 0) items
    v.Set root (some value)
  | _ =>
    let value : Option FileHeader :=
      match values.getLast? with
      | some p => p
      | none => none
    v.Set root (reflectValueOfElem value)

/-- The method `decodeMultipart(v, path, parts, values)`: the error it returns and the target it
leaves behind. -/
def decodeMultipart (root : Val) (v : Value) (path : String) :
    List PathPart → List (Option FileHeader) → Except Panic (Option Error × Val)
  | [], _ => .error .indexOutOfRange
  | part :: rest, values =>
    match walkFields root v part.path with
    | .error p => .error p
    | .ok (root, v) =>
      if !v.CanSet then .ok (none, root)
      else
        match dereference root v with
        | .error p => .error p
        | .ok (root, v, t) =>
          match rest with
          | _ :: _ =>
            match growAndIndex root v t part.index with
            | .error p => .error p
            | .ok (root, v) => decodeMultipart root v path rest values
          | [] =>
            match assignLeaf root v t values with
            | .error p => .error p
            | .ok root => .ok (none, root)

/-- The loop `for path, multiparts := range src.File` of `Decode`, from the entries still to
visit, the errors so far and the target so far. -/
def decodeFiles (d : MultipartDecoder) (t : Ty) :
    List (String × List (Option FileHeader)) → MultiError → Val → Except Panic (MultiError × Val)
  | [], errors, root => .ok (errors, root)
  | (path, multiparts) :: rest, errors, root =>
    match d.parsePath path t with
    | some parts =>
      match decodeMultipart root Value.root path parts multiparts with
      | .error p => .error p
      | .ok (some err, root) => decodeFiles d t rest (errors.insert path err) root
      | .ok (none, root) => decodeFiles d t rest errors root
    | none =>
      if !d.ignoreUnknownKeys then decodeFiles d t rest (errors.insert path (.invalidPath path)) root
      else decodeFiles d t rest errors root

/-- The test `v.Kind() == reflect.Ptr && v.Elem().Kind() == reflect.Struct` on
`v := reflect.ValueOf(dst)`; `multipart.FileHeader` is a struct as well. -/
def isPtrToStruct : Option Val → Bool
  | some (.ptrTo (.struct _ _)) => true
  | some (.ptrTo (.fileHeader _)) => true
  | _ => false

/-- The type switch on the error of the string half: the errors to go on with (`.ok`), or the
error that `Decode` returns at once (`.error`). -/
def baseErrors : Option Error → Except Error MultiError
  | none => .ok []
  | some (.multi e) => .ok e
  | some e => .error e

/-- The end of `Decode`: the errors if there are any, else nil. -/
def returnErrors (errors : MultiError) : Option Error :=
  if errors.length > 0 then some (.multi errors) else none

/-- The method `MultipartDecoder.Decode(dst, src)`. `dst` is `none` for the nil interface and
`src` is `none` for a nil pointer; the result is the error returned and `dst` with what it
points to afterwards. -/
def MultipartDecoder.Decode (d : MultipartDecoder) (dst : Option Val) (src : Option Form) :
    Except Panic (Option Error × Option Val) :=
  if !isPtrToStruct dst then
    .ok (some (.new "schema: interface must be a pointer to struct"), dst)
  else
    match dst, src with
    | some (.ptrTo target), some form =>
      match d.decode target form.Value with
      | .error p => .error p
      | .ok (err, root) =>
        match baseErrors err with
        | .error e => .ok (some e, some (.ptrTo root))
        | .ok errors =>
          match decodeFiles d root.typeOf form.File errors root with
          | .error p => .error p
          | .ok (errors, root) => .ok (returnErrors errors, some (.ptrTo root))
    | _, _ => .error .nilDereference

/-- The descent of `decodeMultipart` without the assignment of the "Simple case": the target
after the pointers and slices on the way were made, with the Value `v` and the type `t` in front
of the "Simple case"; `none` in their place when the walk ended at a Value that cannot be set. -/
def resolve (root : Val) (v : Value) : List PathPart → Except Panic (Val × Option (Value × Ty))
  | [] => .error .indexOutOfRange
  | part :: rest =>
    match walkFields root v part.path with
    | .error p => .error p
    | .ok (root, v) =>
      if !v.CanSet then .ok (root, none)
      else
        match dereference root v with
        | .error p => .error p
        | .ok (root, v, t) =>
          match rest with
          | _ :: _ =>
            match growAndIndex root v t part.index with
            | .error p => .error p
            | .ok (root, v) => resolve root v rest
          | [] => .ok (root, some (v, t))

/-! ## The types of common_test.go -/

/-- The struct `Post`. -/
def Post : Ty := .struct "Post" [⟨"Title", true, false, .string⟩, ⟨"Content", true, false, .string⟩]

/-- The struct `Person`. -/
def Person : Ty := .struct "Person" [⟨"Name", true, false, .string⟩, ⟨"Email", true, false, .string⟩]

/-- The struct `BlogPost`. -/
def BlogPost : Ty :=
  .struct "BlogPost"
    [⟨"Post", true, true, Post⟩,
     ⟨"Id", true, false, .int⟩,
     ⟨"Ignored", true, false, .string⟩,
     ⟨"Ratings", true, false, .slice .int⟩,
     ⟨"Author", true, false, Person⟩,
     ⟨"Coauthor", true, false, .ptr Person⟩,
     ⟨"Readers", true, false, .slice Person⟩,
     ⟨"Contributors", true, false, .slice (.ptr Person)⟩,
     ⟨"HeaderImage", true, false, .ptr .fileHeader⟩,
     ⟨"Pictures", true, false, .slice (.ptr .fileHeader)⟩,
     ⟨"unexported", false, false, .string⟩]

/-- The struct `EmbedPerson`. -/
def EmbedPerson : Ty := .struct "EmbedPerson" [⟨"Person", true, true, .ptr Person⟩]

/-! ## A decoder for forms without string values -/

/-- Modelled from the spec: `cache.parsePath` is not in the sources. §4.1 and §3 give the parsed
path of a key as the field selectors and indices it names; these are the paths of the keys of
`BlogPost` that the examples below use. The last part carries index -1. -/
def blogPostPaths (key : String) (_ : Ty) : Option (List PathPart) :=
  if key = "headerImage" then some [⟨["HeaderImage"], -1⟩]
  else if key = "picture" then some [⟨["Pictures"], -1⟩]
  else if key = "title" then some [⟨["Title"], -1⟩]
  else if key = "rating" then some [⟨["Ratings"], -1⟩]
  else if key = "readers.1.name" then some [⟨["Readers"], 1⟩, ⟨["Name"], -1⟩]
  else none

/-- Modelled from the spec: `Decoder.Decode` is not in the sources. By §4.3 it visits the keys of
the string map; on a form without string values it has nothing to visit, returns nil and leaves
the target as it is. The examples below decode such forms only. -/
def noValues (root : Val) (_ : List (String × List String)) : Except Panic (Option Error × Val) :=
  .ok (none, root)

/-- The decoder of the examples. -/
def exampleDecoder (ignoreUnknownKeys : Bool) : MultipartDecoder :=
  ⟨ignoreUnknownKeys, blogPostPaths, noValues⟩

/-- An upload. -/
def upload1 : FileHeader := ⟨"thank you!", "Also, thanks"⟩

/-- Another upload. -/
def upload2 : FileHeader := ⟨"btw...", "This tool"⟩

/-- The struct `Photo` of `Gallery`. -/
def Photo : Ty :=
  .struct "Photo" [⟨"Caption", true, false, .string⟩, ⟨"File", true, false, .ptr .fileHeader⟩]

/-- A target with a file field below a slice of structs, `struct { Photos []Photo }` with
`Photo` being `struct { Caption string; File *multipart.FileHeader }`; the test types have no such
field. -/
def Gallery : Ty := .struct "Gallery" [⟨"Photos", true, false, .slice Photo⟩]

/-- A gallery with one photo. -/
def gallery1 : Val :=
  .struct "Gallery" [⟨"Photos", true, false, .slice Photo
    [.struct "Photo" [⟨"Caption", true, false, .str "first"⟩,
      ⟨"File", true, false, .ptrTo (.fileHeader upload1)⟩]]⟩]

/-- Every location that is not a prefix of `p` and exists in `r` holds the same value in `r1`. -/
def Val.KeepsOff (p : Loc) (r r1 : Val) : Prop :=
  ∀ l x, ¬ l <+: p → r.get l = some x → r1.get l = some x

/-! ## The effect of a decode, as a function of the target -/

/-- The elements of a slice; none for a nil slice and for what is no slice. -/
def Val.items : Val → List Val
  | .slice _ xs => xs
  | _ => []

/-- The list made at least `n` long by values `z` at its end. -/
def padTo (xs : List Val) (n : Nat) (z : Val) : List Val :=
  xs ++ List.replicate (n - xs.length) z

/-- A slice made at least `n` long by zero values at its end; a nil slice becomes a slice of `n`
zero values. Anything else stays. -/
def Val.extend (x : Val) (n : Nat) : Val :=
  match x with
  | .nilSlice e => .slice e (padTo [] n e.zero)
  | .slice e xs => .slice e (padTo xs n e.zero)
  | x => x

/-- The value `x` with the location `l` made and filled: on the way a nil pointer becomes a
pointer to a zero value and a slice is extended to hold the index, and what is at `l` is replaced
by `y` if `y` has the type of what is there. A location that does not fit the value leaves it
as it is. -/
def Val.put : Val → Loc → Val → Val
  | x, [], y => if Ty.same y.typeOf x.typeOf then y else x
  | .struct n fs, .field i :: l, y =>
    match fs[i]? with
    | some f => .struct n (fs.set i ⟨f.name, f.exported, f.embedded, f.val.put l y⟩)
    | none => .struct n fs
  | .ptrTo x, .elem :: l, y => .ptrTo (x.put l y)
  | .nilPtr e, .elem :: l, y => .ptrTo (e.zero.put l y)
  | .slice e xs, .index i :: l, y =>
    match (padTo xs (i + 1) e.zero)[i]? with
    | some x => .slice e ((padTo xs (i + 1) e.zero).set i (x.put l y))
    | none => .slice e xs
  | .nilSlice e, .index i :: l, y =>
    match (padTo [] (i + 1) e.zero)[i]? with
    | some x => .slice e ((padTo [] (i + 1) e.zero).set i (x.put l y))
    | none => .nilSlice e
  | x, _ :: _, _ => x

/-- A struct with an embedded pointer: `struct { *Photo }`. -/
def EmbedPhoto : Ty := .struct "EmbedPhoto" [⟨"Photo", true, true, .ptr Photo⟩]

/-- A struct with an embedded struct: `struct { Photo }`. -/
def WithPhoto : Ty := .struct "WithPhoto" [⟨"Photo", true, true, Photo⟩]

/-- A struct with an unexported pointer to a struct: `struct { priv *Photo }`. -/
def Hidden : Ty := .struct "Hidden" [⟨"priv", false, false, .ptr Photo⟩]

/-- An unexported struct with a file field: `type photo struct { File *multipart.FileHeader }`. -/
def photo : Ty := .struct "photo" [⟨"File", true, false, .ptr .fileHeader⟩]

/-- A struct that embeds a pointer to an unexported struct: `struct { *photo }`. -/
def HiddenPtr : Ty := .struct "HiddenPtr" [⟨"photo", false, true, .ptr photo⟩]

/-- At every location on the way to `p` that is there in `r`, `r2` holds a value of the same
type, and a pointer that is not nil where `r` holds one. -/
def Val.Agree (p : Loc) (r r2 : Val) : Prop :=
  ∀ u x, u <+: p → r.get u = some x →
    ∃ x2, r2.get u = some x2 ∧ x2.typeOf = x.typeOf ∧ (∀ z, x = .ptrTo z → ∃ z2, x2 = .ptrTo z2)

/-- A file key with its parsed path and its uploads, and with what decoding it does: `leaf`,
the location its descent ends at, and `value`, the value the "Simple case" writes there. -/
structure Key where
  path : String
  parts : List PathPart
  values : List (Option FileHeader)
  leaf : Loc
  value : Val

/-- The key decodes in `root`: its descent from the target ends at the leaf, which can be set,
and the "Simple case" writes the value there. -/
def Key.Decodes (k : Key) (root : Val) : Prop :=
  ∃ root1 fl t, resolve root Value.root k.parts = .ok (root1, some (.ref k.leaf fl, t))
    ∧ assignLeaf root1 (.ref k.leaf fl) t k.values = .ok (root1.set k.leaf k.value)

/-- Two keys write at different places: neither leaf is the other or a part of it. -/
def Key.Apart (a b : Key) : Prop := ¬ a.leaf <+: b.leaf ∧ ¬ b.leaf <+: a.leaf

/-- The entry of the file map for a key. -/
def Key.entry (k : Key) : String × List (Option FileHeader) := (k.path, k.values)

/-- The target with the leaves of the keys filled, one key after the other. -/
def fillAll (root : Val) (ks : List Key) : Val :=
  ks.foldl (fun r k => r.put k.leaf k.value) root

/-- The index of the first part of the parsed path of a key. -/
def Key.index (k : Key) : Int :=
  match k.parts with
  | part :: _ => part.index
  | [] => -1

/-- A target with a slice of structs that embed a struct with a file field:
`struct { Items []struct { Photo } }`. -/
def Shelf : Ty := .struct "Shelf" [⟨"Items", true, false, .slice WithPhoto⟩]

/-- A struct with two file fields. -/
def Pair : Ty :=
  .struct "Pair" [⟨"Front", true, false, .ptr .fileHeader⟩, ⟨"Back", true, false, .ptr .fileHeader⟩]

/-- A target with a pointer to a struct with two file fields: `struct { Sides *Pair }`. -/
def Card : Ty := .struct "Card" [⟨"Sides", true, false, .ptr Pair⟩]

/-- Modelled from the spec: `cache.parsePath` is not in the sources. §4.1 and §3 give the parsed
path of a key as the field selectors and indices it names; these are the paths of the keys of
`Gallery`, `WithPhoto` and `Card` that the examples below use. -/
def photoPaths (key : String) (_ : Ty) : Option (List PathPart) :=
  if key = "photos.0.file" then some [⟨["Photos"], 0⟩, ⟨["File"], -1⟩]
  else if key = "photos.1.file" then some [⟨["Photos"], 1⟩, ⟨["File"], -1⟩]
  else if key = "photos.2.file" then some [⟨["Photos"], 2⟩, ⟨["File"], -1⟩]
  else if key = "file" then some [⟨["File"], -1⟩]
  else if key = "photo.file" then some [⟨["Photo", "File"], -1⟩]
  else if key = "sides.front" then some [⟨["Sides", "Front"], -1⟩]
  else if key = "sides.back" then some [⟨["Sides", "Back"], -1⟩]
  else none

/-- The decoder of the examples with files below structs. -/
def photoDecoder : MultipartDecoder := ⟨true, photoPaths, noValues⟩

/-- The key "photos.`i`.file" of a gallery with one upload. -/
def photoKey (path : String) (i : Nat) (h : FileHeader) : Key :=
  ⟨path, [⟨["Photos"], i⟩, ⟨["File"], -1⟩], [some h], [.field 0, .index i, .field 1, .elem],
    .fileHeader h⟩

/-- The key "sides.front" of a card with one upload. -/
def frontKey (h : FileHeader) : Key :=
  ⟨"sides.front", [⟨["Sides", "Front"], -1⟩], [some h], [.field 0, .elem, .field 0, .elem],
    .fileHeader h⟩

/-- The key "sides.back" of a card with one upload. -/
def backKey (h : FileHeader) : Key :=
  ⟨"sides.back", [⟨["Sides", "Back"], -1⟩], [some h], [.field 0, .elem, .field 1, .elem],
    .fileHeader h⟩

/-! ## The decoder on a store

The values `Val` are trees: a pointer owns its target, and no two pointers of a target share
one. The definitions of this section repeat the embedding for targets in which they may: a
pointer is nil or the address of a cell of a store, and `v.Set(x)` rewrites the cell that `v`
lies in. Slices still own their elements, and the file headers of the form become cells when a
pointer to them is stored. -/

namespace Shared

/-- Go values in a store: as `Schema.Val`, but a pointer is nil or the address of a cell. -/
inductive Val where
  | int (n : Int)
  | str (s : String)
  | fileHeader (h : FileHeader)
  | ptr (elem : Ty) (addr : Option Nat)
  | nilSlice (elem : Ty)
  | slice (elem : Ty) (items : List Val)
  | struct (name : String) (fields : List (StructField Val))

mutual
/-- The type of a value, `reflect.TypeOf`. -/
def Val.typeOf : Val → Ty
  | .int _ => .int
  | .str _ => .string
  | .fileHeader _ => .fileHeader
  | .ptr e _ => .ptr e
  | .nilSlice e => .slice e
  | .slice e _ => .slice e
  | .struct n fs => .struct n (Val.typeOfFields fs)
/-- The field declarations of a struct value. -/
def Val.typeOfFields : List (StructField Val) → List (StructField Ty)
  | [] => []
  | f :: fs => ⟨f.name, f.exported, f.embedded, f.val.typeOf⟩ :: Val.typeOfFields fs
end

mutual
/-- The zero value of a type, `reflect.Zero`. -/
def zero : Ty → Val
  | .int => .int 0
  | .string => .str ""
  | .fileHeader => .fileHeader ⟨"", ""⟩
  | .ptr e => .ptr e none
  | .slice e => .nilSlice e
  | .struct n fs => .struct n (zeroFields fs)
/-- The zero values of the fields of a struct type. -/
def zeroFields : List (StructField Ty) → List (StructField Val)
  | [] => []
  | f :: fs => ⟨f.name, f.exported, f.embedded, zero f.val⟩ :: zeroFields fs
end

/-- The value at a location inside a cell: the steps are fields and indices, the step through a
pointer leads to another cell. -/
def Val.get : Val → Loc → Option Val
  | x, [] => some x
  | .struct _ fs, .field i :: l =>
    match fs[i]? with
    | some f => f.val.get l
    | none => none
  | .slice _ xs, .index i :: l =>
    match xs[i]? with
    | some x => x.get l
    | none => none
  | _, _ :: _ => none

/-- The cell with the part at a location replaced. -/
def Val.set : Val → Loc → Val → Val
  | _, [], y => y
  | .struct n fs, .field i :: l, y =>
    match fs[i]? with
    | some f => .struct n (fs.set i ⟨f.name, f.exported, f.embedded, f.val.set l y⟩)
    | none => .struct n fs
  | .slice e xs, .index i :: l, y =>
    match xs[i]? with
    | some x => .slice e (xs.set i (x.set l y))
    | none => .slice e xs
  | x, _ :: _, _ => x

/-- The store: the cells that pointers refer to. Cell 0 is the struct that `dst` points to. -/
abbrev Store := List Val

/-- The value at a location of a cell of the store. -/
def Store.get (st : Store) (a : Nat) (l : Loc) : Option Val :=
  match st[a]? with
  | some c => c.get l
  | none => none

/-- A `reflect.Value` in the store: the zero Value, or a location in a cell with its read-only
bits. -/
inductive Value where
  | invalid
  | ref (addr : Nat) (loc : Loc) (flag : Flag)
deriving DecidableEq, Repr

/-- The Value of the struct the target pointer refers to: `reflect.ValueOf(dst).Elem()`. -/
def Value.root : Value := .ref 0 [] ⟨false, false⟩

/-- The value a Value refers to. -/
def Value.read (st : Store) : Value → Except Panic Val
  | .invalid => .error .zeroValue
  | .ref a loc _ =>
    match st.get a loc with
    | some x => .ok x
    | none => .error .dangling

/-- The method `v.Type()`. -/
def Value.Type (st : Store) (v : Value) : Except Panic Ty :=
  match v.read st with
  | .ok x => .ok x.typeOf
  | .error p => .error p

/-- The method `v.CanSet()`. -/
def Value.CanSet : Value → Bool
  | .invalid => false
  | .ref _ _ fl => !fl.ro

/-- The method `v.IsNil()`, for pointers and slices. -/
def Value.IsNil (st : Store) (v : Value) : Except Panic Bool :=
  match v.read st with
  | .ok (.ptr _ none) => .ok true
  | .ok (.ptr _ (some _)) => .ok false
  | .ok (.nilSlice _) => .ok true
  | .ok (.slice _ _) => .ok false
  | .ok _ => .error .wrongKind
  | .error p => .error p

/-- The method `v.Len()`, for slices and strings. -/
def Value.Len (st : Store) (v : Value) : Except Panic Int :=
  match v.read st with
  | .ok (.nilSlice _) => .ok 0
  | .ok (.slice _ xs) => .ok xs.length
  | .ok (.str s) => .ok s.utf8ByteSize
  | .ok _ => .error .wrongKind
  | .error p => .error p

/-- The method `v.Elem()` of a pointer: the zero Value for nil, else the cell it refers to, with
the read-only bits of the pointer. -/
def Value.Elem (st : Store) (v : Value) : Except Panic Value :=
  match v, v.read st with
  | .ref _ _ fl, .ok (.ptr _ (some b)) => .ok (.ref b [] fl)
  | _, .ok (.ptr _ none) => .ok .invalid
  | _, .ok _ => .error .wrongKind
  | _, .error p => .error p

/-- The method `v.Set(x)`; `x` is `none` for the zero Value. The cell that `v` lies in is
rewritten at the location of `v`: every pointer to the cell sees the new value. -/
def Value.Set (st : Store) (v : Value) (x : Option Val) : Except Panic Store :=
  match v with
  | .invalid => .error .zeroValue
  | .ref a loc fl =>
    if fl.ro then .error .unexported
    else
      match x with
      | none => .error .zeroValue
      | some y =>
        match st[a]? with
        | none => .error .dangling
        | some c =>
          match c.get loc with
          | none => .error .dangling
          | some old =>
            if Ty.same y.typeOf old.typeOf then .ok (st.set a (c.set loc y))
            else .error .notAssignable

/-- The method `v.Index(i)` of a slice. -/
def Value.Index (st : Store) (v : Value) (i : Int) : Except Panic Value :=
  match v, v.read st with
  | .ref a loc fl, .ok (.slice _ xs) =>
    if 0 ≤ i ∧ i < xs.length then .ok (.ref a (loc ++ [.index i.toNat]) ⟨fl.ro, false⟩)
    else .error .indexOutOfRange
  | _, .ok (.nilSlice _) => .error .indexOutOfRange
  | _, .ok _ => .error .wrongKind
  | _, .error p => .error p

/-- The method `v.Field(i)` of a struct. -/
def Value.Field (st : Store) (v : Value) (i : Nat) : Except Panic Value :=
  match v, v.read st with
  | .ref a loc fl, .ok (.struct _ fs) =>
    match fs[i]? with
    | some f =>
      .ok (.ref a (loc ++ [.field i])
        ⟨fl.stickyRO || (!f.exported && !f.embedded), !f.exported && f.embedded⟩)
    | none => .error .indexOutOfRange
  | _, .ok _ => .error .wrongKind
  | _, .error p => .error p

/-- The loop of `v.FieldByIndex(index)` after its first step. -/
def Value.fieldByIndexLoop (st : Store) : Value → List Nat → Except Panic Value
  | v, [] => .ok v
  | v, x :: index =>
    match v.read st with
    | .ok (.ptr (.struct _ _) none) => .error .nilEmbedded
    | .ok (.ptr (.struct _ _) (some _)) =>
      match v.Elem st with
      | .ok w =>
        match w.Field st x with
        | .ok u => Value.fieldByIndexLoop st u index
        | .error p => .error p
      | .error p => .error p
    | .ok _ =>
      match v.Field st x with
      | .ok u => Value.fieldByIndexLoop st u index
      | .error p => .error p
    | .error p => .error p

/-- The method `v.FieldByIndex(index)`. -/
def Value.FieldByIndex (st : Store) (v : Value) : List Nat → Except Panic Value
  | [] => .ok v
  | x :: index =>
    match v.Field st x with
    | .ok u => Value.fieldByIndexLoop st u index
    | .error p => .error p

/-- The method `v.FieldByName(name)`, as `Schema.Value.FieldByName`. -/
def Value.FieldByName (st : Store) (v : Value) (name : String) : Except Panic Value :=
  match v.read st with
  | .ok (.struct n fs) =>
    match (Val.struct n fs).typeOf.FieldByName name with
    | some index => v.FieldByIndex st index
    | none => .ok .invalid
  | .ok (.fileHeader _) =>
    if fileHeaderFields.contains name && v.CanSet then .error .fileField else .ok .invalid
  | .ok _ => .error .wrongKind
  | .error p => .error p

/-- The function `reflect.New(t)`: a new cell with the zero value, and the pointer to it. -/
def reflectNew (st : Store) (t : Ty) : Store × Val := (st ++ [zero t], .ptr t (some st.length))

/-- The function `reflect.MakeSlice(t, n, n)`. -/
def reflectMakeSlice (t : Ty) (n : Int) : Except Panic Val :=
  match t with
  | .slice e =>
    if n < 0 then .error .negativeLen
    else if maxAlloc < e.size * n.toNat then .error .allocation
    else .ok (.slice e (List.replicate n.toNat (zero e)))
  | _ => .error .wrongKind

/-- The function `reflect.Copy(dst, src)` on two slices of one type. -/
def reflectCopy (dst src : Val) : Except Panic Val :=
  match dst, src with
  | .slice e xs, .slice _ ys => .ok (.slice e (ys.take xs.length ++ xs.drop ys.length))
  | .slice e xs, .nilSlice _ => .ok (.slice e xs)
  | _, _ => .error .wrongKind

/-- The function `reflect.Append(s, items...)`. -/
def reflectAppend (s : Val) (items : List Val) : Except Panic Val :=
  match s with
  | .slice e xs =>
    if items.all (fun x => Ty.same x.typeOf e) then .ok (.slice e (xs ++ items))
    else .error .notAssignable
  | .nilSlice e =>
    if items.all (fun x => Ty.same x.typeOf e) then .ok (.slice e items)
    else .error .notAssignable
  | _ => .error .wrongKind

/-- The values `reflect.ValueOf(p)` of the pointers of the form: a header that a pointer refers
to becomes a new cell. -/
def reflectValueOf (st : Store) : List (Option FileHeader) → Store × List Val
  | [] => (st, [])
  | none :: ps =>
    match reflectValueOf st ps with
    | (st1, xs) => (st1, .ptr .fileHeader none :: xs)
  | some h :: ps =>
    match reflectValueOf (st ++ [.fileHeader h]) ps with
    | (st1, xs) => (st1, .ptr .fileHeader (some st.length) :: xs)

/-- The expression `reflect.ValueOf(p).Elem()`: the zero Value for a nil pointer. -/
def reflectValueOfElem : Option FileHeader → Option Val
  | none => none
  | some h => some (.fileHeader h)

/-- The step through a pointer, as `Schema.dereference`. -/
def dereference (st : Store) (v : Value) : Except Panic (Store × Value × Ty) := do
  let t ← v.Type st
  match t with
  | .ptr e =>
    let st ← (if (← v.IsNil st) then v.Set (reflectNew st e).1 (some (reflectNew st e).2)
      else pure st)
    let v ← v.Elem st
    pure (st, v, e)
  | _ => pure (st, v, t)

/-- The loop over `parts[0].path` at the head of `decodeMultipart`. -/
def walkFields (st : Store) (v : Value) : List String → Except Panic (Store × Value)
  | [] => .ok (st, v)
  | name :: names =>
    match dereference st v with
    | .error p => .error p
    | .ok (st, v, _) =>
      match v.FieldByName st name with
      | .error p => .error p
      | .ok v => walkFields st v names

/-- The slice that takes the place of a nil or short one. -/
def grownSlice (st : Store) (v : Value) (t : Ty) (idx : Int) : Except Panic Val := do
  let value ← reflectMakeSlice t (wrapInt (idx + 1))
  if (← v.Len st) < wrapInt (idx + 1) then reflectCopy value (← v.read st) else pure value

/-- The "Slice of structs" step up to the recursive call. -/
def growAndIndex (st : Store) (v : Value) (t : Ty) (idx : Int) :
    Except Panic (Store × Value) := do
  let short ← (if (← v.IsNil st) then pure true
    else do pure (decide ((← v.Len st) < wrapInt (idx + 1))))
  let st ← (if short then do v.Set st (some (← grownSlice st v t idx)) else pure st)
  let v ← v.Index st idx
  pure (st, v)

/-- The "Simple case": a slice takes all values, anything else the last one. -/
def assignLeaf (st : Store) (v : Value) (t : Ty) (values : List (Option FileHeader)) :
    Except Panic Store :=
  match t with
  | .slice _ => do
    let value ← reflectAppend (← reflectMakeSlice t 0) (reflectValueOf st values).2
    v.Set (reflectValueOf st values).1 (some value)
  | _ =>
    let value : Option FileHeader :=
      match values.getLast? with
      | some p => p
      | none => none
    v.Set st (reflectValueOfElem value)

/-- The method `decodeMultipart(v, path, parts, values)` on a store: the error it returns and
the store it leaves behind. -/
def decodeMultipart (st : Store) (v : Value) (path : String) :
    List PathPart → List (Option FileHeader) → Except Panic (Option Error × Store)
  | [], _ => .error .indexOutOfRange
  | part :: rest, values =>
    match walkFields st v part.path with
    | .error p => .error p
    | .ok (st, v) =>
      if !v.CanSet then .ok (none, st)
      else
        match dereference st v with
        | .error p => .error p
        | .ok (st, v, t) =>
          match rest with
          | _ :: _ =>
            match growAndIndex st v t part.index with
            | .error p => .error p
            | .ok (st, v) => decodeMultipart st v path rest values
          | [] =>
            match assignLeaf st v t values with
            | .error p => .error p
            | .ok st => .ok (none, st)

/-- A `BlogPost` whose `HeaderImage` and `Pictures[0]` are one pointer, to the file header in
cell 1: `p := &multipart.FileHeader{...}; BlogPost{HeaderImage: p, Pictures: {p}}`. -/
def sharedPost : Store :=
  [.struct "BlogPost"
    [⟨"Post", true, true, zero Post⟩,
     ⟨"Id", true, false, .int 0⟩,
     ⟨"Ignored", true, false, .str ""⟩,
     ⟨"Ratings", true, false, .nilSlice .int⟩,
     ⟨"Author", true, false, zero Person⟩,
     ⟨"Coauthor", true, false, .ptr Person none⟩,
     ⟨"Readers", true, false, .nilSlice Person⟩,
     ⟨"Contributors", true, false, .nilSlice (.ptr Person)⟩,
     ⟨"HeaderImage", true, false, .ptr .fileHeader (some 1)⟩,
     ⟨"Pictures", true, false, .slice (.ptr .fileHeader) [.ptr .fileHeader (some 1)]⟩,
     ⟨"unexported", false, false, .str ""⟩],
   .fileHeader upload1]

end Shared

/-! # Lemmas -/

/-! ## Type identity and zero values -/

mutual
theorem Ty.same_refl : ∀ t : Ty, Ty.same t t = true
  | .int => by simp [Ty.same]
  | .string => by simp [Ty.same]
  | .fileHeader => by simp [Ty.same]
  | .ptr e => by simp [Ty.same, Ty.same_refl e]
  | .slice e => by simp [Ty.same, Ty.same_refl e]
  | .struct n fs => by simp [Ty.same, Ty.sameFields_refl fs]
theorem Ty.sameFields_refl : ∀ fs : List (StructField Ty), Ty.sameFields fs fs = true
  | [] => by simp [Ty.sameFields]
  | f :: fs => by simp [Ty.sameFields, Ty.same_refl f.val, Ty.sameFields_refl fs]
end

mutual
theorem Ty.same_eq : ∀ a b : Ty, Ty.same a b = true → a = b
  | .int, b => by cases b <;> simp [Ty.same]
  | .string, b => by cases b <;> simp [Ty.same]
  | .fileHeader, b => by cases b <;> simp [Ty.same]
  | .ptr e, b => by
    cases b <;> simp [Ty.same]
    exact Ty.same_eq e _
  | .slice e, b => by
    cases b <;> simp [Ty.same]
    exact Ty.same_eq e _
  | .struct n fs, b => by
    cases b <;> simp [Ty.same]
    intro h1 h2
    exact ⟨h1, Ty.sameFields_eq fs _ h2⟩
theorem Ty.sameFields_eq : ∀ fs gs : List (StructField Ty), Ty.sameFields fs gs = true → fs = gs
  | [], gs => by cases gs <;> simp [Ty.sameFields]
  | f :: fs, gs => by
    cases gs with
    | nil => simp [Ty.sameFields]
    | cons g gs =>
      simp [Ty.sameFields]
      intro h1 h2 h3 h4 h5
      refine ⟨?_, Ty.sameFields_eq fs gs h5⟩
      cases f; cases g
      simp at h1 h2 h3 h4 ⊢
      exact ⟨h1, h2, h3, Ty.same_eq _ _ h4⟩
end

mutual
theorem Ty.typeOf_zero : ∀ t : Ty, t.zero.typeOf = t
  | .int => by simp [Ty.zero, Val.typeOf]
  | .string => by simp [Ty.zero, Val.typeOf]
  | .fileHeader => by simp [Ty.zero, Val.typeOf]
  | .ptr e => by simp [Ty.zero, Val.typeOf]
  | .slice e => by simp [Ty.zero, Val.typeOf]
  | .struct n fs => by simp [Ty.zero, Val.typeOf, Ty.typeOfFields_zeroFields fs]
theorem Ty.typeOfFields_zeroFields :
    ∀ fs : List (StructField Ty), Val.typeOfFields (Ty.zeroFields fs) = fs
  | [] => by simp [Ty.zeroFields, Val.typeOfFields]
  | f :: fs => by
    simp [Ty.zeroFields, Val.typeOfFields, Ty.typeOf_zero f.val, Ty.typeOfFields_zeroFields fs]
end

/-! ## Locations: what `get` sees after `set` -/

theorem Val.get_nil (r : Val) : r.get [] = some r := by
  cases r <;> rfl

theorem Val.set_nil (r y : Val) : r.set [] y = y := by
  cases r <;> rfl

theorem Val.get_append (r : Val) (l m : Loc) :
    r.get (l ++ m) = (r.get l).bind (fun x => x.get m) := by
  induction l generalizing r with
  | nil => simp [Val.get_nil]
  | cons s l ih =>
    cases r <;> cases s <;> simp [Val.get]
    case struct.field n fs i =>
      cases h : fs[i]? <;> simp [ih]
    case ptrTo.elem x => exact ih x
    case slice.index e xs i =>
      cases h : xs[i]? <;> simp [ih]

theorem Val.get_set_same (r : Val) (l : Loc) (y x : Val) (h : r.get l = some x) :
    (r.set l y).get l = some y := by
  induction l generalizing r with
  | nil => simp [Val.set_nil, Val.get_nil]
  | cons s l ih =>
    cases r <;> cases s <;> simp [Val.get] at h
    case struct.field n fs i =>
      cases hf : fs[i]? with
      | none => simp [hf] at h
      | some f =>
        simp [hf] at h
        have hi : i < fs.length := by
          rcases List.getElem?_eq_some_iff.mp hf with ⟨hi, _⟩
          exact hi
        simp [Val.set, hf, Val.get, List.getElem?_set, hi, ih _ h]
    case ptrTo.elem x0 =>
      simp [Val.set, Val.get, ih _ h]
    case slice.index e xs i =>
      cases hf : xs[i]? with
      | none => simp [hf] at h
      | some f =>
        simp [hf] at h
        have hi : i < xs.length := by
          rcases List.getElem?_eq_some_iff.mp hf with ⟨hi, _⟩
          exact hi
        simp [Val.set, hf, Val.get, List.getElem?_set, hi, ih _ h]

theorem Val.set_append (r : Val) (l m : Loc) (y x : Val) (h : r.get l = some x) :
    r.set (l ++ m) y = r.set l (x.set m y) := by
  induction l generalizing r with
  | nil =>
    simp [Val.get_nil] at h
    simp [Val.set_nil, h]
  | cons s l ih =>
    cases r <;> cases s <;> simp [Val.get] at h
    case struct.field n fs i =>
      cases hf : fs[i]? with
      | none => simp [hf] at h
      | some f =>
        simp [hf] at h
        simp [Val.set, hf, ih _ h]
    case ptrTo.elem x0 =>
      simp [Val.set, ih _ h]
    case slice.index e xs i =>
      cases hf : xs[i]? with
      | none => simp [hf] at h
      | some f =>
        simp [hf] at h
        simp [Val.set, hf, ih _ h]

theorem Val.get_set_disjoint (r : Val) (l m : Loc) (y : Val)
    (h1 : ¬ l <+: m) (h2 : ¬ m <+: l) : (r.set l y).get m = r.get m := by
  induction l generalizing r m with
  | nil => exact absurd List.nil_prefix h1
  | cons s l ih =>
    cases m with
    | nil => exact absurd List.nil_prefix h2
    | cons s2 m =>
      rcases eq_or_ne s s2 with hs | hs
      · subst hs
        have hlm : ¬ l <+: m := fun h => h1 ((List.prefix_cons_inj s).mpr h)
        have hml : ¬ m <+: l := fun h => h2 ((List.prefix_cons_inj s).mpr h)
        cases r <;> cases s <;> simp [Val.set, Val.get]
        case inl.struct.field n fs i =>
          cases hf : fs[i]? with
          | none => simp [Val.get, hf]
          | some f =>
            have hi : i < fs.length := by
              rcases List.getElem?_eq_some_iff.mp hf with ⟨hi, _⟩
              exact hi
            simp [Val.get, hf, List.getElem?_set, hi, ih _ _ hlm hml]
        case inl.ptrTo.elem x0 => exact ih _ _ hlm hml
        case inl.slice.index e xs i =>
          cases hf : xs[i]? with
          | none => simp [Val.get, hf]
          | some f =>
            have hi : i < xs.length := by
              rcases List.getElem?_eq_some_iff.mp hf with ⟨hi, _⟩
              exact hi
            simp [Val.get, hf, List.getElem?_set, hi, ih _ _ hlm hml]
      · cases r <;> cases s <;> cases s2 <;> simp [Val.set, Val.get] <;> simp at hs <;>
          split <;> simp [Val.get, List.getElem?_set, hs]

/-- The last element of a list of uploads, as `decodeMultipart` picks it. -/
theorem getLast?_map_some (hs : List FileHeader) (h : hs ≠ []) :
    (hs.map some).getLast? = some (some (hs.getLast h)) := by
  rw [List.getLast?_map, List.getLast?_eq_getLast _ h]
  rfl

/-! ## The reflect operations at a location that exists -/

theorem Value.read_ref (root : Val) (loc : Loc) (fl : Flag) (x : Val) (h : root.get loc = some x) :
    (Value.ref loc fl).read root = .ok x := by
  simp [Value.read, h]

theorem Value.Type_ref (root : Val) (loc : Loc) (fl : Flag) (x : Val) (h : root.get loc = some x) :
    (Value.ref loc fl).Type root = .ok x.typeOf := by
  simp [Value.Type, Value.read, h]

theorem Value.Set_ok (root : Val) (loc : Loc) (fl : Flag) (old y : Val)
    (h : root.get loc = some old) (hro : fl.ro = false) (hty : y.typeOf = old.typeOf) :
    (Value.ref loc fl).Set root (some y) = .ok (root.set loc y) := by
  simp [Value.Set, h, hro, hty, Ty.same_refl]

theorem dereference_nilPtr (root : Val) (loc : Loc) (fl : Flag) (e : Ty)
    (h : root.get loc = some (.nilPtr e)) (hro : fl.ro = false) :
    dereference root (.ref loc fl)
      = .ok (root.set loc (.ptrTo e.zero), .ref (loc ++ [.elem]) fl, e) := by
  have hset : (Value.ref loc fl).Set root (some (reflectNew e))
      = .ok (root.set loc (.ptrTo e.zero)) :=
    Value.Set_ok root loc fl _ _ h hro (by simp [reflectNew, Val.typeOf, Ty.typeOf_zero])
  have hget : (root.set loc (.ptrTo e.zero)).get loc = some (.ptrTo e.zero) :=
    Val.get_set_same _ _ _ _ h
  simp [dereference, Value.Type_ref _ _ _ _ h, Val.typeOf, Value.IsNil, Value.read_ref _ _ _ _ h,
    hset, bind, Except.bind, pure, Except.pure, Value.Elem, Value.read_ref _ _ _ _ hget]

theorem dereference_ptrTo (root : Val) (loc : Loc) (fl : Flag) (x : Val)
    (h : root.get loc = some (.ptrTo x)) :
    dereference root (.ref loc fl) = .ok (root, .ref (loc ++ [.elem]) fl, x.typeOf) := by
  simp [dereference, Value.Type_ref _ _ _ _ h, Val.typeOf, Value.IsNil, Value.read_ref _ _ _ _ h,
    bind, Except.bind, pure, Except.pure, Value.Elem]

theorem dereference_other (root : Val) (loc : Loc) (fl : Flag) (x : Val)
    (h : root.get loc = some x) (hx : ∀ e, x.typeOf ≠ .ptr e) :
    dereference root (.ref loc fl) = .ok (root, .ref loc fl, x.typeOf) := by
  simp only [dereference, Value.Type_ref _ _ _ _ h, bind, Except.bind]
  rfl

theorem reflectValueOf_all_same (values : List (Option FileHeader)) :
    (values.map reflectValueOf).all (fun x => Ty.same x.typeOf (.ptr .fileHeader)) = true := by
  simp only [List.all_eq_true, List.mem_map]
  rintro x ⟨p, -, rfl⟩
  cases p <;> rfl

/-! ## The error map -/

theorem MultiError.lookup_insert (m : MultiError) (k j : String) (e : Error) :
    (m.insert k e).lookup j = if k = j then some e else m.lookup j := by
  induction m with
  | nil => simp [MultiError.insert, MultiError.lookup]
  | cons a m ih =>
    obtain ⟨a, b⟩ := a
    by_cases hak : a = k
    · subst hak
      by_cases haj : a = j <;> simp [MultiError.insert, MultiError.lookup, haj]
    · by_cases haj : a = j
      · subst haj
        have hka : ¬ k = a := fun h => hak h.symm
        simp [MultiError.insert, MultiError.lookup, hak, hka]
      · simp [MultiError.insert, MultiError.lookup, hak, haj, ih]

theorem MultiError.eq_nil_iff (m : MultiError) : m = [] ↔ ∀ k, m.lookup k = none := by
  constructor
  · rintro rfl k
    rfl
  · intro h
    cases m with
    | nil => rfl
    | cons a m =>
      obtain ⟨a, b⟩ := a
      have := h a
      simp [MultiError.lookup] at this

/-! ## `decodeMultipart` returns nil whenever it returns -/

theorem decodeMultipart_error_nil (path : String) (parts : List PathPart)
    (values : List (Option FileHeader)) :
    ∀ (root : Val) (v : Value) (e : Option Error) (r : Val),
      decodeMultipart root v path parts values = .ok (e, r) → e = none := by
  induction parts with
  | nil => intro root v e r h; simp [decodeMultipart] at h
  | cons part rest ih =>
    intro root v e r h
    unfold decodeMultipart at h
    split at h
    · simp at h
    · split at h
      · simp at h; exact h.1.symm
      · split at h
        · simp at h
        · split at h
          · split at h
            · simp at h
            · exact ih _ _ _ _ h
          · split at h
            · simp at h
            · simp at h; exact h.1.symm

/-! ## The loop over the file map -/

theorem decodeFiles_cons (d : MultipartDecoder) (t : Ty) (path : String)
    (multiparts : List (Option FileHeader)) (rest : List (String × List (Option FileHeader)))
    (errors : MultiError) (root : Val) :
    decodeFiles d t ((path, multiparts) :: rest) errors root =
      match d.parsePath path t with
      | some parts =>
        match decodeMultipart root Value.root path parts multiparts with
        | .error p => .error p
        | .ok (_, root1) => decodeFiles d t rest errors root1
      | none =>
        if d.ignoreUnknownKeys = false
        then decodeFiles d t rest (errors.insert path (.invalidPath path)) root
        else decodeFiles d t rest errors root := by
  rw [decodeFiles]
  cases hp : d.parsePath path t with
  | none => cases hi : d.ignoreUnknownKeys <;> simp
  | some parts =>
    simp only
    cases hd : decodeMultipart root Value.root path parts multiparts with
    | error p => rfl
    | ok res =>
      obtain ⟨e, r⟩ := res
      have he := decodeMultipart_error_nil _ _ _ _ _ _ _ hd
      subst he
      rfl

theorem decodeFiles_lookup (d : MultipartDecoder) (t : Ty)
    (files : List (String × List (Option FileHeader))) :
    ∀ (errors : MultiError) (root : Val) (errors1 : MultiError) (root1 : Val),
      decodeFiles d t files errors root = .ok (errors1, root1) →
      ∀ k, errors1.lookup k =
        if d.ignoreUnknownKeys = false ∧ k ∈ files.map Prod.fst ∧ d.parsePath k t = none
        then some (.invalidPath k) else errors.lookup k := by
  induction files with
  | nil =>
    intro errors root errors1 root1 h k
    simp [decodeFiles] at h
    simp [h.1]
  | cons a files ih =>
    obtain ⟨path, multiparts⟩ := a
    intro errors root errors1 root1 h k
    rw [decodeFiles_cons] at h
    cases hp : d.parsePath path t with
    | some parts =>
      simp only [hp] at h
      cases hd : decodeMultipart root Value.root path parts multiparts with
      | error p => simp [hd] at h
      | ok res =>
        simp only [hd] at h
        rw [ih _ _ _ _ h k]
        by_cases hk : k = path
        · subst hk
          simp [hp]
        · simp only [List.map_cons, List.mem_cons, hk, false_or]
    | none =>
      simp only [hp] at h
      cases hi : d.ignoreUnknownKeys with
      | true =>
        simp [hi] at h
        rw [ih _ _ _ _ h k]
        simp [hi]
      | false =>
        simp [hi] at h
        rw [ih _ _ _ _ h k, MultiError.lookup_insert]
        by_cases hk : path = k
        · subst hk
          simp [hp]
        · have hk2 : ¬ k = path := fun h => hk h.symm
          simp only [hi, List.map_cons, List.mem_cons, hk, hk2, false_or, if_false]

theorem decodeFiles_target (d : MultipartDecoder) (t : Ty)
    (files : List (String × List (Option FileHeader))) :
    ∀ (errors errors1 : MultiError) (root : Val),
      (decodeFiles d t files errors root).map Prod.snd
        = (decodeFiles d t (files.filter (fun kv => (d.parsePath kv.1 t).isSome)) errors1 root).map
            Prod.snd := by
  induction files with
  | nil => intro errors errors1 root; simp [decodeFiles, Except.map]
  | cons a files ih =>
    obtain ⟨path, multiparts⟩ := a
    intro errors errors1 root
    cases hp : d.parsePath path t with
    | some parts =>
      simp only [List.filter, hp, Option.isSome]
      rw [decodeFiles_cons, decodeFiles_cons]
      simp only [hp]
      cases hd : decodeMultipart root Value.root path parts multiparts with
      | error p => simp [Except.map]
      | ok res => exact ih _ _ _
    | none =>
      simp only [List.filter, hp, Option.isSome]
      rw [decodeFiles_cons]
      simp only [hp]
      split
      · exact ih _ _ _
      · exact ih _ _ _

theorem decodeFiles_skip (d : MultipartDecoder) (t : Ty) (key : String)
    (multiparts : List (Option FileHeader)) (hi : d.ignoreUnknownKeys = true)
    (hp : d.parsePath key t = none) (before after : List (String × List (Option FileHeader))) :
    ∀ (errors : MultiError) (root : Val),
      decodeFiles d t (before ++ (key, multiparts) :: after) errors root
        = decodeFiles d t (before ++ after) errors root := by
  induction before with
  | nil =>
    intro errors root
    simp [decodeFiles_cons, hp, hi]
  | cons a before ih =>
    obtain ⟨path, mp⟩ := a
    intro errors root
    simp only [List.cons_append]
    rw [decodeFiles_cons, decodeFiles_cons]
    split
    · split
      · rfl
      · exact ih _ _
    · split
      · exact ih _ _
      · exact ih _ _

/-! ## What the descent leaves in place -/

theorem Val.KeepsOff.refl (p : Loc) (r : Val) : Val.KeepsOff p r r :=
  fun _ _ _ h => h

theorem Val.KeepsOff.trans {p : Loc} {r r1 r2 : Val} (h1 : Val.KeepsOff p r r1)
    (h2 : Val.KeepsOff p r1 r2) : Val.KeepsOff p r r2 :=
  fun l x hl h => h2 l x hl (h1 l x hl h)

theorem Val.KeepsOff.mono {p q : Loc} {r r1 : Val} (hpq : p <+: q) (h : Val.KeepsOff p r r1) :
    Val.KeepsOff q r r1 :=
  fun l x hl hx => h l x (fun hlp => hl (hlp.trans hpq)) hx

/-- A write at `p` keeps every other location when the new value has all the parts of the old. -/
theorem Val.KeepsOff.set (r : Val) (p : Loc) (old y : Val) (h : r.get p = some old)
    (hext : ∀ m x, m ≠ [] → old.get m = some x → y.get m = some x) :
    Val.KeepsOff p r (r.set p y) := by
  intro l x hl hx
  by_cases hpl : p <+: l
  · obtain ⟨m, rfl⟩ := hpl
    have hm : m ≠ [] := by
      rintro rfl
      exact hl (by simp)
    rw [Val.get_append, h] at hx
    rw [Val.get_append, Val.get_set_same r p y old h]
    exact hext m x hm hx
  · rw [Val.get_set_disjoint r p l y hpl hl]
    exact hx

theorem Value.Field_loc (root : Val) (v : Value) (i : Nat) (loc1 : Loc) (fl1 : Flag)
    (h : v.Field root i = .ok (.ref loc1 fl1)) : ∃ loc fl, v = .ref loc fl ∧ loc <+: loc1 := by
  cases v with
  | invalid => simp [Value.Field, Value.read] at h
  | ref loc fl =>
    refine ⟨loc, fl, rfl, ?_⟩
    cases hg : root.get loc with
    | none => simp [Value.Field, Value.read, hg] at h
    | some x =>
      cases x <;> simp [Value.Field, Value.read, hg] at h
      case struct n fs =>
        cases hf : fs[i]? <;> simp [hf] at h
        rw [← h.1]
        exact List.prefix_append _ _

theorem Value.Elem_loc (root : Val) (v : Value) (loc1 : Loc) (fl1 : Flag)
    (h : v.Elem root = .ok (.ref loc1 fl1)) : ∃ loc fl, v = .ref loc fl ∧ loc <+: loc1 := by
  cases v with
  | invalid => simp [Value.Elem, Value.read] at h
  | ref loc fl =>
    refine ⟨loc, fl, rfl, ?_⟩
    cases hg : root.get loc with
    | none => simp [Value.Elem, Value.read, hg] at h
    | some x =>
      cases x <;> simp [Value.Elem, Value.read, hg] at h
      case ptrTo y =>
        rw [← h.1]
        exact List.prefix_append _ _

theorem Value.fieldByIndexLoop_loc (root : Val) (index : List Nat) :
    ∀ (v : Value) (loc1 : Loc) (fl1 : Flag),
      Value.fieldByIndexLoop root v index = .ok (.ref loc1 fl1) →
      ∃ loc fl, v = .ref loc fl ∧ loc <+: loc1 := by
  induction index with
  | nil =>
    intro v loc1 fl1 h
    simp [Value.fieldByIndexLoop] at h
    exact ⟨loc1, fl1, h, List.prefix_refl _⟩
  | cons x index ih =>
    intro v loc1 fl1 h
    unfold Value.fieldByIndexLoop at h
    split at h
    · simp at h
    · cases he : v.Elem root with
      | error p => simp [he] at h
      | ok w =>
        simp only [he] at h
        cases hf : w.Field root x with
        | error p => simp [hf] at h
        | ok u =>
          simp only [hf] at h
          obtain ⟨l2, f2, rfl, h2⟩ := ih _ _ _ h
          obtain ⟨l3, f3, rfl, h3⟩ := Value.Field_loc _ _ _ _ _ hf
          obtain ⟨l4, f4, rfl, h4⟩ := Value.Elem_loc _ _ _ _ he
          exact ⟨l4, f4, rfl, (h4.trans h3).trans h2⟩
    · cases hf : v.Field root x with
      | error p => simp [hf] at h
      | ok u =>
        simp only [hf] at h
        obtain ⟨l2, f2, rfl, h2⟩ := ih _ _ _ h
        obtain ⟨l3, f3, rfl, h3⟩ := Value.Field_loc _ _ _ _ _ hf
        exact ⟨l3, f3, rfl, h3.trans h2⟩
    · simp at h

theorem Value.FieldByName_loc (root : Val) (v : Value) (name : String) (loc1 : Loc) (fl1 : Flag)
    (h : v.FieldByName root name = .ok (.ref loc1 fl1)) :
    ∃ loc fl, v = .ref loc fl ∧ loc <+: loc1 := by
  cases v with
  | invalid => simp [Value.FieldByName, Value.read] at h
  | ref loc fl =>
    refine ⟨loc, fl, rfl, ?_⟩
    unfold Value.FieldByName at h
    split at h
    · split at h
      · next index _ =>
        cases index with
        | nil =>
          simp [Value.FieldByIndex] at h
          rw [h.1]
        | cons x index =>
          simp only [Value.FieldByIndex] at h
          cases hf : (Value.ref loc fl).Field root x with
          | error p => simp [hf] at h
          | ok u =>
            simp only [hf] at h
            obtain ⟨l2, f2, rfl, h2⟩ := Value.fieldByIndexLoop_loc _ _ _ _ _ h
            obtain ⟨l3, f3, h3, h4⟩ := Value.Field_loc _ _ _ _ _ hf
            cases h3
            exact h4.trans h2
      · simp at h
    · split at h <;> simp at h
    · simp at h
    · simp at h

theorem Val.typeOfFields_eq_map (fs : List (StructField Val)) :
    Val.typeOfFields fs = fs.map (fun f => ⟨f.name, f.exported, f.embedded, f.val.typeOf⟩) := by
  induction fs with
  | nil => simp [Val.typeOfFields]
  | cons f fs ih => simp [Val.typeOfFields, ih]

/-- A write of a value of the type that is there leaves the type of the whole as it is. -/
theorem Val.typeOf_set (r : Val) (l : Loc) (y old : Val) (h : r.get l = some old)
    (hty : y.typeOf = old.typeOf) : (r.set l y).typeOf = r.typeOf := by
  induction l generalizing r with
  | nil =>
    simp [Val.get_nil] at h
    simp [Val.set_nil, hty, h]
  | cons s l ih =>
    cases r <;> cases s <;> simp [Val.get] at h
    case struct.field n fs i =>
      cases hf : fs[i]? with
      | none => simp [hf] at h
      | some f =>
        simp [hf] at h
        have hi : i < fs.length := by
          rcases List.getElem?_eq_some_iff.mp hf with ⟨hi, _⟩
          exact hi
        have hfi : fs[i] = f := by
          rcases List.getElem?_eq_some_iff.mp hf with ⟨_, h2⟩
          exact h2
        simp only [Val.set, hf, Val.typeOf, Val.typeOfFields_eq_map, List.map_set, ih _ h]
        congr 1
        apply List.ext_getElem
        · simp
        · intro j h1 h2
          simp only [List.getElem_set, List.getElem_map]
          split
          · next hij => subst hij; simp [hfi]
          · rfl
    case ptrTo.elem x0 =>
      simp [Val.set, Val.typeOf, ih _ h]
    case slice.index e xs i =>
      cases hf : xs[i]? with
      | none => simp [hf] at h
      | some f => simp [Val.set, hf, Val.typeOf]

theorem Value.Set_inv (root : Val) (v : Value) (y root1 : Val)
    (h : v.Set root (some y) = .ok root1) :
    ∃ loc fl old, v = .ref loc fl ∧ fl.ro = false ∧ root.get loc = some old
      ∧ y.typeOf = old.typeOf ∧ root1 = root.set loc y := by
  cases v with
  | invalid => simp [Value.Set] at h
  | ref loc fl =>
    cases hro : fl.ro with
    | true => simp [Value.Set, hro] at h
    | false =>
      cases hg : root.get loc with
      | none => simp [Value.Set, hro, hg] at h
      | some old =>
        by_cases hs : Ty.same y.typeOf old.typeOf = true
        · simp [Value.Set, hro, hg, hs] at h
          exact ⟨loc, fl, old, rfl, hro, hg, Ty.same_eq _ _ hs, h.symm⟩
        · simp [Value.Set, hro, hg, hs] at h

/-- The step through a pointer moves `v` down and changes nothing beside the pointer at `v`. -/
theorem dereference_keeps (root : Val) (v : Value) (root1 : Val) (loc1 : Loc) (fl1 : Flag)
    (t : Ty) (h : dereference root v = .ok (root1, .ref loc1 fl1, t)) :
    ∃ loc fl, v = .ref loc fl ∧ loc <+: loc1 ∧ Val.KeepsOff loc root root1
      ∧ root1.typeOf = root.typeOf := by
  cases v with
  | invalid => simp [dereference, Value.Type, Value.read, bind, Except.bind] at h
  | ref loc fl =>
    refine ⟨loc, fl, rfl, ?_⟩
    cases hg : root.get loc with
    | none => simp [dereference, Value.Type, Value.read, hg, bind, Except.bind] at h
    | some x =>
      rcases Classical.em (∀ e, x.typeOf ≠ .ptr e) with hx | hx
      · rw [dereference_other root loc fl x hg hx] at h
        simp at h
        obtain ⟨rfl, ⟨rfl, rfl⟩, -⟩ := h
        exact ⟨List.prefix_refl _, Val.KeepsOff.refl _ _, rfl⟩
      · cases x <;> simp [Val.typeOf] at hx
        case inr.nilPtr e =>
          cases hro : fl.ro with
          | true =>
            simp [dereference, Value.Type_ref _ _ _ _ hg, Val.typeOf, Value.IsNil,
              Value.read_ref _ _ _ _ hg, Value.Set, hro, bind, Except.bind] at h
          | false =>
            rw [dereference_nilPtr root loc fl e hg hro] at h
            simp at h
            obtain ⟨rfl, ⟨rfl, rfl⟩, -⟩ := h
            refine ⟨List.prefix_append _ _, Val.KeepsOff.set root loc _ _ hg ?_, ?_⟩
            · intro m x hm hx
              cases m with
              | nil => exact absurd rfl hm
              | cons s m => simp [Val.get] at hx
            · exact Val.typeOf_set root loc _ _ hg (by simp [Val.typeOf, Ty.typeOf_zero])
        case inr.ptrTo y =>
          rw [dereference_ptrTo root loc fl y hg] at h
          simp at h
          obtain ⟨rfl, ⟨rfl, rfl⟩, -⟩ := h
          exact ⟨List.prefix_append _ _, Val.KeepsOff.refl _ _, rfl⟩

/-- The loop over the field names moves `v` down and changes nothing beside the pointers it
passes. -/
theorem walkFields_keeps (names : List String) :
    ∀ (root : Val) (v : Value) (root1 : Val) (loc1 : Loc) (fl1 : Flag),
      walkFields root v names = .ok (root1, .ref loc1 fl1) →
      ∃ loc fl, v = .ref loc fl ∧ loc <+: loc1 ∧ Val.KeepsOff loc1 root root1
        ∧ root1.typeOf = root.typeOf := by
  induction names with
  | nil =>
    intro root v root1 loc1 fl1 h
    simp [walkFields] at h
    obtain ⟨rfl, rfl⟩ := h
    exact ⟨loc1, fl1, rfl, List.prefix_refl _, Val.KeepsOff.refl _ _, rfl⟩
  | cons name names ih =>
    intro root v root1 loc1 fl1 h
    unfold walkFields at h
    cases hd : dereference root v with
    | error p => simp [hd] at h
    | ok r =>
      obtain ⟨root2, v2, t⟩ := r
      simp only [hd] at h
      cases hf : v2.FieldByName root2 name with
      | error p => simp [hf] at h
      | ok v3 =>
        simp only [hf] at h
        obtain ⟨l3, f3, rfl, h3, k3, t3⟩ := ih _ _ _ _ _ h
        obtain ⟨l2, f2, rfl, h2⟩ := Value.FieldByName_loc _ _ _ _ _ hf
        obtain ⟨l1, f1, rfl, h1, k1, t1⟩ := dereference_keeps _ _ _ _ _ _ hd
        refine ⟨l1, f1, rfl, (h1.trans h2).trans h3, ?_, t3.trans t1⟩
        exact (k1.mono ((h1.trans h2).trans h3)).trans k3

theorem Value.Index_loc (root : Val) (v : Value) (i : Int) (loc1 : Loc) (fl1 : Flag)
    (h : v.Index root i = .ok (.ref loc1 fl1)) : ∃ loc fl, v = .ref loc fl ∧ loc <+: loc1 := by
  cases v with
  | invalid => simp [Value.Index, Value.read] at h
  | ref loc fl =>
    refine ⟨loc, fl, rfl, ?_⟩
    cases hg : root.get loc with
    | none => simp [Value.Index, Value.read, hg] at h
    | some x =>
      cases x <;> simp [Value.Index, Value.read, hg] at h
      case slice e xs =>
        split at h
        · simp at h
          rw [← h.1]
          exact List.prefix_append _ _
        · simp at h

/-- When `MakeSlice` returns, the type is a slice type, the length is not negative and within
what the runtime allocates, and the slice holds so many zero values. -/
theorem reflectMakeSlice_ok (t : Ty) (n : Int) (value : Val)
    (h : reflectMakeSlice t n = .ok value) :
    ∃ e, t = .slice e ∧ 0 ≤ n ∧ e.size * n.toNat ≤ maxAlloc
      ∧ value = .slice e (List.replicate n.toNat e.zero) := by
  cases t <;> simp only [reflectMakeSlice] at h
  case slice e =>
    by_cases h1 : n < 0
    · simp [h1] at h
    · by_cases h2 : maxAlloc < e.size * n.toNat
      · simp [h1, h2] at h
      · simp only [h1, h2, if_false, Except.ok.injEq] at h
        exact ⟨e, rfl, by omega, by omega, h.symm⟩
  all_goals simp at h

/-- `MakeSlice` returns for a length that is not negative and within what the runtime
allocates. -/
theorem reflectMakeSlice_slice (e : Ty) (n : Int) (h0 : 0 ≤ n)
    (h1 : e.size * n.toNat ≤ maxAlloc) :
    reflectMakeSlice (.slice e) n = .ok (.slice e (List.replicate n.toNat e.zero)) := by
  have h2 : ¬ n < 0 := by omega
  have h3 : ¬ maxAlloc < e.size * n.toNat := by omega
  simp [reflectMakeSlice, h2, h3]

/-- `MakeSlice` of no elements returns. -/
theorem reflectMakeSlice_zero (e : Ty) :
    reflectMakeSlice (.slice e) 0 = .ok (.slice e []) := by
  simp [reflectMakeSlice]

/-- The slice made for a nil or short slice has the elements of the old one in their places. -/
theorem grownSlice_extends (root : Val) (loc : Loc) (fl : Flag) (t : Ty) (idx : Int)
    (value old : Val) (hg : root.get loc = some old)
    (h : grownSlice root (.ref loc fl) t idx = .ok value)
    (hs : ∀ e xs, old = .slice e xs → (xs.length : Int) < wrapInt (idx + 1)) :
    ∀ m x, m ≠ [] → old.get m = some x → value.get m = some x := by
  intro m x hm hx
  cases m with
  | nil => exact absurd rfl hm
  | cons s m =>
    cases old <;> cases s <;> simp [Val.get] at hx
    case struct.field n fs i =>
      simp [grownSlice, Value.Len, Value.read, hg, bind, Except.bind] at h
      split at h <;> simp at h
    case ptrTo.elem y =>
      simp [grownSlice, Value.Len, Value.read, hg, bind, Except.bind] at h
      split at h <;> simp at h
    case slice.index e xs i =>
      have hlt := hs e xs rfl
      cases hm : reflectMakeSlice t (wrapInt (idx + 1)) with
      | error p => simp [grownSlice, hm, bind, Except.bind] at h
      | ok val =>
        obtain ⟨e0, rfl, hnn, -, rfl⟩ := reflectMakeSlice_ok _ _ _ hm
        simp [grownSlice, hm, Value.Len, Value.read, hg, hlt, reflectCopy, bind,
          Except.bind] at h
        subst h
        have hlen : xs.length ≤ (wrapInt (idx + 1)).toNat := by omega
        cases hi : xs[i]? with
        | none => simp [hi] at hx
        | some y =>
          have hil : i < xs.length := by
            rcases List.getElem?_eq_some_iff.mp hi with ⟨h1, _⟩
            exact h1
          simp only [hi] at hx
          simp only [Val.get, List.length_replicate, List.take_of_length_le hlen]
          rw [List.getElem?_append_left hil, hi]
          exact hx

/-- The "Slice of structs" step moves `v` to an element and changes nothing beside the slice. -/
theorem growAndIndex_keeps (root : Val) (v : Value) (t : Ty) (idx : Int) (root1 : Val)
    (loc1 : Loc) (fl1 : Flag) (h : growAndIndex root v t idx = .ok (root1, .ref loc1 fl1)) :
    ∃ loc fl, v = .ref loc fl ∧ loc <+: loc1 ∧ Val.KeepsOff loc root root1
      ∧ root1.typeOf = root.typeOf := by
  have hgrow : ∀ value root2, v.Set root (some value) = .ok root2 →
      grownSlice root v t idx = .ok value →
      (∀ loc fl e xs, v = .ref loc fl → root.get loc = some (.slice e xs) →
        (xs.length : Int) < wrapInt (idx + 1)) →
      ∃ loc fl, v = .ref loc fl ∧ Val.KeepsOff loc root root2 ∧ root2.typeOf = root.typeOf := by
    intro value root2 hset hgs hs
    obtain ⟨loc, fl, old, rfl, -, hg, hty, rfl⟩ := Value.Set_inv _ _ _ _ hset
    refine ⟨loc, fl, rfl, Val.KeepsOff.set root loc old value hg ?_,
      Val.typeOf_set root loc value old hg hty⟩
    exact grownSlice_extends root loc fl t idx value old hg hgs
      (fun e xs hx => hs loc fl e xs rfl (by rw [hg, hx]))
  have hindex : ∀ root2 loc fl, v = .ref loc fl → Val.KeepsOff loc root root2 →
      root2.typeOf = root.typeOf → v.Index root2 idx = .ok (.ref loc1 fl1) →
      ∃ loc fl, v = .ref loc fl ∧ loc <+: loc1 ∧ Val.KeepsOff loc root root2
        ∧ root2.typeOf = root.typeOf := by
    intro root2 loc fl hv hk hty hi
    obtain ⟨l2, f2, hv2, hp⟩ := Value.Index_loc _ _ _ _ _ hi
    rw [hv] at hv2
    cases hv2
    exact ⟨loc, fl, hv, hp, hk, hty⟩
  have hgrown : ∀ root2 value, grownSlice root v t idx = .ok value →
      v.Set root (some value) = .ok root2 →
      (∀ loc fl e xs, v = .ref loc fl → root.get loc = some (.slice e xs) →
        (xs.length : Int) < wrapInt (idx + 1)) →
      v.Index root2 idx = .ok (.ref loc1 fl1) →
      ∃ loc fl, v = .ref loc fl ∧ loc <+: loc1 ∧ Val.KeepsOff loc root root2
        ∧ root2.typeOf = root.typeOf := by
    intro root2 value hgs h1 hs hi
    obtain ⟨loc, fl, hv, hk, hty⟩ := hgrow value root2 h1 hgs hs
    exact hindex root2 loc fl hv hk hty hi
  simp only [growAndIndex, bind, Except.bind, pure, Except.pure] at h
  cases hn : v.IsNil root with
  | error p => simp [hn] at h
  | ok b =>
    simp only [hn] at h
    cases b with
    | true =>
      simp only [if_true] at h
      split at h
      · simp at h
      · next root2 h1 =>
        cases hi : v.Index root2 idx with
        | error p => simp [hi] at h
        | ok w =>
          simp only [hi, Except.ok.injEq, Prod.mk.injEq] at h
          obtain ⟨rfl, rfl⟩ := h
          cases hgs : grownSlice root v t idx with
          | error p => simp [hgs] at h1
          | ok value =>
          simp only [hgs] at h1
          refine hgrown root2 value hgs h1 ?_ hi
          intro loc fl e xs hv hg
          subst hv
          simp [Value.IsNil, Value.read, hg] at hn
    | false =>
      simp only [Bool.false_eq_true, if_false] at h
      cases hl : v.Len root with
      | error p => simp [hl] at h
      | ok len =>
        simp only [hl] at h
        by_cases hlt : len < wrapInt (idx + 1)
        · simp only [hlt, decide_True, if_true] at h
          split at h
          · simp at h
          · next root2 h1 =>
            cases hi : v.Index root2 idx with
            | error p => simp [hi] at h
            | ok w =>
              simp only [hi, Except.ok.injEq, Prod.mk.injEq] at h
              obtain ⟨rfl, rfl⟩ := h
              cases hgs : grownSlice root v t idx with
              | error p => simp [hgs] at h1
              | ok value =>
              simp only [hgs] at h1
              refine hgrown root2 value hgs h1 ?_ hi
              intro loc fl e xs hv hg
              subst hv
              simp [Value.Len, Value.read, hg] at hl
              omega
        · simp only [hlt, decide_False, Bool.false_eq_true, if_false] at h
          cases hi : v.Index root idx with
          | error p => simp [hi] at h
          | ok w =>
            simp only [hi, Except.ok.injEq, Prod.mk.injEq] at h
            obtain ⟨rfl, rfl⟩ := h
            obtain ⟨l2, f2, hv2, hp⟩ := Value.Index_loc _ _ _ _ _ hi
            exact ⟨l2, f2, hv2, hp, Val.KeepsOff.refl _ _, rfl⟩

/-! ## `Decode` on a pointer to a struct -/

theorem Decode_valid (d : MultipartDecoder) (target : Val) (form : Form) (err : Option Error)
    (root1 : Val) (htarget : isPtrToStruct (some (.ptrTo target)) = true)
    (hbase : d.decode target form.Value = .ok (err, root1)) :
    d.Decode (some (.ptrTo target)) (some form) =
      match baseErrors err with
      | .error e => .ok (some e, some (.ptrTo root1))
      | .ok errors =>
        match decodeFiles d root1.typeOf form.File errors root1 with
        | .error p => .error p
        | .ok (errors1, root2) => .ok (returnErrors errors1, some (.ptrTo root2)) := by
  simp [MultipartDecoder.Decode, htarget, hbase]

theorem returnErrors_eq_none (errors : MultiError) : returnErrors errors = none ↔ errors = [] := by
  cases errors <;> simp [returnErrors]

theorem returnErrors_of_ne_nil (errors : MultiError) (h : errors ≠ []) :
    returnErrors errors = some (.multi errors) := by
  cases errors with
  | nil => exact absurd rfl h
  | cons a m => simp [returnErrors]

/-- `decodeMultipart` is the descent followed by the assignment of the "Simple case". -/
theorem decodeMultipart_eq_resolve (path : String) (parts : List PathPart)
    (values : List (Option FileHeader)) :
    ∀ (root : Val) (v : Value),
      decodeMultipart root v path parts values =
        match resolve root v parts with
        | .error p => .error p
        | .ok (root1, none) => .ok (none, root1)
        | .ok (root1, some (w, t)) =>
          match assignLeaf root1 w t values with
          | .error p => .error p
          | .ok root2 => .ok (none, root2) := by
  induction parts with
  | nil => intro root v; rfl
  | cons part rest ih =>
    intro root v
    unfold decodeMultipart resolve
    cases hw : walkFields root v part.path with
    | error p => rfl
    | ok r =>
      obtain ⟨root1, v1⟩ := r
      simp only
      cases hc : v1.CanSet with
      | false => rfl
      | true =>
        simp only [Bool.not_true, Bool.false_eq_true, if_false]
        cases hd : dereference root1 v1 with
        | error p => rfl
        | ok r2 =>
          obtain ⟨root2, v2, t⟩ := r2
          simp only
          cases rest with
          | nil => rfl
          | cons part2 rest2 =>
            simp only
            cases hg : growAndIndex root2 v2 t part.index with
            | error p => rfl
            | ok r3 =>
              obtain ⟨root3, v3⟩ := r3
              exact ih root3 v3

/-- The descent moves `v` down and changes nothing beside the pointers and slices it passes;
the type of the target stays. -/
theorem resolve_keeps (parts : List PathPart) :
    ∀ (root : Val) (v : Value) (root1 : Val) (loc1 : Loc) (fl1 : Flag) (t : Ty),
      resolve root v parts = .ok (root1, some (.ref loc1 fl1, t)) →
      ∃ loc fl, v = .ref loc fl ∧ loc <+: loc1 ∧ Val.KeepsOff loc1 root root1
        ∧ root1.typeOf = root.typeOf := by
  induction parts with
  | nil => intro root v root1 loc1 fl1 t h; simp [resolve] at h
  | cons part rest ih =>
    intro root v root1 loc1 fl1 t h
    unfold resolve at h
    cases hw : walkFields root v part.path with
    | error p => simp [hw] at h
    | ok r =>
      obtain ⟨root2, v2⟩ := r
      simp only [hw] at h
      cases v2 with
      | invalid => simp [Value.CanSet] at h
      | ref l2 f2 =>
        obtain ⟨l0, f0, rfl, p2, k2, t2⟩ := walkFields_keeps _ _ _ _ _ _ hw
        cases hc : (Value.ref l2 f2).CanSet with
        | false => simp [hc] at h
        | true =>
          simp only [hc, Bool.not_true, Bool.false_eq_true, if_false] at h
          cases hd : dereference root2 (.ref l2 f2) with
          | error p => simp [hd] at h
          | ok r3 =>
            obtain ⟨root3, v3, t3⟩ := r3
            simp only [hd] at h
            cases rest with
            | nil =>
              simp only [Except.ok.injEq, Prod.mk.injEq, Option.some.injEq] at h
              obtain ⟨rfl, rfl, rfl⟩ := h
              obtain ⟨l4, f4, h4, p4, k4, t4⟩ := dereference_keeps _ _ _ _ _ _ hd
              cases h4
              exact ⟨l0, f0, rfl, p2.trans p4, (k2.mono p4).trans (k4.mono p4), t4.trans t2⟩
            | cons part2 rest2 =>
              simp only at h
              cases hg : growAndIndex root3 v3 t3 part.index with
              | error p => simp [hg] at h
              | ok r4 =>
                obtain ⟨root4, v4⟩ := r4
                simp only [hg] at h
                obtain ⟨l5, f5, rfl, p5, k5, t5⟩ := ih _ _ _ _ _ _ h
                obtain ⟨l6, f6, rfl, p6, k6, t6⟩ := growAndIndex_keeps _ _ _ _ _ _ _ hg
                obtain ⟨l7, f7, h7, p7, k7, t7⟩ := dereference_keeps _ _ _ _ _ _ hd
                cases h7
                refine ⟨l0, f0, rfl, ((p2.trans p7).trans p6).trans p5, ?_,
                  ((t5.trans t6).trans t7).trans t2⟩
                exact (((k2.mono ((p7.trans p6).trans p5)).trans
                  (k7.mono ((p7.trans p6).trans p5))).trans (k6.mono (p6.trans p5))).trans k5

theorem Value.Set_inv_any (root : Val) (v : Value) (x : Option Val) (root1 : Val)
    (h : v.Set root x = .ok root1) :
    ∃ loc fl old y, v = .ref loc fl ∧ x = some y ∧ root.get loc = some old
      ∧ y.typeOf = old.typeOf ∧ root1 = root.set loc y := by
  cases x with
  | none =>
    cases v with
    | invalid => simp [Value.Set] at h
    | ref loc fl => cases hro : fl.ro <;> simp [Value.Set, hro] at h
  | some y =>
    obtain ⟨loc, fl, old, hv, -, hg, hty, hr⟩ := Value.Set_inv root v y root1 h
    exact ⟨loc, fl, old, y, hv, rfl, hg, hty, hr⟩

/-- The "Simple case" writes at `v`, a value of the type that is there. -/
theorem assignLeaf_inv (root : Val) (v : Value) (t : Ty) (values : List (Option FileHeader))
    (root1 : Val) (h : assignLeaf root v t values = .ok root1) :
    ∃ loc fl old y, v = .ref loc fl ∧ root.get loc = some old ∧ y.typeOf = old.typeOf
      ∧ root1 = root.set loc y := by
  unfold assignLeaf at h
  split at h
  · simp only [bind, Except.bind] at h
    split at h
    · simp at h
    · split at h
      · simp at h
      · obtain ⟨loc, fl, old, y, hv, -, hg, hty, hr⟩ := Value.Set_inv_any _ _ _ _ h
        exact ⟨loc, fl, old, y, hv, hg, hty, hr⟩
  · obtain ⟨loc, fl, old, y, hv, -, hg, hty, hr⟩ := Value.Set_inv_any _ _ _ _ h
    exact ⟨loc, fl, old, y, hv, hg, hty, hr⟩

/-- After the step through a pointer `v` is still settable and `t` is the type of what is at
`v`. -/
theorem dereference_typed (root : Val) (v : Value) (root1 : Val) (loc1 : Loc) (fl1 : Flag)
    (t : Ty) (h : dereference root v = .ok (root1, .ref loc1 fl1, t)) (hset : v.CanSet = true) :
    fl1.ro = false ∧ ∃ old, root1.get loc1 = some old ∧ old.typeOf = t := by
  cases v with
  | invalid => simp [Value.CanSet] at hset
  | ref loc fl =>
    have hro : fl.ro = false := by simpa [Value.CanSet] using hset
    cases hg : root.get loc with
    | none => simp [dereference, Value.Type, Value.read, hg, bind, Except.bind] at h
    | some x =>
      rcases Classical.em (∀ e, x.typeOf ≠ .ptr e) with hx | hx
      · rw [dereference_other root loc fl x hg hx] at h
        simp at h
        obtain ⟨rfl, ⟨rfl, rfl⟩, rfl⟩ := h
        exact ⟨hro, x, hg, rfl⟩
      · cases x <;> simp [Val.typeOf] at hx
        case inr.nilPtr e =>
          rw [dereference_nilPtr root loc fl e hg hro] at h
          simp at h
          obtain ⟨rfl, ⟨rfl, rfl⟩, rfl⟩ := h
          refine ⟨hro, e.zero, ?_, Ty.typeOf_zero e⟩
          rw [Val.get_append, Val.get_set_same root loc _ _ hg]
          simp [Val.get]
        case inr.ptrTo y =>
          rw [dereference_ptrTo root loc fl y hg] at h
          simp at h
          obtain ⟨rfl, ⟨rfl, rfl⟩, rfl⟩ := h
          refine ⟨hro, y, ?_, rfl⟩
          rw [Val.get_append, hg]
          simp [Val.get]

/-- The descent ends at a settable Value, and `t` is the type of what is there. -/
theorem resolve_typed (parts : List PathPart) :
    ∀ (root : Val) (v : Value) (root1 : Val) (loc1 : Loc) (fl1 : Flag) (t : Ty),
      resolve root v parts = .ok (root1, some (.ref loc1 fl1, t)) →
      fl1.ro = false ∧ ∃ old, root1.get loc1 = some old ∧ old.typeOf = t := by
  induction parts with
  | nil => intro root v root1 loc1 fl1 t h; simp [resolve] at h
  | cons part rest ih =>
    intro root v root1 loc1 fl1 t h
    unfold resolve at h
    cases hw : walkFields root v part.path with
    | error p => simp [hw] at h
    | ok r =>
      obtain ⟨root2, v2⟩ := r
      simp only [hw] at h
      cases hc : v2.CanSet with
      | false => simp [hc] at h
      | true =>
        simp only [hc, Bool.not_true, Bool.false_eq_true, if_false] at h
        cases hd : dereference root2 v2 with
        | error p => simp [hd] at h
        | ok r3 =>
          obtain ⟨root3, v3, t3⟩ := r3
          simp only [hd] at h
          cases rest with
          | nil =>
            simp only [Except.ok.injEq, Prod.mk.injEq, Option.some.injEq] at h
            obtain ⟨rfl, rfl, rfl⟩ := h
            exact dereference_typed _ _ _ _ _ _ hd hc
          | cons part2 rest2 =>
            simp only at h
            cases hg : growAndIndex root3 v3 t3 part.index with
            | error p => simp [hg] at h
            | ok r4 =>
              obtain ⟨root4, v4⟩ := r4
              simp only [hg] at h
              exact ih _ _ _ _ _ _ h

theorem Val.get_elem_fileHeader (r : Val) (loc : Loc) (f : FileHeader)
    (h : r.get (loc ++ [.elem]) = some (.fileHeader f)) :
    r.get loc = some (.ptrTo (.fileHeader f)) := by
  rw [Val.get_append] at h
  cases hg : r.get loc with
  | none => simp [hg] at h
  | some p =>
    simp only [hg, Option.bind_some] at h
    cases p <;> simp [Val.get] at h
    case ptrTo y => rw [h]

/-! ## The steps of the descent, exactly -/

/-- What the step through a pointer does: it sets a nil pointer that can be set and moves into
it, moves into a pointer that is not nil, and stays at anything else. -/
theorem dereference_exact (root : Val) (v : Value) (root1 : Val) (v1 : Value) (t : Ty)
    (h : dereference root v = .ok (root1, v1, t)) :
    ∃ loc fl x, v = .ref loc fl ∧ root.get loc = some x ∧
      ((∃ e, x = .nilPtr e ∧ fl.ro = false ∧ root1 = root.set loc (.ptrTo e.zero)
          ∧ v1 = .ref (loc ++ [.elem]) fl ∧ t = e)
       ∨ (∃ y, x = .ptrTo y ∧ root1 = root ∧ v1 = .ref (loc ++ [.elem]) fl ∧ t = y.typeOf)
       ∨ ((∀ e, x.typeOf ≠ .ptr e) ∧ root1 = root ∧ v1 = .ref loc fl ∧ t = x.typeOf)) := by
  cases v with
  | invalid => simp [dereference, Value.Type, Value.read, bind, Except.bind] at h
  | ref loc fl =>
    cases hg : root.get loc with
    | none => simp [dereference, Value.Type, Value.read, hg, bind, Except.bind] at h
    | some x =>
      refine ⟨loc, fl, x, rfl, hg, ?_⟩
      rcases Classical.em (∀ e, x.typeOf ≠ .ptr e) with hx | hx
      · rw [dereference_other root loc fl x hg hx] at h
        simp at h
        obtain ⟨rfl, rfl, rfl⟩ := h
        exact Or.inr (Or.inr ⟨hx, rfl, rfl, rfl⟩)
      · cases x <;> simp [Val.typeOf] at hx
        case inr.nilPtr e =>
          cases hro : fl.ro with
          | true =>
            simp [dereference, Value.Type_ref _ _ _ _ hg, Val.typeOf, Value.IsNil,
              Value.read_ref _ _ _ _ hg, Value.Set, hro, bind, Except.bind] at h
          | false =>
            rw [dereference_nilPtr root loc fl e hg hro] at h
            simp at h
            obtain ⟨rfl, rfl, rfl⟩ := h
            exact Or.inl ⟨e, rfl, rfl, rfl, rfl, rfl⟩
        case inr.ptrTo y =>
          rw [dereference_ptrTo root loc fl y hg] at h
          simp at h
          obtain ⟨rfl, rfl, rfl⟩ := h
          exact Or.inr (Or.inl ⟨y, rfl, rfl, rfl, rfl⟩)

/-- With `ignoreUnknownKeys` the loop over the file map adds no error. -/
theorem decodeFiles_ignore (d : MultipartDecoder) (t : Ty) (hi : d.ignoreUnknownKeys = true)
    (files : List (String × List (Option FileHeader))) :
    ∀ (errors : MultiError) (root : Val) (errors1 : MultiError) (root1 : Val),
      decodeFiles d t files errors root = .ok (errors1, root1) → errors1 = errors := by
  induction files with
  | nil =>
    intro errors root errors1 root1 h
    simp [decodeFiles] at h
    exact h.1.symm
  | cons a files ih =>
    obtain ⟨path, multiparts⟩ := a
    intro errors root errors1 root1 h
    rw [decodeFiles_cons] at h
    cases hp : d.parsePath path t with
    | some parts =>
      simp only [hp] at h
      cases hd : decodeMultipart root Value.root path parts multiparts with
      | error p => simp [hd] at h
      | ok res =>
        simp only [hd] at h
        exact ih _ _ _ _ h
    | none =>
      simp [hp, hi] at h
      exact ih _ _ _ _ h

/-! ## Writing and filling a location -/

theorem list_set_same {α : Type} (xs : List α) (i : Nat) (x : α) (h : xs[i]? = some x) :
    xs.set i x = xs := by
  apply List.ext_getElem?
  intro j
  by_cases hj : i = j
  · subst hj
    rw [List.getElem?_set_self (List.getElem?_eq_some_iff.mp h).1, h]
  · rw [List.getElem?_set_ne hj]

theorem Val.set_get (r : Val) (l : Loc) (x : Val) (h : r.get l = some x) : r.set l x = r := by
  induction l generalizing r with
  | nil =>
    simp [Val.get_nil] at h
    simp [Val.set_nil, h]
  | cons s l ih =>
    cases r <;> cases s <;> simp [Val.get] at h <;> simp only [Val.set]
    case struct.field n fs i =>
      cases hf : fs[i]? with
      | none => simp [hf] at h
      | some f =>
        simp [hf] at h
        simp only [ih _ h]
        rw [list_set_same fs i _ hf]
    case ptrTo.elem x0 => rw [ih _ h]
    case slice.index e xs i =>
      cases hf : xs[i]? with
      | none => simp [hf] at h
      | some f =>
        simp [hf] at h
        simp only [ih _ h]
        rw [list_set_same xs i _ hf]

theorem Val.set_set (r : Val) (l : Loc) (y z : Val) : (r.set l y).set l z = r.set l z := by
  induction l generalizing r with
  | nil => simp [Val.set_nil]
  | cons s l ih =>
    cases r <;> cases s <;> simp only [Val.set]
    case struct.field n fs i =>
      cases hf : fs[i]? with
      | none => simp [Val.set, hf]
      | some f =>
        have hi : i < fs.length := (List.getElem?_eq_some_iff.mp hf).1
        simp [Val.set, List.getElem?_set_self hi, ih, List.set_set]
    case ptrTo.elem x0 => rw [ih]
    case slice.index e xs i =>
      cases hf : xs[i]? with
      | none => simp [Val.set, hf]
      | some f =>
        have hi : i < xs.length := (List.getElem?_eq_some_iff.mp hf).1
        simp [Val.set, List.getElem?_set_self hi, ih, List.set_set]

/-- Filling a location leaves the type as it is. -/
theorem Val.typeOf_put (l : Loc) : ∀ (r y : Val), (r.put l y).typeOf = r.typeOf := by
  induction l with
  | nil =>
    intro r y
    cases r <;> simp only [Val.put] <;> split <;> first | rfl | (next h => exact Ty.same_eq _ _ h)
  | cons s l ih =>
    intro r y
    cases r <;> cases s <;> simp only [Val.put] <;> try rfl
    case struct.field n fs i =>
      cases hf : fs[i]? with
      | none => rfl
      | some f =>
        have hi : i < fs.length := (List.getElem?_eq_some_iff.mp hf).1
        have hfi : fs[i] = f := (List.getElem?_eq_some_iff.mp hf).2
        simp only [Val.typeOf, Val.typeOfFields_eq_map, List.map_set, ih]
        congr 1
        apply List.ext_getElem
        · simp
        · intro j h1 h2
          simp only [List.getElem_set, List.getElem_map]
          split
          · next hij => subst hij; simp [hfi]
          · rfl
    case ptrTo.elem x0 => simp [Val.typeOf, ih]
    case nilPtr.elem e => simp [Val.typeOf, ih, Ty.typeOf_zero]
    case slice.index e xs i => split <;> rfl
    case nilSlice.index e i => split <;> rfl

theorem padTo_of_le (xs : List Val) (n : Nat) (z : Val) (h : n ≤ xs.length) :
    padTo xs n z = xs := by
  have : n - xs.length = 0 := by omega
  simp [padTo, this]

theorem length_padTo (xs : List Val) (n : Nat) (z : Val) :
    (padTo xs n z).length = max xs.length n := by
  simp only [padTo, List.length_append, List.length_replicate]
  omega

theorem getElem?_padTo (xs : List Val) (n : Nat) (z : Val) (i : Nat) :
    (padTo xs n z)[i]? = if i < xs.length then xs[i]? else if i < n then some z else none := by
  unfold padTo
  by_cases h : i < xs.length
  · simp [h, List.getElem?_append_left h]
  · have h2 : xs.length ≤ i := by omega
    rw [List.getElem?_append_right h2]
    simp only [h, if_false]
    by_cases h3 : i < n
    · have : i - xs.length < n - xs.length := by omega
      simp [h3, List.getElem?_replicate, this]
    · have : ¬ i - xs.length < n - xs.length := by omega
      simp [h3, List.getElem?_replicate, this]

/-- Where the location is, filling it with a value of the type that is there is writing it. -/
theorem Val.put_eq_set (r : Val) (l : Loc) (y old : Val) (h : r.get l = some old)
    (hty : y.typeOf = old.typeOf) : r.put l y = r.set l y := by
  induction l generalizing r with
  | nil =>
    simp [Val.get_nil] at h
    subst h
    cases r <;> simp [Val.put, Val.set_nil, hty, Ty.same_refl]
  | cons s l ih =>
    cases r <;> cases s <;> simp [Val.get] at h
    case struct.field n fs i =>
      cases hf : fs[i]? with
      | none => simp [hf] at h
      | some f =>
        simp [hf] at h
        simp [Val.put, Val.set, hf, ih _ h]
    case ptrTo.elem x0 => simp [Val.put, Val.set, ih _ h]
    case slice.index e xs i =>
      cases hf : xs[i]? with
      | none => simp [hf] at h
      | some f =>
        simp [hf] at h
        have hi : i < xs.length := (List.getElem?_eq_some_iff.mp hf).1
        simp [Val.put, Val.set, padTo_of_le xs (i + 1) e.zero (by omega), hf, ih _ h]

/-- Filling a location below one that is there is filling inside the value that is there. -/
theorem Val.put_append (r : Val) (l m : Loc) (y x : Val) (h : r.get l = some x) :
    r.put (l ++ m) y = r.set l (x.put m y) := by
  induction l generalizing r with
  | nil =>
    simp [Val.get_nil] at h
    subst h
    simp [Val.set_nil]
  | cons s l ih =>
    cases r <;> cases s <;> simp [Val.get] at h
    case struct.field n fs i =>
      cases hf : fs[i]? with
      | none => simp [hf] at h
      | some f =>
        simp [hf] at h
        simp [Val.put, Val.set, hf, ih _ h]
    case ptrTo.elem x0 => simp [Val.put, Val.set, ih _ h]
    case slice.index e xs i =>
      cases hf : xs[i]? with
      | none => simp [hf] at h
      | some f =>
        simp [hf] at h
        have hi : i < xs.length := (List.getElem?_eq_some_iff.mp hf).1
        simp [Val.put, Val.set, padTo_of_le xs (i + 1) e.zero (by omega), hf, ih _ h]

/-- What is filled is there afterwards, if the value has the type of the place. -/
theorem Val.get_put_above (r : Val) (l m : Loc) (y x : Val) (h : r.get l = some x) :
    (r.put (l ++ m) y).get l = some (x.put m y) := by
  rw [Val.put_append r l m y x h]
  exact Val.get_set_same r l _ x h

/-- Filling a location keeps every location beside it that is there. -/
theorem Val.get_put_disjoint (l : Loc) :
    ∀ (r : Val) (m : Loc) (y x : Val), ¬ l <+: m → ¬ m <+: l → r.get m = some x →
      (r.put l y).get m = some x := by
  induction l with
  | nil => intro r m y x h1; exact absurd List.nil_prefix h1
  | cons s l ih =>
    intro r m y x h1 h2 hx
    cases m with
    | nil => exact absurd List.nil_prefix h2
    | cons s2 m =>
      rcases eq_or_ne s s2 with hs | hs
      · subst hs
        have hlm : ¬ l <+: m := fun h => h1 ((List.prefix_cons_inj s).mpr h)
        have hml : ¬ m <+: l := fun h => h2 ((List.prefix_cons_inj s).mpr h)
        cases r <;> cases s <;> simp [Val.get] at hx
        case inl.struct.field n fs i =>
          cases hf : fs[i]? with
          | none => simp [hf] at hx
          | some f =>
            simp [hf] at hx
            have hi : i < fs.length := (List.getElem?_eq_some_iff.mp hf).1
            simp [Val.put, Val.get, hf, List.getElem?_set_self hi, ih _ _ _ _ hlm hml hx]
        case inl.ptrTo.elem x0 =>
          simp [Val.put, Val.get, ih _ _ _ _ hlm hml hx]
        case inl.slice.index e xs i =>
          cases hf : xs[i]? with
          | none => simp [hf] at hx
          | some f =>
            simp [hf] at hx
            have hi : i < xs.length := (List.getElem?_eq_some_iff.mp hf).1
            simp [Val.put, Val.get, padTo_of_le xs (i + 1) e.zero (by omega), hf,
              List.getElem?_set_self hi, ih _ _ _ _ hlm hml hx]
      · cases r <;> cases s <;> cases s2 <;> simp [Val.get] at hx <;> simp at hs
        case inr.struct.field.field n fs i j =>
          simp only [Val.put]
          cases hf : fs[i]? with
          | none => simpa [Val.get] using hx
          | some f =>
            simp only [Val.get, List.getElem?_set_ne hs]
            exact hx
        case inr.slice.index.index e xs i j =>
          cases hj : xs[j]? with
          | none => simp [hj] at hx
          | some xj =>
            simp [hj] at hx
            have hjl : j < xs.length := (List.getElem?_eq_some_iff.mp hj).1
            simp only [Val.put]
            split
            · simp only [Val.get, List.getElem?_set_ne hs, getElem?_padTo, hjl, if_true, hj]
              exact hx
            · simp [Val.get, hj, hx]
        all_goals (simp only [Val.put, Val.get]; exact hx)

/-! ## Lists padded and filled -/

theorem getElem?_padTo_self (xs : List Val) (i : Nat) (z : Val) :
    (padTo xs (i + 1) z)[i]? = some (xs.getD i z) := by
  rw [getElem?_padTo, List.getD_eq_getElem?_getD]
  by_cases h : i < xs.length
  · simp [h, List.getElem?_eq_getElem h]
  · have : xs[i]? = none := List.getElem?_eq_none (by omega)
    simp [h, this]

theorem getElem?_fill (xs : List Val) (i : Nat) (v z : Val) (k : Nat) :
    ((padTo xs (i + 1) z).set i v)[k]? =
      if k = i then some v else if k < xs.length then xs[k]? else if k < i then some z
      else none := by
  by_cases hk : k = i
  · subst hk
    have : k < (padTo xs (k + 1) z).length := by rw [length_padTo]; omega
    simp [List.getElem?_set_self this]
  · have hk2 : ¬ i = k := fun h => hk h.symm
    rw [List.getElem?_set_ne hk2, getElem?_padTo]
    simp only [hk, if_false]
    by_cases h1 : k < xs.length
    · simp [h1]
    · simp only [h1, if_false]
      by_cases h2 : k < i
      · have : k < i + 1 := by omega
        simp [h2, this]
      · have : ¬ k < i + 1 := by omega
        simp [h2, this]

theorem length_fill (xs : List Val) (i : Nat) (v z : Val) :
    ((padTo xs (i + 1) z).set i v).length = max xs.length (i + 1) := by
  rw [List.length_set, length_padTo]

theorem getD_fill (xs : List Val) (i : Nat) (v z : Val) (k : Nat) :
    ((padTo xs (i + 1) z).set i v).getD k z = if k = i then v else xs.getD k z := by
  rw [List.getD_eq_getElem?_getD, getElem?_fill, List.getD_eq_getElem?_getD]
  by_cases hk : k = i
  · simp [hk]
  · simp only [hk, if_false]
    by_cases h1 : k < xs.length
    · simp [h1]
    · have : xs[k]? = none := List.getElem?_eq_none (by omega)
      simp only [h1, if_false, this]
      split <;> rfl

theorem fill_fill_same (xs : List Val) (i : Nat) (v w z : Val) :
    (padTo ((padTo xs (i + 1) z).set i v) (i + 1) z).set i w = (padTo xs (i + 1) z).set i w := by
  rw [padTo_of_le _ _ _ (by rw [length_fill]; omega), List.set_set]

theorem fill_fill_comm (xs : List Val) (i j : Nat) (v w z : Val) (h : i ≠ j) :
    (padTo ((padTo xs (i + 1) z).set i v) (j + 1) z).set j w
      = (padTo ((padTo xs (j + 1) z).set j w) (i + 1) z).set i v := by
  apply List.ext_getElem?
  intro k
  simp only [getElem?_fill, length_fill]
  by_cases hki : k = i
  · subst hki
    have h1 : ¬ k = j := h
    have h2 : k < max xs.length (k + 1) := by omega
    simp [h1, h2]
  · by_cases hkj : k = j
    · subst hkj
      have h2 : k < max xs.length (k + 1) := by omega
      simp [hki, h2]
    · simp only [hki, hkj, if_false]
      by_cases h1 : k < xs.length
      · have h2 : k < max xs.length (i + 1) := by omega
        have h3 : k < max xs.length (j + 1) := by omega
        simp [h1, h2, h3]
      · simp only [h1, if_false]
        by_cases h2 : k < i
        · have h3 : k < max xs.length (i + 1) := by omega
          by_cases h4 : k < j
          · have h5 : k < max xs.length (j + 1) := by omega
            simp [h2, h3, h4, h5]
          · have h5 : ¬ k < max xs.length (j + 1) := by omega
            simp [h2, h3, h4, h5]
        · have h3 : ¬ k < max xs.length (i + 1) := by omega
          by_cases h4 : k < j
          · have h5 : k < max xs.length (j + 1) := by omega
            simp [h2, h3, h4, h5]
          · have h5 : ¬ k < max xs.length (j + 1) := by omega
            simp [h2, h3, h4, h5]

/-- Filling below an index of a slice, nil or not. -/
theorem Val.put_slice (e : Ty) (xs : List Val) (i : Nat) (l : Loc) (y : Val) :
    (Val.slice e xs).put (.index i :: l) y
      = .slice e ((padTo xs (i + 1) e.zero).set i ((xs.getD i e.zero).put l y)) := by
  simp [Val.put, getElem?_padTo_self]

theorem Val.put_nilSlice (e : Ty) (i : Nat) (l : Loc) (y : Val) :
    (Val.nilSlice e).put (.index i :: l) y
      = .slice e ((padTo [] (i + 1) e.zero).set i (e.zero.put l y)) := by
  simp [Val.put, getElem?_padTo_self]

theorem Val.put_field (n : String) (fs : List (StructField Val)) (i : Nat) (l : Loc) (y : Val)
    (f : StructField Val) (h : fs[i]? = some f) :
    (Val.struct n fs).put (.field i :: l) y
      = .struct n (fs.set i ⟨f.name, f.exported, f.embedded, f.val.put l y⟩) := by
  simp [Val.put, h]

theorem Val.put_field_none (n : String) (fs : List (StructField Val)) (i : Nat) (l : Loc) (y : Val)
    (h : fs[i]? = none) :
    (Val.struct n fs).put (.field i :: l) y = .struct n fs := by
  simp [Val.put, h]

/-- Fillings at two locations of which neither is above the other commute. -/
theorem Val.put_put_comm (la : Loc) : ∀ (r : Val) (lb : Loc) (a b : Val),
    ¬ la <+: lb → ¬ lb <+: la → (r.put la a).put lb b = (r.put lb b).put la a := by
  induction la with
  | nil => intro r lb a b h; exact absurd List.nil_prefix h
  | cons s la ih =>
    intro r lb a b h1 h2
    cases lb with
    | nil => exact absurd List.nil_prefix h2
    | cons s2 lb =>
      rcases eq_or_ne s s2 with hs | hs
      · subst hs
        have h1' : ¬ la <+: lb := fun h => h1 ((List.prefix_cons_inj s).mpr h)
        have h2' : ¬ lb <+: la := fun h => h2 ((List.prefix_cons_inj s).mpr h)
        cases r <;> cases s
        case struct.field n fs i =>
          cases hf : fs[i]? with
          | none => simp [Val.put_field_none, hf]
          | some f =>
            have hi : i < fs.length := (List.getElem?_eq_some_iff.mp hf).1
            rw [Val.put_field _ _ _ _ _ _ hf, Val.put_field _ _ _ _ _ _ hf,
              Val.put_field _ _ _ _ _ _ (List.getElem?_set_self hi),
              Val.put_field _ _ _ _ _ _ (List.getElem?_set_self hi)]
            simp only [List.set_set]
            rw [ih _ _ _ _ h1' h2']
        case ptrTo.elem x => simp only [Val.put]; rw [ih _ _ _ _ h1' h2']
        case nilPtr.elem e => simp only [Val.put]; rw [ih _ _ _ _ h1' h2']
        case slice.index e xs i =>
          simp only [Val.put_slice, fill_fill_same, getD_fill, if_true]
          rw [ih _ _ _ _ h1' h2']
        case nilSlice.index e i =>
          simp only [Val.put_slice, Val.put_nilSlice, fill_fill_same, getD_fill, if_true]
          rw [ih _ _ _ _ h1' h2']
        all_goals simp only [Val.put]
      · cases r <;> cases s <;> cases s2
        case struct.field.field n fs i j =>
          have hij : i ≠ j := fun h => hs (by rw [h])
          cases hf : fs[i]? with
          | none =>
            cases hg : fs[j]? with
            | none => simp [Val.put_field_none, hf, hg]
            | some g =>
              rw [Val.put_field_none _ _ _ _ _ hf, Val.put_field _ _ _ _ _ _ hg,
                Val.put_field_none _ _ _ _ _ (by rw [List.getElem?_set_ne hij.symm]; exact hf)]
          | some f =>
            cases hg : fs[j]? with
            | none =>
              rw [Val.put_field_none _ _ _ _ _ hg, Val.put_field _ _ _ _ _ _ hf,
                Val.put_field_none _ _ _ _ _ (by rw [List.getElem?_set_ne hij]; exact hg)]
            | some g =>
              rw [Val.put_field _ _ _ _ _ _ hf, Val.put_field _ _ _ _ _ _ hg,
                Val.put_field _ _ _ _ _ _ (by rw [List.getElem?_set_ne hij]; exact hg),
                Val.put_field _ _ _ _ _ _ (by rw [List.getElem?_set_ne hij.symm]; exact hf),
                List.set_comm _ _ _ hij]
        case slice.index.index e xs i j =>
          have hij : i ≠ j := fun h => hs (by rw [h])
          have hji : ¬ j = i := fun h => hij h.symm
          simp only [Val.put_slice, getD_fill, hij, hji, if_false]
          rw [fill_fill_comm _ _ _ _ _ _ hij]
        case nilSlice.index.index e i j =>
          have hij : i ≠ j := fun h => hs (by rw [h])
          have hji : ¬ j = i := fun h => hij h.symm
          simp only [Val.put_slice, Val.put_nilSlice, getD_fill, hij, hji, if_false]
          rw [fill_fill_comm _ _ _ _ _ _ hij]
          simp
        all_goals first
          | exact absurd rfl hs
          | (simp only [Val.put, Val.put_slice, Val.put_nilSlice]; done)
          | (simp only [Val.put]; split <;> simp only [Val.put])

/-- A write beside a filling commutes with it. -/
theorem Val.set_put_comm (r : Val) (c la : Loc) (y z x : Val) (h1 : ¬ c <+: la)
    (h2 : ¬ la <+: c) (hx : r.get c = some x) (hty : z.typeOf = x.typeOf) :
    (r.put la y).set c z = (r.set c z).put la y := by
  rw [← Val.put_eq_set _ c z x (Val.get_put_disjoint la r c y x h2 h1 hx) hty,
    Val.put_put_comm la r c y z h2 h1, Val.put_eq_set r c z x hx hty]

theorem Val.typeOf_struct_inv (x : Val) (n : String) (tfs : List (StructField Ty))
    (h : x.typeOf = .struct n tfs) : ∃ fs, x = .struct n fs ∧ Val.typeOfFields fs = tfs := by
  cases x <;> simp [Val.typeOf] at h
  case struct m fs => exact ⟨fs, by rw [h.1], h.2⟩

theorem Val.typeOfFields_getElem? (fs gs : List (StructField Val))
    (h : Val.typeOfFields gs = Val.typeOfFields fs) (i : Nat) (f : StructField Val)
    (hf : fs[i]? = some f) :
    ∃ g, gs[i]? = some g ∧ g.name = f.name ∧ g.exported = f.exported
      ∧ g.embedded = f.embedded ∧ g.val.typeOf = f.val.typeOf := by
  rw [Val.typeOfFields_eq_map, Val.typeOfFields_eq_map] at h
  have h2 := congrArg (fun l => l[i]?) h
  simp only [List.getElem?_map, hf, Option.map_some'] at h2
  cases hg : gs[i]? with
  | none => simp [hg] at h2
  | some g =>
    simp [hg] at h2
    exact ⟨g, rfl, h2.1, h2.2.1, h2.2.2.1, h2.2.2.2⟩

/-- What a filling below a value leaves of it: the type, and that a pointer is not nil. -/
theorem Val.shape_put (x : Val) (p : Loc) (y : Val) (hp : p ≠ []) :
    (x.put p y).typeOf = x.typeOf ∧ (∀ z, x = .ptrTo z → ∃ z2, x.put p y = .ptrTo z2) := by
  refine ⟨Val.typeOf_put p x y, ?_⟩
  intro z hz
  subst hz
  cases p with
  | nil => exact absurd rfl hp
  | cons s p =>
    cases s
    case elem => exact ⟨_, rfl⟩
    all_goals exact ⟨z, by simp [Val.put]⟩

/-- Reading beside or above a filling: the value read has the type it had, and a pointer that
was not nil is not nil. -/
theorem Val.get_put_off (r : Val) (la u : Loc) (y x : Val) (hx : r.get u = some x)
    (hla : ¬ la <+: u) :
    ∃ x2, (r.put la y).get u = some x2 ∧ x2.typeOf = x.typeOf
      ∧ (∀ z, x = .ptrTo z → ∃ z2, x2 = .ptrTo z2) := by
  rcases Classical.em (u <+: la) with hu | hu
  · obtain ⟨p, rfl⟩ := hu
    have hp : p ≠ [] := by
      intro h
      subst h
      simp at hla
    exact ⟨x.put p y, Val.get_put_above r u p y x hx, (Val.shape_put x p y hp).1,
      (Val.shape_put x p y hp).2⟩
  · exact ⟨x, Val.get_put_disjoint la r u y x hla hu hx, rfl, fun z hz => ⟨z, hz⟩⟩

/-! ## The reads of the descent in a target that was filled elsewhere -/

theorem Val.Agree.above {p q : Loc} {r r2 : Val} (hqp : q <+: p) (h : Val.Agree p r r2) :
    Val.Agree q r r2 :=
  fun u x hu hx => h u x (hu.trans hqp) hx

theorem Val.Agree.of_put (r : Val) (la p : Loc) (y : Val) (h : ¬ la <+: p) :
    Val.Agree p r (r.put la y) :=
  fun u x hu hx => Val.get_put_off r la u y x hx (fun hla => h (hla.trans hu))

theorem Value.Field_sim (r r2 : Val) (u : Loc) (fl : Flag) (i : Nat) (w : Value)
    (h : (Value.ref u fl).Field r i = .ok w) (hag : Val.Agree u r r2) :
    (Value.ref u fl).Field r2 i = .ok w := by
  cases hg : r.get u with
  | none => simp [Value.Field, Value.read, hg] at h
  | some x =>
    obtain ⟨x2, hg2, hty, -⟩ := hag u x (List.prefix_refl _) hg
    cases x <;> simp [Value.Field, Value.read, hg] at h
    case struct n fs =>
      cases hf : fs[i]? with
      | none => simp [hf] at h
      | some f =>
        simp [hf] at h
        obtain ⟨gs, rfl, hgs⟩ := Val.typeOf_struct_inv x2 n _ hty
        obtain ⟨g, hg3, -, he, hm, -⟩ := Val.typeOfFields_getElem? fs gs hgs i f hf
        simp [Value.Field, Value.read, hg2, hg3, he, hm, h]

theorem Value.Elem_sim (r r2 : Val) (u : Loc) (fl : Flag) (c1 : Loc) (fl1 : Flag)
    (h : (Value.ref u fl).Elem r = .ok (.ref c1 fl1)) (hag : Val.Agree u r r2) :
    (Value.ref u fl).Elem r2 = .ok (.ref c1 fl1) := by
  cases hg : r.get u with
  | none => simp [Value.Elem, Value.read, hg] at h
  | some x =>
    obtain ⟨x2, hg2, -, hp⟩ := hag u x (List.prefix_refl _) hg
    cases x <;> simp [Value.Elem, Value.read, hg] at h
    case ptrTo z =>
      obtain ⟨z2, rfl⟩ := hp z rfl
      simp [Value.Elem, Value.read, hg2, h]

theorem Value.fieldByIndexLoop_sim (r r2 : Val) (index : List Nat) :
    ∀ (v : Value) (c1 : Loc) (fl1 : Flag),
      Value.fieldByIndexLoop r v index = .ok (.ref c1 fl1) → Val.Agree c1 r r2 →
      Value.fieldByIndexLoop r2 v index = .ok (.ref c1 fl1) := by
  induction index with
  | nil => intro v c1 fl1 h _; simpa [Value.fieldByIndexLoop] using h
  | cons i index ih =>
    intro v c1 fl1 h hag
    obtain ⟨u, fl, rfl, hu⟩ := Value.fieldByIndexLoop_loc _ _ _ _ _ h
    cases hg : r.get u with
    | none => simp [Value.fieldByIndexLoop, Value.read, hg] at h
    | some x =>
      obtain ⟨x2, hg2, hty, hp⟩ := hag u x hu hg
      unfold Value.fieldByIndexLoop at h
      simp only [Value.read, hg] at h
      split at h
      · simp at h
      · next n fs heq =>
        simp only [Except.ok.injEq] at heq
        subst heq
        obtain ⟨z2, rfl⟩ := hp _ rfl
        simp only [Val.typeOf, Ty.ptr.injEq] at hty
        obtain ⟨gs, rfl, -⟩ := Val.typeOf_struct_inv z2 n _ hty
        cases he : (Value.ref u fl).Elem r with
        | error p => simp [Value.read, hg, he] at h
        | ok w =>
          simp only [Value.read, hg, he] at h
          cases hf : w.Field r i with
          | error p => simp [hf] at h
          | ok w2 =>
            simp only [hf] at h
            obtain ⟨l2, f2, rfl, h2⟩ := Value.fieldByIndexLoop_loc _ _ _ _ _ h
            obtain ⟨l3, f3, rfl, h3⟩ := Value.Field_loc _ _ _ _ _ hf
            have he2 := Value.Elem_sim r r2 u fl l3 f3 he (hag.above hu)
            have hf2 := Value.Field_sim r r2 l3 f3 i _ hf (hag.above (h3.trans h2))
            unfold Value.fieldByIndexLoop
            simp only [Value.read, hg2, he2, hf2]
            exact ih _ _ _ h hag
      · next y hn1 hn2 heq =>
        simp only [Except.ok.injEq] at heq
        subst heq
        cases hf : (Value.ref u fl).Field r i with
        | error p => simp [hf] at h
        | ok w2 =>
          simp only [hf] at h
          have hf2 := Value.Field_sim r r2 u fl i _ hf (hag.above hu)
          have hx : ∃ n fs, x = .struct n fs := by
            cases x <;> simp [Value.Field, Value.read, hg] at hf
            case struct n fs => exact ⟨n, fs, rfl⟩
          obtain ⟨n, fs, rfl⟩ := hx
          obtain ⟨gs, rfl, -⟩ := Val.typeOf_struct_inv x2 n _ hty
          unfold Value.fieldByIndexLoop
          simp only [Value.read, hg2, hf2]
          exact ih _ _ _ h hag
      · simp at h

theorem Value.FieldByName_sim (r r2 : Val) (v : Value) (name : String) (c1 : Loc) (fl1 : Flag)
    (h : v.FieldByName r name = .ok (.ref c1 fl1)) (hag : Val.Agree c1 r r2) :
    v.FieldByName r2 name = .ok (.ref c1 fl1) := by
  obtain ⟨u, fl, rfl, hu⟩ := Value.FieldByName_loc _ _ _ _ _ h
  cases hg : r.get u with
  | none => simp [Value.FieldByName, Value.read, hg] at h
  | some x =>
    obtain ⟨x2, hg2, hty, -⟩ := hag u x hu hg
    cases x <;> simp [Value.FieldByName, Value.read, hg] at h
    case fileHeader fh => split at h <;> simp at h
    case struct n fs =>
      obtain ⟨gs, rfl, hgs⟩ := Val.typeOf_struct_inv x2 n _ hty
      have hT : (Val.struct n gs).typeOf = (Val.struct n fs).typeOf := hty
      cases hi : (Val.struct n fs).typeOf.FieldByName name with
      | none => simp [hi] at h
      | some index =>
        simp only [hi] at h
        simp only [Value.FieldByName, Value.read, hg2, hT, hi]
        cases index with
        | nil => simpa [Value.FieldByIndex] using h
        | cons i index =>
          simp only [Value.FieldByIndex] at h ⊢
          cases hf : (Value.ref u fl).Field r i with
          | error p => simp [hf] at h
          | ok w =>
            simp only [hf] at h
            obtain ⟨l2, f2, rfl, h2⟩ := Value.fieldByIndexLoop_loc _ _ _ _ _ h
            have hf2 := Value.Field_sim r r2 u fl i _ hf (hag.above hu)
            simp only [hf2]
            exact Value.fieldByIndexLoop_sim r r2 index _ _ _ h hag

/-! ## The "Slice of structs" step, exactly -/

theorem wrapInt_lt (x : Int) : wrapInt x < 2 ^ 63 := by
  unfold wrapInt
  omega

theorem wrapInt_le (x : Int) (h : 0 ≤ x) : wrapInt x ≤ x := by
  unfold wrapInt
  omega

theorem wrapInt_eq (x : Int) (h0 : 0 ≤ x) (h : x < 2 ^ 63) : wrapInt x = x := by
  unfold wrapInt
  omega

theorem Val.extend_of_le (e : Ty) (xs : List Val) (n : Nat) (h : n ≤ xs.length) :
    (Val.slice e xs).extend n = .slice e xs := by
  simp [Val.extend, padTo_of_le xs n e.zero h]

/-- The step on a nil slice that can be set: the slice becomes one of `idx+1` zero values. -/
theorem growAndIndex_nil (root : Val) (c : Loc) (fl : Flag) (e : Ty) (idx : Int)
    (hg : root.get c = some (.nilSlice e)) (h0 : 0 ≤ idx) (h1 : idx + 1 < 2 ^ 63)
    (hb : e.size * (idx.toNat + 1) ≤ maxAlloc) (hro : fl.ro = false) :
    growAndIndex root (.ref c fl) (.slice e) idx
      = .ok (root.set c ((Val.nilSlice e).extend (idx.toNat + 1)),
          .ref (c ++ [.index idx.toNat]) ⟨fl.ro, false⟩) := by
  have hw : wrapInt (idx + 1) = idx + 1 := wrapInt_eq _ (by omega) h1
  have hn : ¬ idx + 1 < 0 := by omega
  have hp : (0 : Int) < idx + 1 := by omega
  have hN : (idx + 1).toNat = idx.toNat + 1 := by omega
  have hm := reflectMakeSlice_slice e (idx + 1) (by omega) (by rw [hN]; exact hb)
  have hgs : grownSlice root (.ref c fl) (.slice e) idx
      = .ok (.slice e (List.replicate (idx.toNat + 1) e.zero)) := by
    simp [grownSlice, hm, hw, hp, hN, Value.Len, Value.read, hg, reflectCopy, bind,
      Except.bind]
  have hset := Value.Set_ok root c fl (.nilSlice e)
    (.slice e (List.replicate (idx.toNat + 1) e.zero)) hg hro rfl
  have hget := Val.get_set_same root c (.slice e (List.replicate (idx.toNat + 1) e.zero)) _ hg
  have hlt : idx < ((idx.toNat + 1 : Nat) : Int) := by omega
  simp [growAndIndex, Value.IsNil, Value.read, hg, hgs, hset, Value.Index, hget, h0, hlt,
    Val.extend, padTo, bind, Except.bind, pure, Except.pure, hro]

/-- The step on a short slice that can be set: the slice is made `idx+1` long by zero values. -/
theorem growAndIndex_short (root : Val) (c : Loc) (fl : Flag) (e : Ty) (xs : List Val)
    (idx : Int) (hg : root.get c = some (.slice e xs)) (h0 : 0 ≤ idx) (h1 : idx + 1 < 2 ^ 63)
    (hb : e.size * (idx.toNat + 1) ≤ maxAlloc) (hro : fl.ro = false)
    (hs : xs.length ≤ idx.toNat) :
    growAndIndex root (.ref c fl) (.slice e) idx
      = .ok (root.set c ((Val.slice e xs).extend (idx.toNat + 1)),
          .ref (c ++ [.index idx.toNat]) ⟨fl.ro, false⟩) := by
  have hw : wrapInt (idx + 1) = idx + 1 := wrapInt_eq _ (by omega) h1
  have hn : ¬ idx + 1 < 0 := by omega
  have hp : (xs.length : Int) < idx + 1 := by omega
  have hN : (idx + 1).toNat = idx.toNat + 1 := by omega
  have hm := reflectMakeSlice_slice e (idx + 1) (by omega) (by rw [hN]; exact hb)
  have hgs : grownSlice root (.ref c fl) (.slice e) idx
      = .ok (.slice e (padTo xs (idx.toNat + 1) e.zero)) := by
    simp [grownSlice, hm, hw, hp, hN, Value.Len, Value.read, hg, reflectCopy, bind,
      Except.bind]
    rw [List.take_of_length_le (by omega)]
    rfl
  have hset := Value.Set_ok root c fl (.slice e xs)
    (.slice e (padTo xs (idx.toNat + 1) e.zero)) hg hro rfl
  have hget := Val.get_set_same root c (.slice e (padTo xs (idx.toNat + 1) e.zero)) _ hg
  have hlt : idx < (((padTo xs (idx.toNat + 1) e.zero).length : Nat) : Int) := by
    rw [length_padTo]; omega
  simp [growAndIndex, Value.IsNil, Value.Len, Value.read, hg, hgs, hset, Value.Index, hget, h0,
    hlt, hw, hp, Val.extend, bind, Except.bind, pure, Except.pure, hro]

/-- The step on a slice that is long enough: nothing is written. -/
theorem growAndIndex_long (root : Val) (c : Loc) (fl : Flag) (t e : Ty) (xs : List Val)
    (idx : Int) (hg : root.get c = some (.slice e xs)) (h0 : 0 ≤ idx)
    (hs : idx.toNat < xs.length) :
    growAndIndex root (.ref c fl) t idx
      = .ok (root, .ref (c ++ [.index idx.toNat]) ⟨fl.ro, false⟩) := by
  have hw := wrapInt_le (idx + 1) (by omega)
  have hp : ¬ (xs.length : Int) < wrapInt (idx + 1) := by omega
  have hlt : idx < (xs.length : Int) := by omega
  simp [growAndIndex, Value.IsNil, Value.Len, Value.read, hg, Value.Index, h0, hlt, hp,
    bind, Except.bind, pure, Except.pure]

/-- The slice made for a nil or short slice is `idx+1` long, and within what the runtime
allocates. -/
theorem grownSlice_length (root : Val) (v : Value) (t : Ty) (idx : Int) (value : Val)
    (h : grownSlice root v t idx = .ok value) :
    ∃ e ys, t = .slice e ∧ value = .slice e ys ∧ (ys.length : Int) = wrapInt (idx + 1)
      ∧ e.size * (wrapInt (idx + 1)).toNat ≤ maxAlloc := by
  cases hm : reflectMakeSlice t (wrapInt (idx + 1)) with
  | error p => simp [grownSlice, hm, bind, Except.bind] at h
  | ok val =>
    obtain ⟨e, rfl, hnn, hb, rfl⟩ := reflectMakeSlice_ok _ _ _ hm
    simp only [grownSlice, hm, bind, Except.bind] at h
    split at h
    · simp at h
    · next len hl =>
      split at h
      · split at h
        · simp at h
        · next src hr =>
          cases src <;> simp [reflectCopy] at h
          case nilSlice e2 =>
            subst h
            exact ⟨e, _, rfl, rfl, by simp; omega, hb⟩
          case slice e2 zs =>
            subst h
            refine ⟨e, _, rfl, rfl, ?_, hb⟩
            simp only [List.length_append, List.length_take, List.length_drop,
              List.length_replicate]
            omega
      · simp only [pure, Except.pure, Except.ok.injEq] at h
        subst h
        exact ⟨e, _, rfl, rfl, by simp; omega, hb⟩

/-- A slice set in place of the one at `v`, with an element `idx` to move to: `v` can be set and
`idx+1` did not wrap. -/
theorem grown_facts (root : Val) (c : Loc) (fl : Flag) (t : Ty) (idx : Int) (value root2 : Val)
    (w : Value) (hgs : grownSlice root (.ref c fl) t idx = .ok value)
    (hset : (Value.ref c fl).Set root (some value) = .ok root2)
    (hi : (Value.ref c fl).Index root2 idx = .ok w) :
    fl.ro = false ∧ 0 ≤ idx ∧ idx + 1 < 2 ^ 63
      ∧ ∀ e, t = .slice e → e.size * (idx.toNat + 1) ≤ maxAlloc := by
  obtain ⟨loc, fl2, old, hv, hro, hg, -, rfl⟩ := Value.Set_inv _ _ _ _ hset
  cases hv
  obtain ⟨e, ys, rfl, rfl, hlen, hb⟩ := grownSlice_length _ _ _ _ _ hgs
  have hget := Val.get_set_same root c (.slice e ys) old hg
  simp only [Value.Index, Value.read, hget] at hi
  split at hi
  · next hc =>
    have h1 := wrapInt_le (idx + 1) (by omega)
    have h2 := wrapInt_lt (idx + 1)
    have hw : wrapInt (idx + 1) = idx + 1 := by omega
    refine ⟨hro, hc.1, by omega, ?_⟩
    intro e2 he2
    cases he2
    have hN : (idx + 1).toNat = idx.toNat + 1 := by omega
    rw [hw, hN] at hb
    exact hb
  · simp at hi

/-- What the "Slice of structs" step does when it returns: the index is not negative, `v` is
at a slice, which is made at least `idx+1` long by zero values at its end, and `v` moves to
element `idx`; a slice that had to grow can be set, `idx+1` did not wrap, and the new slice is within what
the runtime allocates. -/
theorem growAndIndex_exact (root : Val) (c : Loc) (fl : Flag) (idx : Int) (root1 : Val)
    (v1 : Value) (x : Val) (hg : root.get c = some x)
    (h : growAndIndex root (.ref c fl) x.typeOf idx = .ok (root1, v1)) :
    0 ≤ idx ∧ (∃ e, x = .nilSlice e ∨ ∃ xs, x = .slice e xs)
      ∧ root1 = root.set c (x.extend (idx.toNat + 1))
      ∧ v1 = .ref (c ++ [.index idx.toNat]) ⟨fl.ro, false⟩
      ∧ (x.items.length ≤ idx.toNat → fl.ro = false ∧ idx + 1 < 2 ^ 63
          ∧ ∀ e, x.typeOf = .slice e → e.size * (idx.toNat + 1) ≤ maxAlloc) := by
  cases x
  case nilSlice e =>
    have hfacts : fl.ro = false ∧ 0 ≤ idx ∧ idx + 1 < 2 ^ 63
        ∧ ∀ e2, (Val.nilSlice e).typeOf = .slice e2 → e2.size * (idx.toNat + 1) ≤ maxAlloc := by
      cases hgs : grownSlice root (.ref c fl) (Val.nilSlice e).typeOf idx with
      | error p =>
        simp [growAndIndex, Value.IsNil, Value.read, hg, hgs, bind, Except.bind, pure, Except.pure] at h
      | ok value =>
        cases hset : (Value.ref c fl).Set root (some value) with
        | error p =>
          simp [growAndIndex, Value.IsNil, Value.read, hg, hgs, hset, bind, Except.bind, pure,
            Except.pure] at h
        | ok root2 =>
          cases hi : (Value.ref c fl).Index root2 idx with
          | error p =>
            simp [growAndIndex, Value.IsNil, Value.read, hg, hgs, hset, hi, bind,
              Except.bind, pure, Except.pure] at h
          | ok w => exact grown_facts root c fl _ idx value root2 w hgs hset hi
    obtain ⟨hro, h0, h1, hb⟩ := hfacts
    rw [show (Val.nilSlice e).typeOf = .slice e from rfl,
      growAndIndex_nil root c fl e idx hg h0 h1 (hb e rfl) hro] at h
    simp only [Except.ok.injEq, Prod.mk.injEq] at h
    exact ⟨h0, ⟨e, Or.inl rfl⟩, h.1.symm, h.2.symm, fun _ => ⟨hro, h1, hb⟩⟩
  case slice e xs =>
    by_cases hlt : (xs.length : Int) < wrapInt (idx + 1)
    · have hfacts : fl.ro = false ∧ 0 ≤ idx ∧ idx + 1 < 2 ^ 63
          ∧ ∀ e2, (Val.slice e xs).typeOf = .slice e2 →
            e2.size * (idx.toNat + 1) ≤ maxAlloc := by
        cases hgs : grownSlice root (.ref c fl) (Val.slice e xs).typeOf idx with
        | error p =>
          simp [growAndIndex, Value.IsNil, Value.Len, Value.read, hg, hgs, hlt, bind,
            Except.bind, pure, Except.pure] at h
        | ok value =>
          cases hset : (Value.ref c fl).Set root (some value) with
          | error p =>
            simp [growAndIndex, Value.IsNil, Value.Len, Value.read, hg, hgs, hset, hlt, bind,
              Except.bind, pure, Except.pure] at h
          | ok root2 =>
            cases hi : (Value.ref c fl).Index root2 idx with
            | error p =>
              simp [growAndIndex, Value.IsNil, Value.Len, Value.read, hg, hgs, hset, hi, hlt,
                bind, Except.bind, pure, Except.pure] at h
            | ok w => exact grown_facts root c fl _ idx value root2 w hgs hset hi
      obtain ⟨hro, h0, h1, hb⟩ := hfacts
      have hw : wrapInt (idx + 1) = idx + 1 := wrapInt_eq _ (by omega) h1
      rw [show (Val.slice e xs).typeOf = .slice e from rfl,
        growAndIndex_short root c fl e xs idx hg h0 h1 (hb e rfl) hro (by omega)] at h
      simp only [Except.ok.injEq, Prod.mk.injEq] at h
      exact ⟨h0, ⟨e, Or.inr ⟨xs, rfl⟩⟩, h.1.symm, h.2.symm, fun _ => ⟨hro, h1, hb⟩⟩
    · have hi : 0 ≤ idx ∧ idx < (xs.length : Int) := by
        by_cases hc : 0 ≤ idx ∧ idx < (xs.length : Int)
        · exact hc
        · simp [growAndIndex, Value.IsNil, Value.Len, Value.read, hg, hlt, Value.Index, hc,
            bind, Except.bind, pure, Except.pure] at h
      rw [growAndIndex_long root c fl _ e xs idx hg hi.1 (by omega)] at h
      simp only [Except.ok.injEq, Prod.mk.injEq] at h
      refine ⟨hi.1, ⟨e, Or.inr ⟨xs, rfl⟩⟩, ?_, h.2.symm, ?_⟩
      · rw [Val.extend_of_le e xs _ (by omega), Val.set_get _ _ _ hg]
        exact h.1.symm
      · intro hle
        simp only [Val.items] at hle
        omega
  all_goals
    simp [growAndIndex, grownSlice, reflectMakeSlice, Val.typeOf, Value.IsNil, Value.Len,
      Value.read, hg, bind, Except.bind, pure, Except.pure] at h

/-! ## Growing and filling a slice -/

theorem getD_padTo (xs : List Val) (n : Nat) (z : Val) (k : Nat) :
    (padTo xs n z).getD k z = xs.getD k z := by
  rw [List.getD_eq_getElem?_getD, getElem?_padTo, List.getD_eq_getElem?_getD]
  by_cases h1 : k < xs.length
  · simp [h1]
  · have : xs[k]? = none := List.getElem?_eq_none (by omega)
    simp only [h1, if_false, this]
    split <;> rfl

theorem padTo_fill (xs : List Val) (n j : Nat) (v z : Val) :
    padTo ((padTo xs (j + 1) z).set j v) n z = (padTo (padTo xs n z) (j + 1) z).set j v := by
  apply List.ext_getElem?
  intro k
  rw [getElem?_padTo, getElem?_fill, getElem?_fill, length_fill, length_padTo, getElem?_padTo]
  by_cases hkj : k = j
  · subst hkj
    have h2 : k < max xs.length (k + 1) := by omega
    simp [h2]
  · simp only [hkj, if_false]
    by_cases h1 : k < xs.length
    · have h2 : k < max xs.length (j + 1) := by omega
      have h3 : k < max xs.length n := by omega
      simp [h1, h2, h3]
    · simp only [h1, if_false]
      by_cases h2 : k < j
      · have h3 : k < max xs.length (j + 1) := by omega
        by_cases h4 : k < n
        · have h5 : k < max xs.length n := by omega
          simp [h2, h3, h4, h5]
        · have h5 : ¬ k < max xs.length n := by omega
          simp [h2, h3, h4, h5]
      · have h3 : ¬ k < max xs.length (j + 1) := by omega
        by_cases h4 : k < n
        · have h5 : k < max xs.length n := by omega
          simp [h2, h3, h4, h5]
        · have h5 : ¬ k < max xs.length n := by omega
          simp [h2, h3, h4, h5]

theorem padTo_padTo (xs : List Val) (n : Nat) (z : Val) :
    padTo (padTo xs n z) n z = padTo xs n z :=
  padTo_of_le _ _ _ (by rw [length_padTo]; omega)

/-- Filling below an element of a slice that was grown to hold it is filling below the element
of the slice as it was. -/
theorem Val.put_extend (x : Val) (i : Nat) (m : Loc) (y : Val) :
    (x.extend (i + 1)).put (.index i :: m) y = x.put (.index i :: m) y := by
  cases x
  case nilSlice e =>
    simp only [Val.extend, Val.put_slice, Val.put_nilSlice, padTo_padTo, getD_padTo]
    simp
  case slice e xs =>
    simp only [Val.extend, Val.put_slice, padTo_padTo, getD_padTo]
  all_goals rfl

/-- Growing a slice after filling below it is filling below the slice that was grown. -/
theorem Val.extend_put (x : Val) (n : Nat) (p : Loc) (y : Val) (hp : p ≠ [])
    (hx : ∃ e, x = .nilSlice e ∨ ∃ xs, x = .slice e xs) :
    (x.put p y).extend n = (x.extend n).put p y
      ∧ x.items.length ≤ (x.put p y).items.length
      ∧ ∃ e, x.typeOf = .slice e ∧ ((x.put p y) = .nilSlice e ∨ ∃ ys, (x.put p y) = .slice e ys) := by
  cases p with
  | nil => exact absurd rfl hp
  | cons s p =>
    obtain ⟨e, rfl | ⟨xs, rfl⟩⟩ := hx
    · cases s
      case index j =>
        refine ⟨?_, by simp [Val.items], e, rfl, Or.inr ⟨_, Val.put_nilSlice e j p y⟩⟩
        simp only [Val.put_nilSlice, Val.extend, Val.put_slice, padTo_fill, getD_padTo]
        simp
      all_goals exact ⟨rfl, le_refl _, e, rfl, Or.inl rfl⟩
    · cases s
      case index j =>
        refine ⟨?_, ?_, e, rfl, Or.inr ⟨_, Val.put_slice e xs j p y⟩⟩
        · simp only [Val.extend, Val.put_slice, padTo_fill, getD_padTo]
        · simp only [Val.put_slice, Val.items, length_fill]
          omega
      all_goals exact ⟨rfl, le_refl _, e, rfl, Or.inr ⟨xs, rfl⟩⟩

/-- The "Slice of structs" step returns on a slice and an index that is not negative, if the
slice is long enough, or can be set while `idx+1` does not wrap and the new slice is within what
the runtime allocates. -/
theorem growAndIndex_ok (root : Val) (c : Loc) (fl : Flag) (idx : Int) (x : Val)
    (hg : root.get c = some x) (hx : ∃ e, x = .nilSlice e ∨ ∃ xs, x = .slice e xs)
    (h0 : 0 ≤ idx)
    (hs : x.items.length ≤ idx.toNat → fl.ro = false ∧ idx + 1 < 2 ^ 63
      ∧ ∀ e, x.typeOf = .slice e → e.size * (idx.toNat + 1) ≤ maxAlloc) :
    growAndIndex root (.ref c fl) x.typeOf idx
      = .ok (root.set c (x.extend (idx.toNat + 1)),
          .ref (c ++ [.index idx.toNat]) ⟨fl.ro, false⟩) := by
  obtain ⟨e, rfl | ⟨xs, rfl⟩⟩ := hx
  · obtain ⟨hro, h1, hb⟩ := hs (by simp [Val.items])
    exact growAndIndex_nil root c fl e idx hg h0 h1 (hb e rfl) hro
  · by_cases hl : xs.length ≤ idx.toNat
    · obtain ⟨hro, h1, hb⟩ := hs hl
      exact growAndIndex_short root c fl e xs idx hg h0 h1 (hb e rfl) hro hl
    · rw [growAndIndex_long root c fl _ e xs idx hg h0 (by omega),
        Val.extend_of_le e xs _ (by omega), Val.set_get _ _ _ hg]

/-! ## The descent in a target that was filled elsewhere -/

theorem Loc.split_off (la c : Loc) (h : ¬ la <+: c) :
    (∃ s m, la = c ++ s :: m) ∨ (¬ c <+: la) := by
  rcases Classical.em (c <+: la) with hc | hc
  · obtain ⟨p, rfl⟩ := hc
    cases p with
    | nil => simp at h
    | cons s m => exact Or.inl ⟨s, m, rfl⟩
  · exact Or.inr hc

/-- The step through a pointer, in a target filled at a location that is not above where the
step ends, does what it did and leaves the target it left, filled. -/
theorem dereference_sim (root : Val) (v : Value) (root1 : Val) (c1 : Loc) (fl1 : Flag) (t : Ty)
    (la : Loc) (y : Val) (h : dereference root v = .ok (root1, .ref c1 fl1, t))
    (hla : ¬ la <+: c1) :
    dereference (root.put la y) v = .ok (root1.put la y, .ref c1 fl1, t) := by
  obtain ⟨c, fl, x, hv0, hg, hcase⟩ := dereference_exact _ _ _ _ _ h
  rw [hv0]
  rcases hcase with ⟨e, hx, hro, hr, hv, ht⟩ | ⟨z, hx, hr, hv, ht⟩ | ⟨hx, hr, hv, ht⟩
  · simp only [Value.ref.injEq] at hv
    obtain ⟨hc1, hfl⟩ := hv
    rw [hx] at hg
    rw [hr, hc1, hfl, ht]
    rw [hc1] at hla
    have hc : ¬ la <+: c := fun hp => hla (hp.trans (List.prefix_append _ _))
    rcases Loc.split_off la c hc with ⟨s, m, rfl⟩ | hinc
    · have hg1 := Val.get_set_same root c (.ptrTo e.zero) _ hg
      rw [Val.put_append _ c (s :: m) y _ hg1, Val.set_set]
      have hg2 := Val.get_put_above root c (s :: m) y _ hg
      cases s
      case elem =>
        rw [dereference_ptrTo _ c fl _ (by simpa [Val.put] using hg2),
          Val.put_append _ c _ y _ hg]
        simp [Val.put, Val.typeOf_put, Ty.typeOf_zero]
      all_goals
        rw [dereference_nilPtr _ c fl e (by simpa [Val.put] using hg2) hro,
          Val.put_append _ c _ y _ hg, Val.set_set]
        simp [Val.put]
    · rw [dereference_nilPtr _ c fl e (Val.get_put_disjoint la root c y _ hc hinc hg) hro,
        Val.set_put_comm root c la y _ _ hinc hc hg (by simp [Val.typeOf, Ty.typeOf_zero])]
  · simp only [Value.ref.injEq] at hv
    obtain ⟨hc1, hfl⟩ := hv
    rw [hx] at hg
    rw [hr, hc1, hfl, ht]
    rw [hc1] at hla
    have hc : ¬ la <+: c := fun hp => hla (hp.trans (List.prefix_append _ _))
    obtain ⟨x2, hg2, hty, hp⟩ := Val.get_put_off root la c y _ hg hc
    obtain ⟨z2, rfl⟩ := hp z rfl
    rw [dereference_ptrTo _ c fl z2 hg2]
    simp only [Val.typeOf, Ty.ptr.injEq] at hty
    rw [hty]
  · simp only [Value.ref.injEq] at hv
    obtain ⟨hc1, hfl⟩ := hv
    rw [hr, hc1, hfl, ht]
    rw [hc1] at hla
    obtain ⟨x2, hg2, hty, -⟩ := Val.get_put_off root la c y _ hg hla
    rw [dereference_other _ c fl x2 hg2 (by rw [hty]; exact hx), hty]

/-- The "Slice of structs" step, in a target filled at a location that is not above the element
the step moves to, does what it did and leaves the target it left, filled. -/
theorem growAndIndex_sim (root : Val) (c : Loc) (fl : Flag) (idx : Int) (root1 : Val)
    (c1 : Loc) (fl1 : Flag) (x : Val) (la : Loc) (y : Val) (hg : root.get c = some x)
    (h : growAndIndex root (.ref c fl) x.typeOf idx = .ok (root1, .ref c1 fl1))
    (hla : ¬ la <+: c1) :
    growAndIndex (root.put la y) (.ref c fl) x.typeOf idx
      = .ok (root1.put la y, .ref c1 fl1) := by
  obtain ⟨h0, hx, rfl, hv, hs⟩ := growAndIndex_exact root c fl idx _ _ x hg h
  cases hv
  have hc : ¬ la <+: c := fun hp => hla (hp.trans (List.prefix_append _ _))
  rcases Loc.split_off la c hc with ⟨s, m, rfl⟩ | hinc
  · obtain ⟨hcomm, hlen, e, hte, hkind⟩ :=
      Val.extend_put x (idx.toNat + 1) (s :: m) y (by simp) hx
    have hg2 := Val.get_put_above root c (s :: m) y _ hg
    have hty : (x.put (s :: m) y).typeOf = x.typeOf := Val.typeOf_put _ _ _
    have hrun := growAndIndex_ok (root.put (c ++ s :: m) y) c fl idx _ hg2 ⟨e, hkind⟩ h0
      (fun hle => by rw [hty]; exact hs (le_trans hlen hle))
    rw [hty] at hrun
    rw [hrun, Val.put_append _ c (s :: m) y _ (Val.get_set_same root c _ _ hg), Val.set_set,
      Val.put_append _ c (s :: m) y _ hg, Val.set_set, hcomm]
  · have hrun := growAndIndex_ok (root.put la y) c fl idx x
      (Val.get_put_disjoint la root c y _ hc hinc hg) hx h0 hs
    rw [hrun, Val.set_put_comm root c la y _ _ hinc hc hg]
    obtain ⟨e, rfl | ⟨xs, rfl⟩⟩ := hx <;> rfl

/-- The walk over the field names, in a target filled at a location that is not above where the
walk ends, ends where it did and leaves the target it left, filled. -/
theorem walkFields_sim (names : List String) :
    ∀ (root : Val) (v : Value) (root1 : Val) (c1 : Loc) (fl1 : Flag) (la : Loc) (y : Val),
      walkFields root v names = .ok (root1, .ref c1 fl1) → ¬ la <+: c1 →
      walkFields (root.put la y) v names = .ok (root1.put la y, .ref c1 fl1) := by
  induction names with
  | nil =>
    intro root v root1 c1 fl1 la y h _
    simp only [walkFields, Except.ok.injEq, Prod.mk.injEq] at h ⊢
    exact ⟨by rw [h.1], h.2⟩
  | cons name names ih =>
    intro root v root1 c1 fl1 la y h hla
    unfold walkFields at h
    cases hd : dereference root v with
    | error p => simp [hd] at h
    | ok r =>
      obtain ⟨r2, v2, t2⟩ := r
      simp only [hd] at h
      cases hf : v2.FieldByName r2 name with
      | error p => simp [hf] at h
      | ok v3 =>
        simp only [hf] at h
        obtain ⟨c3, fl3, rfl, hp3, -, -⟩ := walkFields_keeps _ _ _ _ _ _ h
        obtain ⟨c2, fl2, rfl, hp2⟩ := Value.FieldByName_loc _ _ _ _ _ hf
        have hla3 : ¬ la <+: c3 := fun hp => hla (hp.trans hp3)
        have hla2 : ¬ la <+: c2 := fun hp => hla3 (hp.trans hp2)
        have hd2 := dereference_sim root v r2 c2 fl2 t2 la y hd hla2
        have hf2 := Value.FieldByName_sim r2 (r2.put la y) _ name c3 fl3 hf
          (Val.Agree.of_put r2 la c3 y hla3)
        unfold walkFields
        simp only [hd2, hf2]
        exact ih _ _ _ _ _ la y h hla

/-- The descent of a key, in a target filled at a location that is not above where the descent
ends, ends where it did and leaves the target it left, filled. -/
theorem resolve_sim (parts : List PathPart) :
    ∀ (root : Val) (v : Value) (root1 : Val) (c1 : Loc) (fl1 : Flag) (t : Ty) (la : Loc)
      (y : Val),
      resolve root v parts = .ok (root1, some (.ref c1 fl1, t)) → ¬ la <+: c1 →
      resolve (root.put la y) v parts = .ok (root1.put la y, some (.ref c1 fl1, t)) := by
  induction parts with
  | nil => intro root v root1 c1 fl1 t la y h; simp [resolve] at h
  | cons part rest ih =>
    intro root v root1 c1 fl1 t la y h hla
    unfold resolve at h
    cases hw : walkFields root v part.path with
    | error p => simp [hw] at h
    | ok r =>
      obtain ⟨r2, v2⟩ := r
      simp only [hw] at h
      cases hc : v2.CanSet with
      | false => simp [hc] at h
      | true =>
        simp only [hc, Bool.not_true, Bool.false_eq_true, if_false] at h
        cases hd : dereference r2 v2 with
        | error p => simp [hd] at h
        | ok r3 =>
          obtain ⟨r3, v3, t3⟩ := r3
          simp only [hd] at h
          cases rest with
          | nil =>
            simp only [Except.ok.injEq, Prod.mk.injEq, Option.some.injEq] at h
            obtain ⟨rfl, rfl, rfl⟩ := h
            obtain ⟨c2, fl2, rfl, hp2, -, -⟩ := dereference_keeps _ _ _ _ _ _ hd
            have hla2 : ¬ la <+: c2 := fun hp => hla (hp.trans hp2)
            have hw2 := walkFields_sim _ _ _ _ _ _ la y hw hla2
            have hd2 := dereference_sim _ _ _ _ _ _ la y hd hla
            unfold resolve
            simp only [hw2, hc, Bool.not_true, Bool.false_eq_true, if_false, hd2]
          | cons part2 rest2 =>
            simp only at h
            cases hg : growAndIndex r3 v3 t3 part.index with
            | error p => simp [hg] at h
            | ok r4 =>
              obtain ⟨r4, v4⟩ := r4
              simp only [hg] at h
              obtain ⟨c4, fl4, rfl, hp4, -, -⟩ := resolve_keeps _ _ _ _ _ _ _ h
              obtain ⟨c3, fl3, rfl, hp3, -, -⟩ := growAndIndex_keeps _ _ _ _ _ _ _ hg
              obtain ⟨c2, fl2, rfl, hp2, -, -⟩ := dereference_keeps _ _ _ _ _ _ hd
              have hla4 : ¬ la <+: c4 := fun hp => hla (hp.trans hp4)
              have hla3 : ¬ la <+: c3 := fun hp => hla4 (hp.trans hp3)
              have hla2 : ¬ la <+: c2 := fun hp => hla3 (hp.trans hp2)
              have hw2 := walkFields_sim _ _ _ _ _ _ la y hw hla2
              have hd2 := dereference_sim _ _ _ _ _ _ la y hd hla3
              obtain ⟨-, x3, hx3, hty3⟩ := dereference_typed _ _ _ _ _ _ hd hc
              subst hty3
              have hg2 := growAndIndex_sim r3 c3 fl3 part.index r4 c4 fl4 x3 la y hx3 hg hla4
              unfold resolve
              simp only [hw2, hc, Bool.not_true, Bool.false_eq_true, if_false, hd2, hg2]
              exact ih _ _ _ _ _ _ la y h hla

/-! ## What the descent makes is made by filling the leaf -/

theorem dereference_absorb (root : Val) (v : Value) (root1 : Val) (c1 : Loc) (fl1 : Flag)
    (t : Ty) (h : dereference root v = .ok (root1, .ref c1 fl1, t)) (m : Loc) (y : Val) :
    root1.put (c1 ++ m) y = root.put (c1 ++ m) y := by
  obtain ⟨c, fl, x, -, hg, hcase⟩ := dereference_exact _ _ _ _ _ h
  rcases hcase with ⟨e, hx, -, hr, hv, -⟩ | ⟨z, -, hr, -, -⟩ | ⟨-, hr, -, -⟩
  · simp only [Value.ref.injEq] at hv
    rw [hx] at hg
    rw [hr, hv.1, List.append_assoc,
      Val.put_append _ c _ y _ (Val.get_set_same root c (.ptrTo e.zero) _ hg), Val.set_set,
      Val.put_append _ c _ y _ hg]
    simp [Val.put]
  · rw [hr]
  · rw [hr]

theorem growAndIndex_absorb (root : Val) (c : Loc) (fl : Flag) (idx : Int) (root1 : Val)
    (c1 : Loc) (fl1 : Flag) (x : Val) (hg : root.get c = some x)
    (h : growAndIndex root (.ref c fl) x.typeOf idx = .ok (root1, .ref c1 fl1)) (m : Loc)
    (y : Val) : root1.put (c1 ++ m) y = root.put (c1 ++ m) y := by
  obtain ⟨-, -, hr, hv, -⟩ := growAndIndex_exact root c fl idx _ _ x hg h
  simp only [Value.ref.injEq] at hv
  rw [hr, hv.1, List.append_assoc,
    Val.put_append _ c _ y _ (Val.get_set_same root c _ _ hg), Val.set_set,
    Val.put_append _ c _ y _ hg]
  simp only [List.singleton_append, Val.put_extend]

theorem walkFields_absorb (names : List String) :
    ∀ (root : Val) (v : Value) (root1 : Val) (c1 : Loc) (fl1 : Flag) (m : Loc) (y : Val),
      walkFields root v names = .ok (root1, .ref c1 fl1) →
      root1.put (c1 ++ m) y = root.put (c1 ++ m) y := by
  induction names with
  | nil =>
    intro root v root1 c1 fl1 m y h
    simp only [walkFields, Except.ok.injEq, Prod.mk.injEq] at h
    rw [h.1]
  | cons name names ih =>
    intro root v root1 c1 fl1 m y h
    unfold walkFields at h
    cases hd : dereference root v with
    | error p => simp [hd] at h
    | ok r =>
      obtain ⟨r2, v2, t2⟩ := r
      simp only [hd] at h
      cases hf : v2.FieldByName r2 name with
      | error p => simp [hf] at h
      | ok v3 =>
        simp only [hf] at h
        obtain ⟨c3, fl3, rfl, hp3, -, -⟩ := walkFields_keeps _ _ _ _ _ _ h
        obtain ⟨c2, fl2, rfl, hp2⟩ := Value.FieldByName_loc _ _ _ _ _ hf
        obtain ⟨q, rfl⟩ := hp2.trans hp3
        rw [ih _ _ _ _ _ m y h, List.append_assoc]
        exact dereference_absorb _ _ _ _ _ _ hd _ y

theorem resolve_absorb (parts : List PathPart) :
    ∀ (root : Val) (v : Value) (root1 : Val) (c1 : Loc) (fl1 : Flag) (t : Ty) (m : Loc)
      (y : Val),
      resolve root v parts = .ok (root1, some (.ref c1 fl1, t)) →
      root1.put (c1 ++ m) y = root.put (c1 ++ m) y := by
  induction parts with
  | nil => intro root v root1 c1 fl1 t m y h; simp [resolve] at h
  | cons part rest ih =>
    intro root v root1 c1 fl1 t m y h
    unfold resolve at h
    cases hw : walkFields root v part.path with
    | error p => simp [hw] at h
    | ok r =>
      obtain ⟨r2, v2⟩ := r
      simp only [hw] at h
      cases hc : v2.CanSet with
      | false => simp [hc] at h
      | true =>
        simp only [hc, Bool.not_true, Bool.false_eq_true, if_false] at h
        cases hd : dereference r2 v2 with
        | error p => simp [hd] at h
        | ok r3 =>
          obtain ⟨r3, v3, t3⟩ := r3
          simp only [hd] at h
          cases rest with
          | nil =>
            simp only [Except.ok.injEq, Prod.mk.injEq, Option.some.injEq] at h
            obtain ⟨rfl, rfl, rfl⟩ := h
            obtain ⟨c2, fl2, rfl, hp2, -, -⟩ := dereference_keeps _ _ _ _ _ _ hd
            obtain ⟨q, rfl⟩ := hp2
            rw [dereference_absorb _ _ _ _ _ _ hd m y, List.append_assoc]
            exact walkFields_absorb _ _ _ _ _ _ _ y hw
          | cons part2 rest2 =>
            simp only at h
            cases hg : growAndIndex r3 v3 t3 part.index with
            | error p => simp [hg] at h
            | ok r4 =>
              obtain ⟨r4, v4⟩ := r4
              simp only [hg] at h
              obtain ⟨c4, fl4, rfl, hp4, -, -⟩ := resolve_keeps _ _ _ _ _ _ _ h
              obtain ⟨c3, fl3, rfl, hp3, -, -⟩ := growAndIndex_keeps _ _ _ _ _ _ _ hg
              obtain ⟨c2, fl2, rfl, hp2, -, -⟩ := dereference_keeps _ _ _ _ _ _ hd
              obtain ⟨-, x3, hx3, hty3⟩ := dereference_typed _ _ _ _ _ _ hd hc
              subst hty3
              obtain ⟨q4, rfl⟩ := hp4
              obtain ⟨q3, rfl⟩ := hp3
              obtain ⟨q2, rfl⟩ := hp2
              rw [ih _ _ _ _ _ _ m y h, List.append_assoc,
                growAndIndex_absorb _ _ _ _ _ _ _ _ hx3 hg _ y, List.append_assoc,
                dereference_absorb _ _ _ _ _ _ hd _ y, List.append_assoc]
              exact walkFields_absorb _ _ _ _ _ _ _ y hw

/-! ## A key as a filling of its leaf -/

/-- The "Simple case" writes a value that the type and the uploads decide: the same one
wherever the location holds a value of that type. -/
theorem assignLeaf_uniform (root : Val) (c : Loc) (fl : Flag) (t : Ty)
    (values : List (Option FileHeader)) (root2 old : Val)
    (h : assignLeaf root (.ref c fl) t values = .ok root2) (hg : root.get c = some old)
    (hty : old.typeOf = t) :
    ∃ y, y.typeOf = t ∧ root2 = root.set c y ∧
      ∀ r old2, r.get c = some old2 → old2.typeOf = t →
        assignLeaf r (.ref c fl) t values = .ok (r.set c y) := by
  have hro : fl.ro = false := by
    cases hro : fl.ro with
    | false => rfl
    | true =>
      cases t <;>
        simp [assignLeaf, Value.Set, hro, reflectMakeSlice, reflectAppend, bind, Except.bind] at h
      split at h <;> simp at h
  have hmain : ∀ x : Option Val, (Value.ref c fl).Set root x = .ok root2 →
      (∀ r, assignLeaf r (.ref c fl) t values = (Value.ref c fl).Set r x) →
      ∃ y, y.typeOf = t ∧ root2 = root.set c y ∧
        ∀ r old2, r.get c = some old2 → old2.typeOf = t →
          assignLeaf r (.ref c fl) t values = .ok (r.set c y) := by
    intro x hset hall
    obtain ⟨c2, fl2, old3, y, hv, rfl, hg3, hty3, hr⟩ := Value.Set_inv_any _ _ _ _ hset
    cases hv
    rw [hg] at hg3
    cases hg3
    refine ⟨y, hty3.trans hty, hr, ?_⟩
    intro r old2 hg2 hty2
    rw [hall r]
    exact Value.Set_ok r c fl old2 y hg2 hro (by rw [hty3, hty, hty2])
  cases t
  case slice e =>
    by_cases hall : (values.map reflectValueOf).all (fun x => Ty.same x.typeOf e) = true
    · refine hmain (some (.slice e (values.map reflectValueOf))) ?_ ?_
      · simpa [assignLeaf, reflectMakeSlice, reflectAppend, hall, bind, Except.bind] using h
      · intro r
        simp [assignLeaf, reflectMakeSlice, reflectAppend, hall, bind, Except.bind]
    · simp [assignLeaf, reflectMakeSlice, reflectAppend, hall, bind, Except.bind] at h
  all_goals exact hmain _ h (fun r => rfl)

/-! ## The keys of a form, one after the other -/

/-- What a key that decodes gives: the leaf is there after the descent, the value has its type
and is what the "Simple case" writes wherever the leaf holds a value of that type. -/
theorem Key.Decodes.spec {k : Key} {root : Val} (h : k.Decodes root) :
    ∃ root1 fl t old, resolve root Value.root k.parts = .ok (root1, some (.ref k.leaf fl, t))
      ∧ root1.get k.leaf = some old ∧ old.typeOf = t ∧ k.value.typeOf = t
      ∧ (∀ r old2, r.get k.leaf = some old2 → old2.typeOf = t →
          assignLeaf r (.ref k.leaf fl) t k.values = .ok (r.set k.leaf k.value))
      ∧ root1.set k.leaf k.value = root.put k.leaf k.value := by
  obtain ⟨root1, fl, t, hres, ha⟩ := h
  obtain ⟨-, old, hg, hty⟩ := resolve_typed _ _ _ _ _ _ _ hres
  obtain ⟨y, hy, hr, hall⟩ := assignLeaf_uniform _ _ _ _ _ _ _ ha hg hty
  have hyv : y = k.value := by
    have h1 := Val.get_set_same root1 k.leaf y old hg
    rw [← hr, Val.get_set_same root1 k.leaf k.value old hg] at h1
    exact (Option.some.inj h1).symm
  subst hyv
  have habs := resolve_absorb k.parts root Value.root root1 k.leaf fl t [] k.value hres
  simp only [List.append_nil] at habs
  refine ⟨root1, fl, t, old, hres, hg, hty, hy, hall, ?_⟩
  rw [← Val.put_eq_set root1 k.leaf k.value old hg (hy.trans hty.symm), habs]

/-- A key that decodes returns nil and leaves the target with its leaf filled. -/
theorem Key.Decodes.run {k : Key} {root : Val} (h : k.Decodes root) (path : String) :
    decodeMultipart root Value.root path k.parts k.values
      = .ok (none, root.put k.leaf k.value) := by
  obtain ⟨root1, fl, t, old, hres, hg, hty, -, hall, hput⟩ := h.spec
  rw [decodeMultipart_eq_resolve, hres]
  simp only [hall root1 old hg hty, hput]

/-- The leaf of a key that decodes holds the value of the key afterwards. -/
theorem Key.Decodes.get {k : Key} {root : Val} (h : k.Decodes root) :
    (root.put k.leaf k.value).get k.leaf = some k.value := by
  obtain ⟨root1, fl, t, old, -, hg, -, -, -, hput⟩ := h.spec
  rw [← hput]
  exact Val.get_set_same root1 k.leaf k.value old hg

/-- A key that decodes in a target decodes in the target filled at a place apart from its
leaf, with the same leaf and the same value. -/
theorem Key.Decodes.put {k : Key} {root : Val} (h : k.Decodes root) (la : Loc) (ya : Val)
    (h1 : ¬ la <+: k.leaf) (h2 : ¬ k.leaf <+: la) : k.Decodes (root.put la ya) := by
  obtain ⟨root1, fl, t, old, hres, hg, hty, -, hall, -⟩ := h.spec
  refine ⟨root1.put la ya, fl, t, resolve_sim _ _ _ _ _ _ _ la ya hres h1, ?_⟩
  exact hall _ old (Val.get_put_disjoint la root1 k.leaf ya old h1 h2 hg) hty

/-- The loop over the file map, on keys that the cache parses, that decode each alone and that
write at places apart from each other: no error is added and the target ends with the leaves
of all keys filled. -/
theorem decodeFiles_eq_fillAll (d : MultipartDecoder) (t : Ty) (errors : MultiError) :
    ∀ (ks : List Key) (root : Val),
      (∀ k ∈ ks, d.parsePath k.path t = some k.parts ∧ k.Decodes root) →
      ks.Pairwise Key.Apart →
      decodeFiles d t (ks.map Key.entry) errors root = .ok (errors, fillAll root ks) := by
  intro ks
  induction ks with
  | nil => intro root _ _; rfl
  | cons k ks ih =>
    intro root hall hp
    obtain ⟨hpk, hdk⟩ := hall k (List.mem_cons_self _ _)
    rw [List.pairwise_cons] at hp
    simp only [List.map_cons, Key.entry, decodeFiles, hpk, hdk.run k.path, fillAll,
      List.foldl_cons]
    refine ih (root.put k.leaf k.value) ?_ hp.2
    intro k2 hk2
    obtain ⟨hpk2, hdk2⟩ := hall k2 (List.mem_cons_of_mem _ hk2)
    exact ⟨hpk2, hdk2.put k.leaf k.value (hp.1 k2 hk2).1 (hp.1 k2 hk2).2⟩

/-- Fillings at places apart from a location keep what is there. -/
theorem fillAll_get_apart (c : Loc) (x : Val) :
    ∀ (ks : List Key) (root : Val), (∀ k ∈ ks, ¬ k.leaf <+: c ∧ ¬ c <+: k.leaf) →
      root.get c = some x → (fillAll root ks).get c = some x := by
  intro ks
  induction ks with
  | nil => intro root _ h; exact h
  | cons k ks ih =>
    intro root hall h
    simp only [fillAll, List.foldl_cons]
    exact ih _ (fun k2 hk2 => hall k2 (List.mem_cons_of_mem _ hk2))
      (Val.get_put_disjoint k.leaf root c k.value x (hall k (List.mem_cons_self _ _)).1
        (hall k (List.mem_cons_self _ _)).2 h)

/-- After all keys the leaf of each holds the value of that key. -/
theorem fillAll_get_leaf :
    ∀ (ks : List Key) (root : Val), (∀ k ∈ ks, k.Decodes root) → ks.Pairwise Key.Apart →
      ∀ k ∈ ks, (fillAll root ks).get k.leaf = some k.value := by
  intro ks
  induction ks with
  | nil => intro root _ _ k hk; simp at hk
  | cons k0 ks ih =>
    intro root hall hp k hk
    rw [List.pairwise_cons] at hp
    simp only [fillAll, List.foldl_cons]
    rcases List.mem_cons.mp hk with rfl | hk2
    · exact fillAll_get_apart k.leaf k.value ks _
        (fun k2 hk2 => ⟨(hp.1 k2 hk2).2, (hp.1 k2 hk2).1⟩)
        (hall k (List.mem_cons_self _ _)).get
    · refine ih (root.put k0.leaf k0.value) ?_ hp.2 k hk2
      intro k2 hk2
      exact (hall k2 (List.mem_cons_of_mem _ hk2)).put k0.leaf k0.value (hp.1 k2 hk2).1
        (hp.1 k2 hk2).2

/-- The order of the keys does not matter for the target with all leaves filled. -/
theorem fillAll_perm (root : Val) (ks ks2 : List Key) (hperm : ks2.Perm ks)
    (hp : ks.Pairwise Key.Apart) : fillAll root ks2 = fillAll root ks := by
  have hsymm : ∀ a b : Key, Key.Apart a b → Key.Apart b a := fun a b h => ⟨h.2, h.1⟩
  unfold fillAll
  refine List.Perm.foldl_eq' hperm ?_ root
  intro a ha b hb r
  have ha2 := hperm.mem_iff.mp ha
  have hb2 := hperm.mem_iff.mp hb
  rcases Classical.em (a = b) with rfl | hab
  · rfl
  · have hapart : Key.Apart a b := List.Pairwise.forall hsymm hp ha2 hb2 hab
    exact Val.put_put_comm a.leaf r b.leaf a.value b.value hapart.1 hapart.2

/-! ## A call changes the target at its Value only -/

theorem Val.get_none_append (r : Val) (c q : Loc) (h : r.get c = none) :
    r.get (c ++ q) = none := by
  rw [Val.get_append, h]
  rfl

theorem Val.set_none (c : Loc) : ∀ (r z : Val), r.get c = none → r.set c z = r := by
  induction c with
  | nil => intro r z h; simp [Val.get_nil] at h
  | cons s c ih =>
    intro r z h
    cases r <;> cases s <;> simp only [Val.set]
    case struct.field n fs i =>
      cases hf : fs[i]? with
      | none => rfl
      | some f =>
        simp only [Val.get, hf] at h
        simp only [ih _ z h]
        rw [list_set_same fs i _ hf]
    case ptrTo.elem x =>
      simp only [Val.get] at h
      rw [ih _ z h]
    case slice.index e xs i =>
      cases hf : xs[i]? with
      | none => rfl
      | some f =>
        simp only [Val.get, hf] at h
        simp only [ih _ z h]
        rw [list_set_same xs i _ hf]

/-- A write below a write is one write. -/
theorem Val.set_below (r : Val) (c c2 : Loc) (z z2 : Val) (h : c <+: c2) :
    ∃ z3, (r.set c z).set c2 z2 = r.set c z3 := by
  obtain ⟨q, rfl⟩ := h
  cases hg : r.get c with
  | none =>
    refine ⟨z, ?_⟩
    rw [Val.set_none c r z hg, Val.set_none (c ++ q) r z2 (Val.get_none_append r c q hg)]
  | some x =>
    refine ⟨z.set q z2, ?_⟩
    rw [Val.set_append _ c q z2 z (Val.get_set_same r c z x hg), Val.set_set]

theorem Val.set_self (r : Val) (c : Loc) : ∃ z, r = r.set c z := by
  cases hg : r.get c with
  | none => exact ⟨r, (Val.set_none c r r hg).symm⟩
  | some x => exact ⟨x, (Val.set_get r c x hg).symm⟩

theorem dereference_local (root : Val) (c : Loc) (fl : Flag) (root1 : Val) (v1 : Value)
    (t : Ty) (h : dereference root (.ref c fl) = .ok (root1, v1, t)) :
    (∃ z, root1 = root.set c z) ∧ ∃ c1 fl1, v1 = .ref c1 fl1 ∧ c <+: c1 := by
  obtain ⟨c0, fl0, x, hv, hg, hcase⟩ := dereference_exact _ _ _ _ _ h
  cases hv
  rcases hcase with ⟨e, -, -, hr, hv, -⟩ | ⟨z, -, hr, hv, -⟩ | ⟨-, hr, hv, -⟩
  · exact ⟨⟨_, hr⟩, _, _, hv, List.prefix_append _ _⟩
  · exact ⟨by rw [hr]; exact Val.set_self _ _, _, _, hv, List.prefix_append _ _⟩
  · exact ⟨by rw [hr]; exact Val.set_self _ _, _, _, hv, List.prefix_refl _⟩

theorem walkFields_local (names : List String) :
    ∀ (root : Val) (c : Loc) (fl : Flag) (root1 : Val) (v1 : Value),
      walkFields root (.ref c fl) names = .ok (root1, v1) → ∃ z, root1 = root.set c z := by
  induction names with
  | nil =>
    intro root c fl root1 v1 h
    simp only [walkFields, Except.ok.injEq, Prod.mk.injEq] at h
    rw [← h.1]
    exact Val.set_self _ _
  | cons name names ih =>
    intro root c fl root1 v1 h
    unfold walkFields at h
    cases hd : dereference root (.ref c fl) with
    | error p => simp [hd] at h
    | ok r =>
      obtain ⟨r2, v2, t2⟩ := r
      simp only [hd] at h
      obtain ⟨⟨z2, hr2⟩, c2, fl2, rfl, hp2⟩ := dereference_local _ _ _ _ _ _ hd
      cases hf : (Value.ref c2 fl2).FieldByName r2 name with
      | error p => simp [hf] at h
      | ok v3 =>
        simp only [hf] at h
        cases v3 with
        | invalid =>
          cases names with
          | nil =>
            simp only [walkFields, Except.ok.injEq, Prod.mk.injEq] at h
            exact ⟨z2, by rw [← h.1, hr2]⟩
          | cons n ns =>
            simp [walkFields, dereference, Value.Type, Value.read, bind, Except.bind] at h
        | ref c3 fl3 =>
          obtain ⟨c2b, fl2b, hv, hp3⟩ := Value.FieldByName_loc _ _ _ _ _ hf
          cases hv
          obtain ⟨z3, hr3⟩ := ih _ _ _ _ _ h
          rw [hr3, hr2]
          exact Val.set_below root c c3 z2 z3 (hp2.trans hp3)

/-- A call of `decodeMultipart` that returns has changed the target at its Value only. -/
theorem decodeMultipart_local (path : String) (values : List (Option FileHeader))
    (parts : List PathPart) :
    ∀ (root : Val) (c : Loc) (fl : Flag) (e : Option Error) (root1 : Val),
      decodeMultipart root (.ref c fl) path parts values = .ok (e, root1) →
      ∃ z, root1 = root.set c z := by
  induction parts with
  | nil => intro root c fl e root1 h; simp [decodeMultipart] at h
  | cons part rest ih =>
    intro root c fl e root1 h
    unfold decodeMultipart at h
    cases hw : walkFields root (.ref c fl) part.path with
    | error p => simp [hw] at h
    | ok r =>
      obtain ⟨r2, v2⟩ := r
      simp only [hw] at h
      obtain ⟨z2, hr2⟩ := walkFields_local _ _ _ _ _ _ hw
      cases hc : v2.CanSet with
      | false =>
        simp only [hc, Bool.not_false, if_true, Except.ok.injEq, Prod.mk.injEq] at h
        exact ⟨z2, by rw [← h.2, hr2]⟩
      | true =>
        simp only [hc, Bool.not_true, Bool.false_eq_true, if_false] at h
        cases v2 with
        | invalid => simp [Value.CanSet] at hc
        | ref c2 fl2 =>
          obtain ⟨c0, fl0, hv, hp2, -, -⟩ := walkFields_keeps _ _ _ _ _ _ hw
          cases hv
          cases hd : dereference r2 (.ref c2 fl2) with
          | error p => simp [hd] at h
          | ok r3 =>
            obtain ⟨r3, v3, t3⟩ := r3
            simp only [hd] at h
            obtain ⟨⟨z3, hr3⟩, c3, fl3, rfl, hp3⟩ := dereference_local _ _ _ _ _ _ hd
            obtain ⟨z3b, hr3b⟩ : ∃ z, r3 = root.set c z := by
              rw [hr3, hr2]
              exact Val.set_below root c c2 z2 z3 hp2
            cases rest with
            | nil =>
              simp only at h
              cases ha : assignLeaf r3 (.ref c3 fl3) t3 values with
              | error p => simp [ha] at h
              | ok r4 =>
                simp only [ha, Except.ok.injEq, Prod.mk.injEq] at h
                obtain ⟨c4, fl4, old, y, hv, -, -, hr4⟩ := assignLeaf_inv _ _ _ _ _ ha
                cases hv
                rw [← h.2, hr4, hr3b]
                exact Val.set_below root c c3 z3b y (hp2.trans hp3)
            | cons part2 rest2 =>
              simp only at h
              cases hg : growAndIndex r3 (.ref c3 fl3) t3 part.index with
              | error p => simp [hg] at h
              | ok r4 =>
                obtain ⟨r4, v4⟩ := r4
                simp only [hg] at h
                obtain ⟨-, x3, hx3, hty3⟩ := dereference_typed _ _ _ _ _ _ hd hc
                subst hty3
                obtain ⟨-, -, hr4, hv4, -⟩ := growAndIndex_exact _ _ _ _ _ _ _ hx3 hg
                subst hv4
                obtain ⟨z5, hr5⟩ := ih _ _ _ _ _ h
                have hp4 : c <+: c3 ++ [.index part.index.toNat] :=
                  (hp2.trans hp3).trans (List.prefix_append _ _)
                obtain ⟨z4b, hr4b⟩ : ∃ z, r4 = root.set c z := by
                  rw [hr4, hr3b]
                  exact Val.set_below root c c3 z3b _ (hp2.trans hp3)
                rw [hr5, hr4b]
                exact Val.set_below root c _ z4b z5 hp4

/-! ## Keys below one slice, keys below one pointer -/

/-- A filling below an element of what is at a location makes a slice there that covers the
element. -/
theorem Val.items_put_index (x : Val) (i : Nat) (m : Loc) (y y2 : Val)
    (h : (x.put (.index i :: m) y).get (.index i :: m) = some y2) :
    (x.put (.index i :: m) y).items.length = max x.items.length (i + 1) := by
  cases x
  case slice e xs => simp only [Val.put_slice, Val.items, length_fill]
  case nilSlice e => simp only [Val.put_nilSlice, Val.items, length_fill]
  all_goals simp [Val.put, Val.get] at h

/-- The leaf of a key whose path goes on after an index lies below that element of the slice
that the first part ends at. -/
theorem resolve_index_leaf (root : Val) (v : Value) (part part2 : PathPart)
    (rest : List PathPart) (rw : Val) (vw : Value) (rs : Val) (S : Loc) (fl : Flag) (t : Ty)
    (root1 : Val) (c : Loc) (fl1 : Flag) (t1 : Ty)
    (hwalk : walkFields root v part.path = .ok (rw, vw)) (hset : vw.CanSet = true)
    (hderef : dereference rw vw = .ok (rs, .ref S fl, t))
    (hres : resolve root v (part :: part2 :: rest) = .ok (root1, some (.ref c fl1, t1))) :
    ∃ m, c = S ++ .index part.index.toNat :: m := by
  unfold resolve at hres
  simp only [hwalk, hset, Bool.not_true, Bool.false_eq_true, if_false, hderef] at hres
  cases hg : growAndIndex rs (.ref S fl) t part.index with
  | error p => simp [hg] at hres
  | ok r4 =>
    obtain ⟨r4, v4⟩ := r4
    simp only [hg] at hres
    obtain ⟨-, x, hx, hty⟩ := dereference_typed _ _ _ _ _ _ hderef hset
    subst hty
    obtain ⟨-, -, -, hv4, -⟩ := growAndIndex_exact _ _ _ _ _ _ _ hx hg
    subst hv4
    obtain ⟨c4, fl4, hv, hp, -, -⟩ := resolve_keeps _ _ _ _ _ _ _ hres
    cases hv
    obtain ⟨m, rfl⟩ := hp
    exact ⟨m, by simp⟩

/-- After keys that write below elements of the slice at `S`, the slice is as long as the
largest index asks for, and at least as long as it was. -/
theorem fillAll_items (S : Loc) :
    ∀ (ks : List Key) (root x : Val), root.get S = some x →
      (∀ k ∈ ks, k.Decodes root ∧ ∃ m, k.leaf = S ++ .index k.index.toNat :: m) →
      ks.Pairwise Key.Apart →
      ∃ x1, (fillAll root ks).get S = some x1
        ∧ x1.items.length = (ks.map (fun k => k.index.toNat + 1)).foldl max x.items.length := by
  intro ks
  induction ks with
  | nil => intro root x hx _ _; exact ⟨x, hx, rfl⟩
  | cons k ks ih =>
    intro root x hx hall hp
    rw [List.pairwise_cons] at hp
    obtain ⟨hdk, m, hleaf⟩ := hall k (List.mem_cons_self _ _)
    have hget := hdk.get
    have hS : (root.put k.leaf k.value).get S
        = some (x.put (.index k.index.toNat :: m) k.value) := by
      rw [hleaf]
      exact Val.get_put_above root S _ k.value x hx
    have hlen := Val.items_put_index x k.index.toNat m k.value k.value (by
      have h2 := hget
      rw [hleaf, Val.get_append, ← hleaf, hS] at h2
      exact h2)
    obtain ⟨x1, hx1, hl1⟩ := ih (root.put k.leaf k.value) _ hS
      (fun k2 hk2 =>
        ⟨(hall k2 (List.mem_cons_of_mem _ hk2)).1.put k.leaf k.value (hp.1 k2 hk2).1
            (hp.1 k2 hk2).2,
          (hall k2 (List.mem_cons_of_mem _ hk2)).2⟩)
      hp.2
    refine ⟨x1, hx1, ?_⟩
    rw [hl1, hlen]
    rfl

/-! ## Where the runtime and reflect panic -/

/-- An index of 2^62 asks `reflect.MakeSlice` for more than the runtime allocates. -/
theorem decodeMultipart_allocation :
    decodeMultipart Gallery.zero Value.root "photos.4611686018427387904.file"
      [⟨["Photos"], 2 ^ 62⟩, ⟨["File"], -1⟩] [some upload1] = .error .allocation :=
  rfl

/-- A path into an exported field of a file header ends in a panic of reflect; a name that is
no field of it ends at the zero Value, and `decodeMultipart` returns nil, the pointer set. -/
theorem decodeMultipart_fileField :
    decodeMultipart BlogPost.zero Value.root "headerImage.filename"
        [⟨["HeaderImage", "Filename"], -1⟩] [some upload1] = .error .fileField
    ∧ decodeMultipart BlogPost.zero Value.root "headerImage.nope"
        [⟨["HeaderImage", "nope"], -1⟩] [some upload1]
        = .ok (none, BlogPost.zero.set [.field 8] (.ptrTo Ty.fileHeader.zero)) :=
  ⟨rfl, rfl⟩

/-! # The claims -/

/-- C1. When the descent of `decodeMultipart` for a key ends, through the pointer at `loc`, at a
settable `multipart.FileHeader` (the field at `loc` is a `*multipart.FileHeader`, nil before the
call or not), then for every non-empty list `hs` of file headers `decodeMultipart` returns nil and
afterwards the field at `loc` is a non-nil pointer whose file header is the last element of
`hs`. -/
theorem single_file_field_keeps_last (root : Val) (v : Value) (path : String)
    (parts : List PathPart) (hs : List FileHeader) (root1 : Val) (loc : Loc) (fl : Flag)
    (hres : resolve root v parts = .ok (root1, some (.ref (loc ++ [.elem]) fl, .fileHeader)))
    (hne : hs ≠ []) :
    ∃ root2, decodeMultipart root v path parts (hs.map some) = .ok (none, root2)
      ∧ root2.get loc = some (.ptrTo (.fileHeader (hs.getLast hne))) := by
  obtain ⟨hro, old, hg, hty⟩ := resolve_typed _ _ _ _ _ _ _ hres
  have hput := Value.Set_ok root1 (loc ++ [.elem]) fl old (.fileHeader (hs.getLast hne)) hg hro
    (by simp [Val.typeOf, hty])
  refine ⟨root1.set (loc ++ [.elem]) (.fileHeader (hs.getLast hne)), ?_, ?_⟩
  · rw [decodeMultipart_eq_resolve, hres]
    simp [assignLeaf, getLast?_map_some hs hne, reflectValueOfElem, hput]
  · exact Val.get_elem_fileHeader _ _ _ (Val.get_set_same _ _ _ _ hg)

/-- C1 at `BlogPost{}` with two uploads under "headerImage", and below a slice of structs: the
key "photos.1.file" on a gallery with one photo. -/
theorem single_file_field_keeps_last_witness :
    (∃ root2, decodeMultipart BlogPost.zero Value.root "headerImage" [⟨["HeaderImage"], -1⟩]
        ([upload1, upload2].map some) = .ok (none, root2)
      ∧ root2.get [.field 8] = some (.ptrTo (.fileHeader upload2)))
    ∧ (∃ root2, decodeMultipart gallery1 Value.root "photos.1.file"
        [⟨["Photos"], 1⟩, ⟨["File"], -1⟩] ([upload1, upload2].map some) = .ok (none, root2)
      ∧ root2.get [.field 0, .index 1, .field 1] = some (.ptrTo (.fileHeader upload2))) :=
  ⟨single_file_field_keeps_last BlogPost.zero Value.root "headerImage" [⟨["HeaderImage"], -1⟩]
    [upload1, upload2] (BlogPost.zero.set [.field 8] (.ptrTo Ty.fileHeader.zero)) [.field 8]
    ⟨false, false⟩ rfl (by simp),
   single_file_field_keeps_last gallery1 Value.root "photos.1.file"
    [⟨["Photos"], 1⟩, ⟨["File"], -1⟩] [upload1, upload2]
    ((gallery1.set [.field 0] (.slice Photo
        [.struct "Photo" [⟨"Caption", true, false, .str "first"⟩,
          ⟨"File", true, false, .ptrTo (.fileHeader upload1)⟩], Photo.zero])).set
      [.field 0, .index 1, .field 1] (.ptrTo Ty.fileHeader.zero))
    [.field 0, .index 1, .field 1] ⟨false, false⟩ rfl (by simp)⟩

/-- C2. When the descent of `decodeMultipart` for a key ends at a settable field of type
`[]*multipart.FileHeader`, whatever it holds, `decodeMultipart` returns nil and afterwards the
field is the slice of exactly the given pointers, in their order; for the empty list it is the
empty slice. -/
theorem file_slice_field_keeps_all (root : Val) (v : Value) (path : String)
    (parts : List PathPart) (values : List (Option FileHeader)) (root1 : Val) (loc : Loc)
    (fl : Flag)
    (hres : resolve root v parts = .ok (root1, some (.ref loc fl, .slice (.ptr .fileHeader)))) :
    ∃ root2, decodeMultipart root v path parts values = .ok (none, root2)
      ∧ root2.get loc = some (.slice (.ptr .fileHeader) (values.map reflectValueOf)) := by
  obtain ⟨hro, old, hg, hty⟩ := resolve_typed _ _ _ _ _ _ _ hres
  have hput := Value.Set_ok root1 loc fl old
    (.slice (.ptr .fileHeader) (values.map reflectValueOf)) hg hro (by simp [Val.typeOf, hty])
  refine ⟨root1.set loc (.slice (.ptr .fileHeader) (values.map reflectValueOf)), ?_,
    Val.get_set_same _ _ _ _ hg⟩
  rw [decodeMultipart_eq_resolve, hres]
  simp [assignLeaf, reflectMakeSlice, reflectAppend, reflectValueOf_all_same, bind,
    Except.bind, hput]

/-- C2 at a `BlogPost` whose `Pictures` already holds one picture, with two uploads. -/
theorem file_slice_field_keeps_all_witness :
    ∃ root2, decodeMultipart
        (BlogPost.zero.set [.field 9] (.slice (.ptr .fileHeader) [.nilPtr .fileHeader]))
        Value.root "picture" [⟨["Pictures"], -1⟩] [some upload1, some upload2] = .ok (none, root2)
      ∧ root2.get [.field 9] = some (.slice (.ptr .fileHeader)
          [.ptrTo (.fileHeader upload1), .ptrTo (.fileHeader upload2)]) :=
  file_slice_field_keeps_all
    (BlogPost.zero.set [.field 9] (.slice (.ptr .fileHeader) [.nilPtr .fileHeader]))
    Value.root "picture" [⟨["Pictures"], -1⟩] [some upload1, some upload2]
    (BlogPost.zero.set [.field 9] (.slice (.ptr .fileHeader) [.nilPtr .fileHeader]))
    [.field 9] ⟨false, false⟩ rfl

/-- C3. When `dst` does not point to a struct (the nil interface, a value that is not a pointer,
a nil pointer, a pointer to something else), `Decode` returns the error
"schema: interface must be a pointer to struct" and `dst` as it was, whatever the form, the
string decoder and the path cache are. -/
theorem bad_target_is_fatal (d : MultipartDecoder) (dst : Option Val) (src : Option Form)
    (h : ∀ x, dst = some (.ptrTo x) → (∀ n fs, x ≠ .struct n fs) ∧ (∀ f, x ≠ .fileHeader f)) :
    d.Decode dst src
      = .ok (some (.new "schema: interface must be a pointer to struct"), dst) := by
  have hb : isPtrToStruct dst = false := by
    cases dst with
    | none => rfl
    | some y =>
      cases y with
      | ptrTo x =>
        have hx := h x rfl
        cases x <;> first | rfl | exact absurd rfl (hx.1 _ _) | exact absurd rfl (hx.2 _)
      | _ => rfl
  simp [MultipartDecoder.Decode, hb]

/-- C3 at a `BlogPost` passed by value, with a string decoder that would panic if called. -/
theorem bad_target_is_fatal_witness :
    (∀ x, some BlogPost.zero = some (.ptrTo x) →
        (∀ n fs, x ≠ .struct n fs) ∧ (∀ f, x ≠ .fileHeader f))
      ∧ MultipartDecoder.Decode ⟨false, blogPostPaths, fun _ _ => .error .nilDereference⟩
          (some BlogPost.zero) (some ⟨[], [("headerImage", [some upload1])]⟩)
        = .ok (some (.new "schema: interface must be a pointer to struct"), some BlogPost.zero) :=
  ⟨by intro x hx; exact absurd hx (by simp [BlogPost, Ty.zero]),
   bad_target_is_fatal _ _ _ (by intro x hx; exact absurd hx (by simp [BlogPost, Ty.zero]))⟩

/-- C4. For a pointer to a struct whose string half returned nil or a `MultiError`, and a file
key `key` that `parsePath` does not resolve against the type of the target:
(a) with `ignoreUnknownKeys = false`, whenever `Decode` returns, it returns a `MultiError` whose
entry under `key` is the error `schema: invalid path "key"`;
(b) with `ignoreUnknownKeys = true`, `Decode` gives the same error and the same target as on the
form without the entry of `key`. -/
theorem unknown_file_key_policy (d : MultipartDecoder) (target : Val)
    (values : List (String × List String))
    (before after : List (String × List (Option FileHeader))) (key : String)
    (multiparts : List (Option FileHeader)) (err : Option Error) (errors : MultiError) (root1 : Val)
    (htarget : isPtrToStruct (some (.ptrTo target)) = true)
    (hbase : d.decode target values = .ok (err, root1))
    (herr : baseErrors err = .ok errors)
    (hkey : d.parsePath key root1.typeOf = none) :
    (d.ignoreUnknownKeys = false → ∀ res dst1,
        d.Decode (some (.ptrTo target)) (some ⟨values, before ++ (key, multiparts) :: after⟩)
          = .ok (res, dst1) →
        ∃ m, res = some (.multi m) ∧ MultiError.lookup m key = some (.invalidPath key))
    ∧ (d.ignoreUnknownKeys = true →
        d.Decode (some (.ptrTo target)) (some ⟨values, before ++ (key, multiparts) :: after⟩)
          = d.Decode (some (.ptrTo target)) (some ⟨values, before ++ after⟩)) := by
  constructor
  · intro hi res dst1 hdec
    rw [Decode_valid d target _ err root1 htarget hbase, herr] at hdec
    simp only at hdec
    cases hf : decodeFiles d root1.typeOf (before ++ (key, multiparts) :: after) errors root1 with
    | error p => simp [hf] at hdec
    | ok r =>
      obtain ⟨m, root2⟩ := r
      simp [hf] at hdec
      have hl := decodeFiles_lookup d _ _ _ _ _ _ hf key
      simp [hi, hkey] at hl
      have hne : m ≠ [] := by
        rintro rfl
        simp [MultiError.lookup] at hl
      exact ⟨m, by rw [← hdec.1, returnErrors_of_ne_nil m hne], hl⟩
  · intro hi
    rw [Decode_valid d target _ err root1 htarget hbase,
      Decode_valid d target _ err root1 htarget hbase, herr]
    simp only
    rw [decodeFiles_skip d _ key multiparts hi hkey]

/-- C4 at `BlogPost{}` and the file keys "headerImage" and "nope". -/
theorem unknown_file_key_policy_witness :
    (∃ m, (exampleDecoder false).Decode (some (.ptrTo BlogPost.zero))
          (some ⟨[], [("headerImage", [some upload1]), ("nope", [some upload2])]⟩)
        = .ok (some (.multi m), some (.ptrTo (BlogPost.zero.set [.field 8]
            (.ptrTo (.fileHeader upload1)))))
        ∧ MultiError.lookup m "nope" = some (.invalidPath "nope"))
    ∧ (exampleDecoder true).Decode (some (.ptrTo BlogPost.zero))
          (some ⟨[], [("headerImage", [some upload1]), ("nope", [some upload2])]⟩)
        = (exampleDecoder true).Decode (some (.ptrTo BlogPost.zero))
          (some ⟨[], [("headerImage", [some upload1])]⟩) := by
  have h1 := unknown_file_key_policy (exampleDecoder false) BlogPost.zero []
    [("headerImage", [some upload1])] [] "nope" [some upload2] none [] BlogPost.zero
    rfl rfl rfl rfl
  have h2 := unknown_file_key_policy (exampleDecoder true) BlogPost.zero []
    [("headerImage", [some upload1])] [] "nope" [some upload2] none [] BlogPost.zero
    rfl rfl rfl rfl
  refine ⟨?_, h2.2 rfl⟩
  obtain ⟨m, hm, hl⟩ := h1.1 rfl
    (some (.multi [("nope", .invalidPath "nope")]))
    (some (.ptrTo (BlogPost.zero.set [.field 8] (.ptrTo (.fileHeader upload1))))) rfl
  refine ⟨m, ?_, hl⟩
  rw [← hm]
  rfl

/-- C5. A file key on a field that is no file field makes `Decode` panic: with one upload under
"title" (the string field `Title`, selected as promoted field or through `Post`) or under "rating"
(the field `Ratings []int`) the assignment of the "Simple case" is refused by reflect, in
`decodeMultipart` and so in `Decode`. -/
theorem file_key_on_other_field_panics :
    decodeMultipart BlogPost.zero Value.root "title" [⟨["Title"], -1⟩] [some upload1]
        = .error .notAssignable
    ∧ decodeMultipart BlogPost.zero Value.root "title" [⟨["Post", "Title"], -1⟩] [some upload1]
        = .error .notAssignable
    ∧ decodeMultipart BlogPost.zero Value.root "rating" [⟨["Ratings"], -1⟩] [some upload1]
        = .error .notAssignable
    ∧ (exampleDecoder true).Decode (some (.ptrTo BlogPost.zero))
        (some ⟨[], [("title", [some upload1])]⟩) = .error .notAssignable
    ∧ (exampleDecoder true).Decode (some (.ptrTo BlogPost.zero))
        (some ⟨[], [("rating", [some upload1])]⟩) = .error .notAssignable :=
  ⟨rfl, rfl, rfl, rfl, rfl⟩

/-- C6. For a pointer to a struct, when the string half returns a non-nil error that is not a
`MultiError`, `Decode` returns that error and the target as the string half left it, whatever the
file map holds. -/
theorem fatal_string_error_short_circuits (d : MultipartDecoder) (target : Val) (form : Form)
    (e : Error) (root1 : Val)
    (htarget : isPtrToStruct (some (.ptrTo target)) = true)
    (hbase : d.decode target form.Value = .ok (some e, root1))
    (he : ∀ m, e ≠ .multi m) :
    d.Decode (some (.ptrTo target)) (some form) = .ok (some e, some (.ptrTo root1)) := by
  rw [Decode_valid d target form (some e) root1 htarget hbase]
  cases e with
  | multi m => exact absurd rfl (he m)
  | _ => rfl

/-- C6 with a string half that returns a `ConversionError` and a file map that would panic if it
were visited. -/
theorem fatal_string_error_short_circuits_witness :
    MultipartDecoder.Decode
        ⟨false, blogPostPaths, fun root _ => .ok (some (.conversion "id" "x"), root)⟩
        (some (.ptrTo BlogPost.zero)) (some ⟨[("id", ["x"])], [("title", [some upload1])]⟩)
      = .ok (some (.conversion "id" "x"), some (.ptrTo BlogPost.zero)) :=
  fatal_string_error_short_circuits
    ⟨false, blogPostPaths, fun root _ => .ok (some (.conversion "id" "x"), root)⟩
    BlogPost.zero ⟨[("id", ["x"])], [("title", [some upload1])]⟩ (.conversion "id" "x")
    BlogPost.zero rfl rfl (by intro m h; cases h)

/-- C7. For a pointer to a struct, when the string half returns a `MultiError` with entries
`errors` (at least one) and `Decode` returns, it returns a `MultiError` `m`: a key has an entry
in `m` exactly when it has one in `errors` or is a file key for which an error is recorded (an
unresolved key while `ignoreUnknownKeys` is false), and a key of `errors` that is no such file key
keeps its entry. -/
theorem string_errors_are_merged (d : MultipartDecoder) (target : Val) (form : Form)
    (errors : MultiError) (root1 : Val) (res : Option Error) (dst1 : Option Val)
    (htarget : isPtrToStruct (some (.ptrTo target)) = true)
    (hbase : d.decode target form.Value = .ok (some (.multi errors), root1))
    (hne : errors ≠ [])
    (hdec : d.Decode (some (.ptrTo target)) (some form) = .ok (res, dst1)) :
    ∃ m, res = some (.multi m)
      ∧ (∀ k, (MultiError.lookup m k).isSome ↔
          ((MultiError.lookup errors k).isSome
            ∨ (d.ignoreUnknownKeys = false ∧ k ∈ form.File.map Prod.fst
                ∧ d.parsePath k root1.typeOf = none)))
      ∧ (∀ k, (MultiError.lookup errors k).isSome →
          ¬ (d.ignoreUnknownKeys = false ∧ k ∈ form.File.map Prod.fst
                ∧ d.parsePath k root1.typeOf = none) →
          MultiError.lookup m k = MultiError.lookup errors k) := by
  rw [Decode_valid d target form _ root1 htarget hbase] at hdec
  simp only [baseErrors] at hdec
  cases hf : decodeFiles d root1.typeOf form.File errors root1 with
  | error p => simp [hf] at hdec
  | ok r =>
    obtain ⟨m, root2⟩ := r
    simp [hf] at hdec
    have hl := decodeFiles_lookup d _ _ _ _ _ _ hf
    have hm : m ≠ [] := by
      intro h0
      apply hne
      rw [MultiError.eq_nil_iff] at h0 ⊢
      intro k
      have h1 := hl k
      rw [h0 k] at h1
      split at h1
      · simp at h1
      · exact h1.symm
    refine ⟨m, by rw [← hdec.1, returnErrors_of_ne_nil m hm], ?_, ?_⟩
    · intro k
      rw [hl k]
      split
      · next h => simp [h]
      · next h =>
        constructor
        · intro h1
          exact Or.inl h1
        · rintro (h1 | h1)
          · exact h1
          · exact absurd h1 h
    · intro k _ hk
      rw [hl k, if_neg hk]

/-- C7 with a string half that reports "id", and the file keys "nope" and "headerImage". -/
theorem string_errors_are_merged_witness :
    ∃ m, some (Error.multi [("id", .conversion "id" "x"), ("nope", .invalidPath "nope")])
        = some (.multi m)
      ∧ (∀ k, (MultiError.lookup m k).isSome ↔
          ((MultiError.lookup [("id", Error.conversion "id" "x")] k).isSome
            ∨ (false = false
                ∧ k ∈ [("nope", [some upload2]), ("headerImage", [some upload1])].map Prod.fst
                ∧ blogPostPaths k BlogPost.zero.typeOf = none)))
      ∧ (∀ k, (MultiError.lookup [("id", Error.conversion "id" "x")] k).isSome →
          ¬ (false = false
                ∧ k ∈ [("nope", [some upload2]), ("headerImage", [some upload1])].map Prod.fst
                ∧ blogPostPaths k BlogPost.zero.typeOf = none) →
          MultiError.lookup m k = MultiError.lookup [("id", Error.conversion "id" "x")] k) :=
  string_errors_are_merged
    ⟨false, blogPostPaths, fun root _ => .ok (some (.multi [("id", .conversion "id" "x")]), root)⟩
    BlogPost.zero ⟨[("id", ["x"])], [("nope", [some upload2]), ("headerImage", [some upload1])]⟩
    [("id", .conversion "id" "x")] BlogPost.zero
    (some (.multi [("id", .conversion "id" "x"), ("nope", .invalidPath "nope")]))
    (some (.ptrTo (BlogPost.zero.set [.field 8] (.ptrTo (.fileHeader upload1)))))
    rfl rfl (by simp) rfl

/-- C8. For a pointer to a struct whose string half returned nil or a `MultiError`, the target
that `Decode` leaves (or the panic it ends in) is the one that the loop over the file map gives on
the resolved keys alone, started without any error: neither the errors of the string half nor the
unresolved file keys change what the other file keys assign. -/
theorem failing_keys_do_not_stop_others (d : MultipartDecoder) (target : Val) (form : Form)
    (err : Option Error) (errors : MultiError) (root1 : Val)
    (htarget : isPtrToStruct (some (.ptrTo target)) = true)
    (hbase : d.decode target form.Value = .ok (err, root1))
    (herr : baseErrors err = .ok errors) :
    (d.Decode (some (.ptrTo target)) (some form)).map Prod.snd
      = (decodeFiles d root1.typeOf
          (form.File.filter (fun kv => (d.parsePath kv.1 root1.typeOf).isSome)) [] root1).map
          (fun r => some (.ptrTo r.2)) := by
  rw [Decode_valid d target form err root1 htarget hbase, herr]
  simp only
  have h := decodeFiles_target d root1.typeOf form.File errors [] root1
  cases h1 : decodeFiles d root1.typeOf form.File errors root1 with
  | error p =>
    rw [h1] at h
    cases h2 : decodeFiles d root1.typeOf
      (form.File.filter (fun kv => (d.parsePath kv.1 root1.typeOf).isSome)) [] root1 with
    | error q =>
      rw [h2] at h
      simpa [Except.map] using h
    | ok r =>
      rw [h2] at h
      simp [Except.map] at h
  | ok r =>
    rw [h1] at h
    cases h2 : decodeFiles d root1.typeOf
      (form.File.filter (fun kv => (d.parsePath kv.1 root1.typeOf).isSome)) [] root1 with
    | error q =>
      rw [h2] at h
      simp [Except.map] at h
    | ok r2 =>
      rw [h2] at h
      simp [Except.map] at h
      simp [Except.map, h]

/-- C8 with a string half that reports "id", and the file keys "nope", "picture", "zzz". -/
theorem failing_keys_do_not_stop_others_witness :
    (MultipartDecoder.Decode
        ⟨false, blogPostPaths, fun root _ => .ok (some (.multi [("id", .conversion "id" "x")]), root)⟩
        (some (.ptrTo BlogPost.zero))
        (some ⟨[("id", ["x"])],
          [("nope", [some upload2]), ("picture", [some upload1, some upload2]),
           ("zzz", [])]⟩)).map Prod.snd
      = .ok (some (.ptrTo (BlogPost.zero.set [.field 9] (.slice (.ptr .fileHeader)
          [.ptrTo (.fileHeader upload1), .ptrTo (.fileHeader upload2)])))) :=
  (failing_keys_do_not_stop_others
    ⟨false, blogPostPaths, fun root _ => .ok (some (.multi [("id", .conversion "id" "x")]), root)⟩
    BlogPost.zero
    ⟨[("id", ["x"])],
      [("nope", [some upload2]), ("picture", [some upload1, some upload2]), ("zzz", [])]⟩
    (some (.multi [("id", .conversion "id" "x")])) [("id", .conversion "id" "x")] BlogPost.zero
    rfl rfl rfl).trans rfl

/-- C9. For a pointer to a struct whose string half returned nil or a `MultiError` with the
entries `base` (none for nil, none or some for a `MultiError`), when `Decode` returns, the loop
over the file map, started with the entries `base`, ended with an error map `acc`, and the
target is what the loop left. The entry of a key in `acc` is the invalid-path error for a file
key that is unresolved and reported, and for every other key the entry it has in `base`.
`Decode` returns nil exactly when `acc` is empty and `acc` itself otherwise, never an empty
`MultiError`; and `acc` is empty exactly when `base` is empty and no file key is both unresolved
and reported. -/
theorem nil_iff_no_error (d : MultipartDecoder) (target : Val) (form : Form)
    (err : Option Error) (base : MultiError) (root1 : Val) (res : Option Error)
    (dst1 : Option Val)
    (htarget : isPtrToStruct (some (.ptrTo target)) = true)
    (hbase : d.decode target form.Value = .ok (err, root1))
    (herr : (err = none ∧ base = []) ∨ err = some (.multi base))
    (hdec : d.Decode (some (.ptrTo target)) (some form) = .ok (res, dst1)) :
    ∃ acc root2, decodeFiles d root1.typeOf form.File base root1 = .ok (acc, root2)
      ∧ dst1 = some (.ptrTo root2)
      ∧ (∀ k, MultiError.lookup acc k =
          if d.ignoreUnknownKeys = false ∧ k ∈ form.File.map Prod.fst
              ∧ d.parsePath k root1.typeOf = none
          then some (.invalidPath k) else MultiError.lookup base k)
      ∧ (res = none ↔ acc = [])
      ∧ (acc ≠ [] → res = some (.multi acc))
      ∧ res ≠ some (.multi [])
      ∧ (acc = [] ↔ base = [] ∧ ∀ k ∈ form.File.map Prod.fst,
          ¬ (d.ignoreUnknownKeys = false ∧ d.parsePath k root1.typeOf = none)) := by
  have hb : baseErrors err = .ok base := by
    rcases herr with ⟨rfl, rfl⟩ | rfl <;> rfl
  rw [Decode_valid d target form err root1 htarget hbase, hb] at hdec
  simp only at hdec
  cases hf : decodeFiles d root1.typeOf form.File base root1 with
  | error p => simp [hf] at hdec
  | ok r =>
    obtain ⟨acc, root2⟩ := r
    simp [hf] at hdec
    obtain ⟨hres, hdst⟩ := hdec
    have hl := decodeFiles_lookup d _ _ _ _ _ _ hf
    refine ⟨acc, root2, rfl, hdst.symm, hl, ?_, ?_, ?_, ?_⟩
    · rw [← hres]
      exact returnErrors_eq_none acc
    · intro h
      rw [← hres]
      exact returnErrors_of_ne_nil acc h
    · rw [← hres]
      cases acc <;> simp [returnErrors]
    · rw [MultiError.eq_nil_iff, MultiError.eq_nil_iff]
      constructor
      · intro h
        constructor
        · intro k
          have h1 := hl k
          rw [h k] at h1
          split at h1
          · simp at h1
          · exact h1.symm
        · intro k hk hbad
          have h1 := hl k
          rw [h k, if_pos ⟨hbad.1, hk, hbad.2⟩] at h1
          simp at h1
      · rintro ⟨h1, h2⟩ k
        rw [hl k]
        split
        · next hc => exact absurd ⟨hc.1, hc.2.2⟩ (h2 k hc.2.1)
        · exact h1 k

/-- C9 at `BlogPost{}` with the file keys "nope" and "headerImage". With a string half that
reports the key "id" and a decoder that reports unknown keys, `Decode` returns the map with the
entry of "id" and the invalid-path error of "nope"; with a string half that returns an empty
`MultiError` and a decoder that ignores unknown keys, `Decode` returns nil. -/
theorem nil_iff_no_error_witness :
    (∃ acc root2,
      acc = [("id", Error.conversion "id" "x"), ("nope", Error.invalidPath "nope")]
      ∧ root2 = BlogPost.zero.set [.field 8] (.ptrTo (.fileHeader upload1))
      ∧ MultiError.lookup acc "id" = MultiError.lookup [("id", Error.conversion "id" "x")] "id"
      ∧ MultiError.lookup acc "nope" = some (.invalidPath "nope")
      ∧ ((some (Error.multi [("id", .conversion "id" "x"), ("nope", .invalidPath "nope")])
            : Option Error) = none ↔ acc = [])
      ∧ (acc ≠ [] →
          (some (Error.multi [("id", .conversion "id" "x"), ("nope", .invalidPath "nope")])
            : Option Error) = some (.multi acc)))
    ∧ (∃ acc : MultiError, ((none : Option Error) = none ↔ acc = [])
      ∧ (acc = [] ↔ ([] : MultiError) = [] ∧
          ∀ k ∈ [("nope", [some upload2]), ("headerImage", [some upload1])].map Prod.fst,
            ¬ (true = false ∧ blogPostPaths k BlogPost.zero.typeOf = none))) := by
  obtain ⟨acc, root2, hf, -, hl, hnil, hsome, -, -⟩ := nil_iff_no_error
    ⟨false, blogPostPaths, fun root _ => .ok (some (.multi [("id", .conversion "id" "x")]), root)⟩
    BlogPost.zero ⟨[("id", ["x"])], [("nope", [some upload2]), ("headerImage", [some upload1])]⟩
    (some (.multi [("id", .conversion "id" "x")])) [("id", .conversion "id" "x")] BlogPost.zero
    (some (.multi [("id", .conversion "id" "x"), ("nope", .invalidPath "nope")]))
    (some (.ptrTo (BlogPost.zero.set [.field 8] (.ptrTo (.fileHeader upload1)))))
    rfl rfl (Or.inr rfl) rfl
  obtain ⟨acc2, root3, -, -, -, hnil2, -, -, hempty2⟩ := nil_iff_no_error
    ⟨true, blogPostPaths, fun root _ => .ok (some (.multi []), root)⟩
    BlogPost.zero ⟨[], [("nope", [some upload2]), ("headerImage", [some upload1])]⟩
    (some (.multi [])) [] BlogPost.zero none
    (some (.ptrTo (BlogPost.zero.set [.field 8] (.ptrTo (.fileHeader upload1)))))
    rfl rfl (Or.inr rfl) rfl
  have hrun : decodeFiles
      ⟨false, blogPostPaths,
        fun root _ => .ok (some (.multi [("id", Error.conversion "id" "x")]), root)⟩
      BlogPost.zero.typeOf [("nope", [some upload2]), ("headerImage", [some upload1])]
      [("id", .conversion "id" "x")] BlogPost.zero
      = .ok ([("id", .conversion "id" "x"), ("nope", .invalidPath "nope")],
          BlogPost.zero.set [.field 8] (.ptrTo (.fileHeader upload1))) := rfl
  rw [hrun] at hf
  simp only [Except.ok.injEq, Prod.mk.injEq] at hf
  obtain ⟨hacc, hroot⟩ := hf
  refine ⟨⟨acc, root2, hacc.symm, hroot.symm, ?_, ?_, hnil, hsome⟩, ⟨acc2, hnil2, hempty2⟩⟩
  · rw [hl "id"]
    simp [blogPostPaths]
  · rw [hl "nope"]
    simp [blogPostPaths]

/-- C10, as stated, fails for a target in which two pointers share their file header. In a
`BlogPost` whose `HeaderImage` and `Pictures[0]` are one pointer, the key "headerImage" makes
`decodeMultipart` go through the pointer and set the file header it refers to: `Pictures`, which
is not on the path of the key, holds the same pointer as before, and the file header that
`Pictures[0]` refers to is the upload now. On the same store the decoder returns nil. -/
theorem shared_file_header_is_overwritten :
    ∃ st1, Shared.decodeMultipart Shared.sharedPost Shared.Value.root "headerImage"
        [⟨["HeaderImage"], -1⟩] [some upload2] = .ok (none, st1)
      ∧ Shared.Store.get Shared.sharedPost 0 [.field 9, .index 0]
          = some (.ptr .fileHeader (some 1))
      ∧ Shared.Store.get st1 0 [.field 9, .index 0] = some (.ptr .fileHeader (some 1))
      ∧ Shared.Store.get Shared.sharedPost 1 [] = some (.fileHeader upload1)
      ∧ Shared.Store.get st1 1 [] = some (.fileHeader upload2)
      ∧ upload1 ≠ upload2 :=
  ⟨_, rfl, rfl, rfl, rfl, rfl, by decide⟩

/-- C10, amended: in a target in which no pointee and no slice element is shared by two places
(the targets that the values `Val` are), when the descent of `decodeMultipart` ends at the
settable location `leaf` and `decodeMultipart` returns, the target keeps its type (the root is
the same struct, with the same fields), and every location that exists in the target before the
call and does not lie on the path to `leaf` (is neither above `leaf` nor `leaf` itself nor
inside it) holds afterwards the value it held before. -/
theorem file_half_keeps_other_fields (root : Val) (v : Value) (path : String)
    (parts : List PathPart) (values : List (Option FileHeader)) (root1 : Val) (leaf : Loc)
    (fl : Flag) (t : Ty) (e : Option Error) (root2 : Val)
    (hres : resolve root v parts = .ok (root1, some (.ref leaf fl, t)))
    (hdec : decodeMultipart root v path parts values = .ok (e, root2)) :
    root2.typeOf = root.typeOf
      ∧ ∀ l x, ¬ l <+: leaf → ¬ leaf <+: l → root.get l = some x → root2.get l = some x := by
  rw [decodeMultipart_eq_resolve, hres] at hdec
  simp only at hdec
  cases ha : assignLeaf root1 (.ref leaf fl) t values with
  | error p => simp [ha] at hdec
  | ok r =>
    simp only [ha, Except.ok.injEq, Prod.mk.injEq] at hdec
    obtain ⟨-, rfl⟩ := hdec
    obtain ⟨loc, fl2, old, y, hv, hg, hty, rfl⟩ := assignLeaf_inv _ _ _ _ _ ha
    cases hv
    obtain ⟨l0, f0, -, -, hk, ht⟩ := resolve_keeps _ _ _ _ _ _ _ hres
    refine ⟨(Val.typeOf_set root1 leaf y old hg hty).trans ht, ?_⟩
    intro l x h1 h2 hx
    rw [Val.get_set_disjoint root1 leaf l y h2 h1]
    exact hk l x h1 hx
/-- C10, amended, at a `BlogPost` with a title and one upload under "headerImage": the title
stays; and below a slice of structs: the key "photos.1.file" grows `Photos` of a gallery with
one photo, and that photo, with its caption and its file, stays. -/
theorem file_half_keeps_other_fields_witness :
    (∃ root2,
      decodeMultipart (BlogPost.zero.set [.field 0, .field 0] (.str "Glorious Post Title"))
          Value.root "headerImage" [⟨["HeaderImage"], -1⟩] [some upload1] = .ok (none, root2)
      ∧ root2.typeOf = BlogPost
      ∧ root2.get [.field 0, .field 0] = some (.str "Glorious Post Title")
      ∧ root2.get [.field 8, .elem] = some (.fileHeader upload1))
    ∧ (∃ root2, decodeMultipart gallery1 Value.root "photos.1.file"
        [⟨["Photos"], 1⟩, ⟨["File"], -1⟩] [some upload2] = .ok (none, root2)
      ∧ root2.typeOf = Gallery
      ∧ root2.get [.field 0, .index 0] = gallery1.get [.field 0, .index 0]
      ∧ root2.get [.field 0, .index 1, .field 1, .elem] = some (.fileHeader upload2)) := by
  have h := file_half_keeps_other_fields
    (BlogPost.zero.set [.field 0, .field 0] (.str "Glorious Post Title")) Value.root
    "headerImage" [⟨["HeaderImage"], -1⟩] [some upload1]
    ((BlogPost.zero.set [.field 0, .field 0] (.str "Glorious Post Title")).set [.field 8]
      (.ptrTo Ty.fileHeader.zero))
    [.field 8, .elem] ⟨false, false⟩ .fileHeader none
    (((BlogPost.zero.set [.field 0, .field 0] (.str "Glorious Post Title")).set [.field 8]
      (.ptrTo Ty.fileHeader.zero)).set [.field 8, .elem] (.fileHeader upload1))
    rfl rfl
  have g := file_half_keeps_other_fields gallery1 Value.root "photos.1.file"
    [⟨["Photos"], 1⟩, ⟨["File"], -1⟩] [some upload2]
    ((gallery1.set [.field 0] (.slice Photo
        [.struct "Photo" [⟨"Caption", true, false, .str "first"⟩,
          ⟨"File", true, false, .ptrTo (.fileHeader upload1)⟩], Photo.zero])).set
      [.field 0, .index 1, .field 1] (.ptrTo Ty.fileHeader.zero))
    [.field 0, .index 1, .field 1, .elem] ⟨false, false⟩ .fileHeader none
    (((gallery1.set [.field 0] (.slice Photo
        [.struct "Photo" [⟨"Caption", true, false, .str "first"⟩,
          ⟨"File", true, false, .ptrTo (.fileHeader upload1)⟩], Photo.zero])).set
      [.field 0, .index 1, .field 1] (.ptrTo Ty.fileHeader.zero)).set
      [.field 0, .index 1, .field 1, .elem] (.fileHeader upload2))
    rfl rfl
  exact ⟨⟨_, rfl, h.1.trans rfl, h.2 [.field 0, .field 0] _ (by decide) (by decide) rfl, rfl⟩,
    ⟨_, rfl, g.1.trans rfl, g.2 [.field 0, .index 0] _ (by decide) (by decide) rfl, rfl⟩⟩

/-- C11. One index step grows the sequence and keeps its elements. Let the walk over the field
names of a path part end at a Value that can be set, and let the step through a pointer end at
`S`, where the target holds the sequence `x` with `n` elements (none if it is nil). Then for an
index `i` with `0 ≤ i`, with `i+1` in the range of `int` and with `i+1` elements within what the
runtime allocates (`reflect.MakeSlice` panics beyond, and memory is taken to last), the "Slice
of structs" step returns: it leaves at `S` the sequence made `max n (i+1)` long by zero values
at its end and moves to element `i`; when `n > i` it allocates and writes nothing, whatever
`i+1` elements would take. And whenever `decodeMultipart` returns for a path that goes on after
the index, the index is not negative and the target holds at `S` a slice of length
`max n (i+1)` whose element at every position `p < n` other than `i` is the one `x` had there,
and whose elements at the positions `n..i-1` are zero values. -/
theorem index_step_grows_and_keeps (root : Val) (v : Value) (path : String)
    (part part2 : PathPart) (rest : List PathPart) (values : List (Option FileHeader))
    (rw : Val) (vw : Value) (rs : Val) (S : Loc) (fl : Flag) (t : Ty) (x : Val)
    (hwalk : walkFields root v part.path = .ok (rw, vw)) (hset : vw.CanSet = true)
    (hderef : dereference rw vw = .ok (rs, .ref S fl, t)) (hx : rs.get S = some x) :
    (∀ e, (x = .nilSlice e ∨ ∃ xs, x = .slice e xs) → 0 ≤ part.index →
        part.index + 1 < 2 ^ 63 → e.size * (part.index.toNat + 1) ≤ maxAlloc →
        growAndIndex rs (.ref S fl) t part.index
          = .ok (rs.set S (x.extend (part.index.toNat + 1)),
              .ref (S ++ [.index part.index.toNat]) ⟨false, false⟩))
      ∧ (0 ≤ part.index → part.index.toNat < x.items.length →
        growAndIndex rs (.ref S fl) t part.index
          = .ok (rs, .ref (S ++ [.index part.index.toNat]) ⟨false, false⟩))
      ∧ ∀ e root1, decodeMultipart root v path (part :: part2 :: rest) values = .ok (e, root1) →
        0 ≤ part.index ∧ ∃ elemTy ys, x.typeOf = .slice elemTy
          ∧ root1.get S = some (.slice elemTy ys)
          ∧ ys.length = max x.items.length (part.index.toNat + 1)
          ∧ (∀ p, p < x.items.length → p ≠ part.index.toNat → ys[p]? = x.items[p]?)
          ∧ (∀ p, x.items.length ≤ p → p < part.index.toNat → ys[p]? = some elemTy.zero) := by
  obtain ⟨hro, x2, hx2, hty⟩ := dereference_typed _ _ _ _ _ _ hderef hset
  rw [hx] at hx2
  cases hx2
  subst hty
  have hfl : (⟨fl.ro, false⟩ : Flag) = ⟨false, false⟩ := by rw [hro]
  refine ⟨?_, ?_, ?_⟩
  · intro e hkind h0 h1 hb
    have hall : ∀ e2, x.typeOf = .slice e2 → e2.size * (part.index.toNat + 1) ≤ maxAlloc := by
      intro e2 he2
      rcases hkind with rfl | ⟨xs, rfl⟩ <;> cases he2 <;> exact hb
    rw [growAndIndex_ok rs S fl part.index x hx ⟨e, hkind⟩ h0 (fun _ => ⟨hro, h1, hall⟩), hfl]
  · intro h0 hlt
    cases x <;> simp only [Val.items, List.length_nil, Nat.not_lt_zero] at hlt
    case slice e xs => rw [growAndIndex_long rs S fl _ e xs part.index hx h0 hlt, hfl]
  · intro e root1 hdec
    unfold decodeMultipart at hdec
    simp only [hwalk, hset, Bool.not_true, Bool.false_eq_true, if_false, hderef] at hdec
    cases hg : growAndIndex rs (.ref S fl) x.typeOf part.index with
    | error p => simp [hg] at hdec
    | ok r4 =>
      obtain ⟨r4, v4⟩ := r4
      simp only [hg] at hdec
      obtain ⟨h0, hkind, hr4, hv4, -⟩ := growAndIndex_exact _ _ _ _ _ _ _ hx hg
      subst hv4
      obtain ⟨z, hz⟩ := decodeMultipart_local _ _ _ _ _ _ _ _ hdec
      refine ⟨h0, ?_⟩
      have hget4 : r4.get S = some (x.extend (part.index.toNat + 1)) := by
        rw [hr4]
        exact Val.get_set_same rs S _ x hx
      have hroot1 : root1 = r4.set S ((x.extend (part.index.toNat + 1)).set
          [.index part.index.toNat] z) := by
        rw [hz]
        exact Val.set_append r4 S _ z _ hget4
      have hget1 : root1.get S = some ((x.extend (part.index.toNat + 1)).set
          [.index part.index.toNat] z) := by
        rw [hroot1]
        exact Val.get_set_same r4 S _ _ hget4
      have hfin : ∀ (elemTy : Ty) (xs : List Val),
          x.typeOf = .slice elemTy → x.items = xs →
          x.extend (part.index.toNat + 1)
            = .slice elemTy (padTo xs (part.index.toNat + 1) elemTy.zero) →
          ∃ elemTy ys, x.typeOf = .slice elemTy
            ∧ root1.get S = some (.slice elemTy ys)
            ∧ ys.length = max x.items.length (part.index.toNat + 1)
            ∧ (∀ p, p < x.items.length → p ≠ part.index.toNat → ys[p]? = x.items[p]?)
            ∧ (∀ p, x.items.length ≤ p → p < part.index.toNat →
                ys[p]? = some elemTy.zero) := by
        intro elemTy xs hty hitems hext
        have hi : part.index.toNat < (padTo xs (part.index.toNat + 1) elemTy.zero).length := by
          rw [length_padTo]; omega
        rw [hext] at hget1
        simp only [Val.set, List.getElem?_eq_getElem hi, Val.set_nil] at hget1
        refine ⟨elemTy, _, hty, hget1, ?_, ?_, ?_⟩
        · rw [List.length_set, length_padTo, hitems]
        · intro p hp hne
          rw [List.getElem?_set_ne (fun h => hne h.symm), getElem?_padTo, hitems]
          rw [hitems] at hp
          simp [hp]
        · intro p hp hlt
          rw [hitems] at hp
          have h1 : ¬ p < xs.length := by omega
          have h2 : p < part.index.toNat + 1 := by omega
          rw [List.getElem?_set_ne (by omega), getElem?_padTo]
          simp [h1, h2]
      obtain ⟨e2, rfl | ⟨xs, rfl⟩⟩ := hkind
      · exact hfin e2 [] rfl rfl rfl
      · exact hfin e2 xs rfl rfl rfl

/-- C11 at a gallery with one photo and the key "photos.2.file": the step returns with three
photos, the first the old one and the second a zero value; and the key "photos.0.file": the
step writes nothing and the slice has still one element. -/
theorem index_step_grows_and_keeps_witness :
    growAndIndex gallery1 (.ref [.field 0] ⟨false, false⟩) (.slice Photo) 2
        = .ok (gallery1.set [.field 0] (.slice Photo
            [.struct "Photo" [⟨"Caption", true, false, .str "first"⟩,
              ⟨"File", true, false, .ptrTo (.fileHeader upload1)⟩], Photo.zero, Photo.zero]),
          .ref [.field 0, .index 2] ⟨false, false⟩)
    ∧ growAndIndex gallery1 (.ref [.field 0] ⟨false, false⟩) (.slice Photo) 0
        = .ok (gallery1, .ref [.field 0, .index 0] ⟨false, false⟩)
    ∧ (∃ root1 ys, decodeMultipart gallery1 Value.root "photos.2.file"
          [⟨["Photos"], 2⟩, ⟨["File"], -1⟩] [some upload2] = .ok (none, root1)
        ∧ root1.get [.field 0] = some (.slice Photo ys) ∧ ys.length = 3
        ∧ ys[0]? = some (.struct "Photo" [⟨"Caption", true, false, .str "first"⟩,
              ⟨"File", true, false, .ptrTo (.fileHeader upload1)⟩])
        ∧ ys[1]? = some Photo.zero) := by
  have h := index_step_grows_and_keeps gallery1 Value.root "photos.2.file" ⟨["Photos"], 2⟩
    ⟨["File"], -1⟩ [] [some upload2] gallery1 (.ref [.field 0] ⟨false, false⟩) gallery1
    [.field 0] ⟨false, false⟩ (.slice Photo)
    (.slice Photo [.struct "Photo" [⟨"Caption", true, false, .str "first"⟩,
      ⟨"File", true, false, .ptrTo (.fileHeader upload1)⟩]]) rfl rfl rfl rfl
  have g := index_step_grows_and_keeps gallery1 Value.root "photos.0.file" ⟨["Photos"], 0⟩
    ⟨["File"], -1⟩ [] [some upload2] gallery1 (.ref [.field 0] ⟨false, false⟩) gallery1
    [.field 0] ⟨false, false⟩ (.slice Photo)
    (.slice Photo [.struct "Photo" [⟨"Caption", true, false, .str "first"⟩,
      ⟨"File", true, false, .ptrTo (.fileHeader upload1)⟩]]) rfl rfl rfl rfl
  refine ⟨(h.1 Photo (Or.inr ⟨_, rfl⟩) (by decide) (by decide) (by decide)).trans rfl,
    g.2.1 (by decide) (by decide), ?_⟩
  obtain ⟨-, elemTy, ys, hty, hget, hlen, hkeep, hzero⟩ := h.2.2 none _ rfl
  have he : elemTy = Photo := by
    simp only [Val.typeOf, Ty.slice.injEq] at hty
    exact hty.symm
  subst he
  exact ⟨_, ys, rfl, hget, hlen, hkeep 0 (by decide) (by decide),
    hzero 1 (by decide) (by decide)⟩

/-- C12, as stated, fails: two file keys that address the same slice of structs with the same
index can end at the same file field. On `struct { Items []struct { Photo } }` the keys with the
parsed paths `Items[0].File` (the promoted field) and `Items[0].Photo.File` both write the field
`File` of element 0; after the first key the field holds the upload of the first key, and after
the second key it holds the upload of the second: the value written through the first key is
not there at the end. -/
theorem indexed_keys_same_leaf_overwrite :
    ∃ r1 r2, decodeMultipart Shelf.zero Value.root "items.0.file"
        [⟨["Items"], 0⟩, ⟨["File"], -1⟩] [some upload1] = .ok (none, r1)
      ∧ r1.get [.field 0, .index 0, .field 0, .field 1, .elem] = some (.fileHeader upload1)
      ∧ decodeMultipart r1 Value.root "items.0.photo.file"
        [⟨["Items"], 0⟩, ⟨["Photo", "File"], -1⟩] [some upload2] = .ok (none, r2)
      ∧ r2.get [.field 0, .index 0, .field 0, .field 1, .elem] = some (.fileHeader upload2)
      ∧ upload1 ≠ upload2 :=
  ⟨_, _, rfl, rfl, rfl, rfl, by decide⟩

/-- C12, amended: several indexed keys that write at different places converge on one sequence
covering the largest index. Let the field names `names` lead from the target to a Value that
can be set and, through a pointer if there is one, to the location `S`, where the target holds
the sequence `x` of length `n` (0 if it is nil). For every list of file keys that the cache
parses to a path starting with `names` and an index and going on after it, that each decode
alone, and that write at places apart from each other, the loop of `Decode` over the keys in
any order adds no error and leaves one and the same target; in it the sequence at `S` has the
length `max n (1 + max_j i_j)`, and the leaf of every key holds the value of that key. -/
theorem indexed_keys_cover_max_index (d : MultipartDecoder) (errors : MultiError) (root : Val)
    (names : List String) (rw : Val) (vw : Value) (rs : Val) (S : Loc) (fl : Flag) (t : Ty)
    (x : Val) (ks : List Key)
    (hwalk : walkFields root Value.root names = .ok (rw, vw)) (hset : vw.CanSet = true)
    (hderef : dereference rw vw = .ok (rs, .ref S fl, t)) (hx : root.get S = some x)
    (hks : ∀ k ∈ ks, d.parsePath k.path root.typeOf = some k.parts ∧ k.Decodes root
      ∧ ∃ i part2 rest, k.parts = ⟨names, i⟩ :: part2 :: rest)
    (hp : ks.Pairwise Key.Apart) :
    ∃ final,
      (∀ ks2 : List Key, ks2.Perm ks →
        decodeFiles d root.typeOf (ks2.map Key.entry) errors root = .ok (errors, final))
      ∧ (∃ x1, final.get S = some x1
        ∧ x1.items.length = (ks.map (fun k => k.index.toNat + 1)).foldl max x.items.length)
      ∧ ∀ k ∈ ks, final.get k.leaf = some k.value := by
  have hsymm : ∀ a b : Key, Key.Apart a b → Key.Apart b a := fun a b h => ⟨h.2, h.1⟩
  refine ⟨fillAll root ks, ?_, ?_, ?_⟩
  · intro ks2 hperm
    have hp2 : ks2.Pairwise Key.Apart :=
      (List.Perm.pairwise_iff (fun {a b} => hsymm a b) hperm).mpr hp
    rw [decodeFiles_eq_fillAll d _ errors ks2 root
        (fun k hk => ⟨(hks k (hperm.mem_iff.mp hk)).1, (hks k (hperm.mem_iff.mp hk)).2.1⟩) hp2,
      fillAll_perm root ks ks2 hperm hp]
  · refine fillAll_items S ks root x hx ?_ hp
    intro k hk
    obtain ⟨-, hdk, i, part2, rest, hparts⟩ := hks k hk
    refine ⟨hdk, ?_⟩
    obtain ⟨root1, fl1, t1, hres, -⟩ := hdk
    rw [hparts] at hres
    have hi : k.index = i := by simp [Key.index, hparts]
    rw [hi]
    exact resolve_index_leaf root Value.root ⟨names, i⟩ part2 rest rw vw rs S fl t root1 k.leaf
      fl1 t1 hwalk hset hderef hres
  · exact fillAll_get_leaf ks root (fun k hk => (hks k hk).2.1) hp

/-- C12, amended, at a gallery with one photo and the keys "photos.2.file" and
"photos.0.file": in both orders the loop leaves the same gallery, with three photos, the file of
the first being the upload of "photos.0.file" and the file of the third the upload of
"photos.2.file". -/
theorem indexed_keys_cover_max_index_witness :
    ∃ final,
      decodeFiles photoDecoder Gallery
          [("photos.2.file", [some upload2]), ("photos.0.file", [some upload1])] [] gallery1
        = .ok ([], final)
      ∧ decodeFiles photoDecoder Gallery
          [("photos.0.file", [some upload1]), ("photos.2.file", [some upload2])] [] gallery1
        = .ok ([], final)
      ∧ (∃ x1, final.get [.field 0] = some x1 ∧ x1.items.length = 3)
      ∧ final.get [.field 0, .index 2, .field 1, .elem] = some (.fileHeader upload2)
      ∧ final.get [.field 0, .index 0, .field 1, .elem] = some (.fileHeader upload1) := by
  have hks : ∀ k ∈ [photoKey "photos.2.file" 2 upload2, photoKey "photos.0.file" 0 upload1],
      photoDecoder.parsePath k.path gallery1.typeOf = some k.parts ∧ k.Decodes gallery1
        ∧ ∃ i part2 rest, k.parts = ⟨["Photos"], i⟩ :: part2 :: rest := by
    intro k hk
    simp only [List.mem_cons, List.mem_singleton, List.not_mem_nil, or_false] at hk
    rcases hk with rfl | rfl
    · exact ⟨rfl, ⟨_, _, _, rfl, rfl⟩, _, _, _, rfl⟩
    · exact ⟨rfl, ⟨_, _, _, rfl, rfl⟩, _, _, _, rfl⟩
  have hp : [photoKey "photos.2.file" 2 upload2, photoKey "photos.0.file" 0 upload1].Pairwise
      Key.Apart := by
    simp only [List.pairwise_cons, List.mem_singleton, forall_eq, List.not_mem_nil,
      false_implies, implies_true, List.Pairwise.nil, and_true]
    exact ⟨by decide, by decide⟩
  obtain ⟨final, hall, hlen, hleaf⟩ := indexed_keys_cover_max_index photoDecoder [] gallery1
    ["Photos"] gallery1 (.ref [.field 0] ⟨false, false⟩) gallery1 [.field 0] ⟨false, false⟩
    (.slice Photo) (.slice Photo [.struct "Photo" [⟨"Caption", true, false, .str "first"⟩,
      ⟨"File", true, false, .ptrTo (.fileHeader upload1)⟩]])
    [photoKey "photos.2.file" 2 upload2, photoKey "photos.0.file" 0 upload1]
    rfl rfl rfl rfl hks hp
  exact ⟨final, hall _ (List.Perm.refl _), hall _ (List.Perm.swap _ _ _), hlen,
    hleaf _ (List.mem_cons_self _ _), hleaf _ (List.mem_cons_of_mem _ (List.mem_cons_self _ _))⟩

/-- C13. A selector that names a field promoted through a nil embedded pointer makes the walk
panic: on `EmbedPerson{}` the name "Name", and on `struct { *Photo }` the name "File", end in
reflect's "indirection through nil pointer to embedded struct"; the pointer is not set. Through
the name of the embedded field, or when the pointer is not nil, the same file field is reached
and assigned. -/
theorem promoted_field_through_nil_pointer_panics :
    walkFields EmbedPerson.zero Value.root ["Name"] = .error .nilEmbedded
    ∧ decodeMultipart EmbedPerson.zero Value.root "name" [⟨["Name"], -1⟩] [some upload1]
        = .error .nilEmbedded
    ∧ decodeMultipart EmbedPhoto.zero Value.root "file" [⟨["File"], -1⟩] [some upload1]
        = .error .nilEmbedded
    ∧ decodeMultipart EmbedPhoto.zero Value.root "photo.file" [⟨["Photo", "File"], -1⟩]
        [some upload1]
        = .ok (none, EmbedPhoto.zero.set [.field 0] (.ptrTo (Photo.zero.set [.field 1]
            (.ptrTo (.fileHeader upload1)))))
    ∧ decodeMultipart (EmbedPhoto.zero.set [.field 0] (.ptrTo Photo.zero)) Value.root "file"
        [⟨["File"], -1⟩] [some upload1]
        = .ok (none, EmbedPhoto.zero.set [.field 0] (.ptrTo (Photo.zero.set [.field 1]
            (.ptrTo (.fileHeader upload1))))) :=
  ⟨rfl, rfl, rfl, rfl, rfl⟩

/-- C14. Sibling keys share one struct. Let the target hold a nil pointer to `e` at `P`, and let
two file keys each decode alone, with leaves below the target of `P` of which neither is the
other or a part of it. Then the first key returns nil and leaves at `P` a pointer to a value of
type `e` in which its leaf holds its value; the second key, decoded after it, returns nil and
leaves at `P` a pointer to a value of type `e` in which both leaves hold the values of their
keys and every location beside the leaf of the second key holds what it held after the first
key; and the other order of the two keys ends in the same target. -/
theorem sibling_keys_share_one_struct (root : Val) (P : Loc) (e : Ty) (a b : Key) (ma mb : Loc)
    (hP : root.get P = some (.nilPtr e)) (ha : a.Decodes root) (hb : b.Decodes root)
    (hla : a.leaf = P ++ .elem :: ma) (hlb : b.leaf = P ++ .elem :: mb)
    (hab : Key.Apart a b) :
    ∃ ra rab sa sab,
      decodeMultipart root Value.root a.path a.parts a.values = .ok (none, ra)
      ∧ decodeMultipart ra Value.root b.path b.parts b.values = .ok (none, rab)
      ∧ ra.get P = some (.ptrTo sa) ∧ sa.typeOf = e ∧ sa.get ma = some a.value
      ∧ rab.get P = some (.ptrTo sab) ∧ sab.typeOf = e
      ∧ sab.get ma = some a.value ∧ sab.get mb = some b.value
      ∧ (∀ l x, ¬ l <+: mb → ¬ mb <+: l → sa.get l = some x → sab.get l = some x)
      ∧ ∃ rb, decodeMultipart root Value.root b.path b.parts b.values = .ok (none, rb)
        ∧ decodeMultipart rb Value.root a.path a.parts a.values = .ok (none, rab) := by
  have hb2 := hb.put a.leaf a.value hab.1 hab.2
  have ha2 := ha.put b.leaf b.value hab.2 hab.1
  have h1 : ¬ ma <+: mb := by
    intro h
    apply hab.1
    rw [hla, hlb]
    exact (List.prefix_append_right_inj P).mpr ((List.prefix_cons_inj _).mpr h)
  have h2 : ¬ mb <+: ma := by
    intro h
    apply hab.2
    rw [hla, hlb]
    exact (List.prefix_append_right_inj P).mpr ((List.prefix_cons_inj _).mpr h)
  have hra : (root.put a.leaf a.value).get P = some (.ptrTo (e.zero.put ma a.value)) := by
    rw [hla, Val.get_put_above root P _ a.value _ hP]
    rfl
  have hrab : ((root.put a.leaf a.value).put b.leaf b.value).get P
      = some (.ptrTo ((e.zero.put ma a.value).put mb b.value)) := by
    rw [hlb, Val.get_put_above _ P _ b.value _ hra]
    rfl
  have hga : (e.zero.put ma a.value).get ma = some a.value := by
    have h := ha.get
    rw [hla, Val.get_append, ← hla, hra] at h
    exact h
  have hgb : ((e.zero.put ma a.value).put mb b.value).get mb = some b.value := by
    have h := hb2.get
    rw [hlb, Val.get_append, ← hlb, hrab] at h
    exact h
  refine ⟨_, _, _, _, ha.run a.path, hb2.run b.path, hra, ?_, hga, hrab, ?_, ?_, hgb, ?_,
    _, hb.run b.path, ?_⟩
  · rw [Val.typeOf_put, Ty.typeOf_zero]
  · rw [Val.typeOf_put, Val.typeOf_put, Ty.typeOf_zero]
  · exact Val.get_put_disjoint mb _ ma b.value _ h2 h1 hga
  · intro l x hl1 hl2 hx
    exact Val.get_put_disjoint mb _ l b.value x hl2 hl1 hx
  · rw [ha2.run a.path, Val.put_put_comm a.leaf root b.leaf a.value b.value hab.1 hab.2]

/-- C14 at a card whose `Sides` is nil, with the keys "sides.front" and "sides.back": after
both keys, in either order, `Sides` points to one pair with both uploads. -/
theorem sibling_keys_share_one_struct_witness :
    ∃ ra rab sa sab,
      decodeMultipart Card.zero Value.root "sides.front" [⟨["Sides", "Front"], -1⟩]
        [some upload1] = .ok (none, ra)
      ∧ decodeMultipart ra Value.root "sides.back" [⟨["Sides", "Back"], -1⟩]
        [some upload2] = .ok (none, rab)
      ∧ ra.get [.field 0] = some (.ptrTo sa) ∧ sa.typeOf = Pair
      ∧ sa.get [.field 0, .elem] = some (.fileHeader upload1)
      ∧ rab.get [.field 0] = some (.ptrTo sab) ∧ sab.typeOf = Pair
      ∧ sab.get [.field 0, .elem] = some (.fileHeader upload1)
      ∧ sab.get [.field 1, .elem] = some (.fileHeader upload2)
      ∧ (∀ l x, ¬ l <+: [.field 1, .elem] → ¬ [.field 1, .elem] <+: l → sa.get l = some x →
          sab.get l = some x)
      ∧ ∃ rb, decodeMultipart Card.zero Value.root "sides.back" [⟨["Sides", "Back"], -1⟩]
          [some upload2] = .ok (none, rb)
        ∧ decodeMultipart rb Value.root "sides.front" [⟨["Sides", "Front"], -1⟩]
          [some upload1] = .ok (none, rab) :=
  sibling_keys_share_one_struct Card.zero [.field 0] Pair (frontKey upload1) (backKey upload2)
    [.field 0, .elem] [.field 1, .elem] rfl ⟨_, _, _, rfl, rfl⟩ ⟨_, _, _, rfl, rfl⟩ rfl rfl
    ⟨by decide, by decide⟩

/-- C15. A field that cannot be set is not always passed over in silence. On
`struct { priv *Photo }` the path `priv.File` selects a field that cannot be set, as it lies
below the unexported field `priv`. With `priv` not nil `decodeMultipart` returns nil and leaves
the target as it is, as it does at the field `unexported` of `BlogPost`. With `priv` nil the walk
calls `Set` on the nil pointer, a Value obtained through an unexported field, and reflect panics
before `CanSet` is asked. The same happens at the nil pointer of `struct { *photo }`, which
embeds an unexported struct, on the path `photo.File`. -/
theorem unsettable_below_nil_pointer_panics :
    decodeMultipart Hidden.zero Value.root "priv.file" [⟨["priv", "File"], -1⟩]
        [some upload1] = .error .unexported
    ∧ walkFields (Hidden.zero.set [.field 0] (.ptrTo Photo.zero)) Value.root ["priv", "File"]
        = .ok (Hidden.zero.set [.field 0] (.ptrTo Photo.zero),
            .ref [.field 0, .elem, .field 1] ⟨true, false⟩)
    ∧ (Value.ref [.field 0, .elem, .field 1] ⟨true, false⟩).CanSet = false
    ∧ decodeMultipart (Hidden.zero.set [.field 0] (.ptrTo Photo.zero)) Value.root "priv.file"
        [⟨["priv", "File"], -1⟩] [some upload1]
        = .ok (none, Hidden.zero.set [.field 0] (.ptrTo Photo.zero))
    ∧ decodeMultipart BlogPost.zero Value.root "unexported" [⟨["unexported"], -1⟩]
        [some upload1, some upload2] = .ok (none, BlogPost.zero)
    ∧ decodeMultipart HiddenPtr.zero Value.root "photo.file" [⟨["photo", "File"], -1⟩]
        [some upload1] = .error .unexported :=
  ⟨rfl, rfl, rfl, rfl, rfl, rfl⟩

/-- C16. With an empty list of file headers a single-valued file field makes `decodeMultipart`
panic: `reflect.ValueOf(value).Elem()` of the nil pointer is the zero Value and `Set` refuses
it. So does `Decode`. -/
theorem empty_upload_list_panics :
    decodeMultipart BlogPost.zero Value.root "headerImage" [⟨["HeaderImage"], -1⟩] []
        = .error .zeroValue
    ∧ decodeMultipart (BlogPost.zero.set [.field 8] (.ptrTo (.fileHeader upload1))) Value.root
        "headerImage" [⟨["HeaderImage"], -1⟩] [] = .error .zeroValue
    ∧ (exampleDecoder true).Decode (some (.ptrTo BlogPost.zero))
        (some ⟨[], [("headerImage", [])]⟩) = .error .zeroValue :=
  ⟨rfl, rfl, rfl⟩

/-- C17. Whenever `decodeMultipart` returns, the error it returns is nil. So every entry that the
loop over the file map adds to or changes in the error map is the invalid-path error of its key,
and with `ignoreUnknownKeys` a `Decode` that returns on a pointer to a struct returns the error
of the string half, nil in place of an empty `MultiError`. -/
theorem decodeMultipart_returns_nil (d : MultipartDecoder) (target : Val) (form : Form)
    (err : Option Error) (root1 : Val) (res : Option Error) (dst1 : Option Val)
    (htarget : isPtrToStruct (some (.ptrTo target)) = true)
    (hbase : d.decode target form.Value = .ok (err, root1))
    (hdec : d.Decode (some (.ptrTo target)) (some form) = .ok (res, dst1)) :
    (∀ root v path parts values e r,
        decodeMultipart root v path parts values = .ok (e, r) → e = none)
    ∧ (∀ t files errors root errors1 root2,
        decodeFiles d t files errors root = .ok (errors1, root2) →
        ∀ k, MultiError.lookup errors1 k = MultiError.lookup errors k
          ∨ MultiError.lookup errors1 k = some (.invalidPath k))
    ∧ (d.ignoreUnknownKeys = true →
        (err = some (.multi []) → res = none) ∧ (err ≠ some (.multi []) → res = err)) := by
  refine ⟨fun root v path parts values e r h =>
    decodeMultipart_error_nil path parts values root v e r h, ?_, ?_⟩
  · intro t files errors root errors1 root2 h k
    rw [decodeFiles_lookup d t files errors root errors1 root2 h k]
    split
    · exact Or.inr rfl
    · exact Or.inl rfl
  · intro hi
    rw [Decode_valid d target form err root1 htarget hbase] at hdec
    cases hb : baseErrors err with
    | error e =>
      simp only [hb, Except.ok.injEq, Prod.mk.injEq] at hdec
      obtain ⟨rfl, -⟩ := hdec
      cases err with
      | none => simp [baseErrors] at hb
      | some e0 =>
        cases e0 <;> simp [baseErrors] at hb <;> subst hb <;> simp
    | ok errors =>
      simp only [hb] at hdec
      cases hf : decodeFiles d root1.typeOf form.File errors root1 with
      | error p => simp [hf] at hdec
      | ok r =>
        obtain ⟨errors1, root2⟩ := r
        simp only [hf, Except.ok.injEq, Prod.mk.injEq] at hdec
        obtain ⟨rfl, -⟩ := hdec
        have he := decodeFiles_ignore d _ hi _ _ _ _ _ hf
        subst he
        cases err with
        | none =>
          simp [baseErrors] at hb
          subst hb
          simp [returnErrors]
        | some e0 =>
          cases e0 <;> simp [baseErrors] at hb
          case multi m =>
            subst hb
            cases m with
            | nil => simp [returnErrors]
            | cons a m => simp [returnErrors]

/-- C17 at `BlogPost{}` with an unknown file key and an upload under "headerImage": with a
string half that returns nil, and with one that reports the key "id", `Decode` returns what the
string half returned. -/
theorem decodeMultipart_returns_nil_witness :
    ((none : Option Error) ≠ some (.multi []) → (none : Option Error) = none)
    ∧ ((some (.multi [("id", .conversion "id" "x")]) : Option Error) ≠ some (.multi []) →
        (some (.multi [("id", .conversion "id" "x")]) : Option Error)
          = some (.multi [("id", .conversion "id" "x")])) :=
  ⟨((decodeMultipart_returns_nil (exampleDecoder true) BlogPost.zero
      ⟨[], [("nope", [some upload2]), ("headerImage", [some upload1])]⟩ none BlogPost.zero none
      (some (.ptrTo (BlogPost.zero.set [.field 8] (.ptrTo (.fileHeader upload1)))))
      rfl rfl rfl).2.2 rfl).2,
   ((decodeMultipart_returns_nil
      ⟨true, blogPostPaths, fun root _ => .ok (some (.multi [("id", .conversion "id" "x")]), root)⟩
      BlogPost.zero ⟨[], [("nope", [some upload2]), ("headerImage", [some upload1])]⟩
      (some (.multi [("id", .conversion "id" "x")])) BlogPost.zero
      (some (.multi [("id", .conversion "id" "x")]))
      (some (.ptrTo (BlogPost.zero.set [.field 8] (.ptrTo (.fileHeader upload1)))))
      rfl rfl rfl).2.2 rfl).2⟩

/-- C18, as stated, fails: two file keys with different parsed paths can end at the same file
field. On `struct { Photo }` the paths `File` (the promoted field) and `Photo.File` both end at
the field `File` of the embedded `Photo`; with two different uploads the upload that stays is
the one of the key decoded last, so the two orders give different targets, and `Decode` gives
different targets for the two orders of the file map. -/
theorem file_keys_same_leaf_do_not_commute :
    ([⟨["File"], -1⟩] : List PathPart) ≠ [⟨["Photo", "File"], -1⟩]
    ∧ (∃ r1 r12, decodeMultipart WithPhoto.zero Value.root "file" [⟨["File"], -1⟩]
          [some upload1] = .ok (none, r1)
        ∧ decodeMultipart r1 Value.root "photo.file" [⟨["Photo", "File"], -1⟩]
          [some upload2] = .ok (none, r12)
        ∧ r12.get [.field 0, .field 1, .elem] = some (.fileHeader upload2))
    ∧ (∃ r2 r21, decodeMultipart WithPhoto.zero Value.root "photo.file"
          [⟨["Photo", "File"], -1⟩] [some upload2] = .ok (none, r2)
        ∧ decodeMultipart r2 Value.root "file" [⟨["File"], -1⟩]
          [some upload1] = .ok (none, r21)
        ∧ r21.get [.field 0, .field 1, .elem] = some (.fileHeader upload1))
    ∧ upload1 ≠ upload2
    ∧ (∃ ra rb, photoDecoder.Decode (some (.ptrTo WithPhoto.zero))
          (some ⟨[], [("file", [some upload1]), ("photo.file", [some upload2])]⟩)
          = .ok (none, some (.ptrTo ra))
        ∧ photoDecoder.Decode (some (.ptrTo WithPhoto.zero))
          (some ⟨[], [("photo.file", [some upload2]), ("file", [some upload1])]⟩)
          = .ok (none, some (.ptrTo rb))
        ∧ ra.get [.field 0, .field 1, .elem] = some (.fileHeader upload2)
        ∧ rb.get [.field 0, .field 1, .elem] = some (.fileHeader upload1)) :=
  ⟨by decide, ⟨_, _, rfl, rfl, rfl⟩, ⟨_, _, rfl, rfl, rfl⟩, by decide, ⟨_, _, rfl, rfl, rfl, rfl⟩⟩

/-- C18, amended: the file half does not depend on the order of the keys that write at
different places. For every target and any two file keys that each decode alone, with leaves of
which neither is the other or a part of it, key 1 then key 2 returns nil twice and leaves the
same target as key 2 then key 1; and for a form whose file keys are parsed by the cache, each
decode alone in the target that the string half leaves, and write at places apart from each
other, `Decode` returns the same error and the same target for every order of the file map. -/
theorem file_keys_commute (d : MultipartDecoder) (target root : Val) (err : Option Error)
    (values : List (String × List String)) (a b : Key) (ks : List Key)
    (ha : a.Decodes root) (hb : b.Decodes root) (hab : Key.Apart a b)
    (hdec : d.decode target values = .ok (err, root))
    (hks : ∀ k ∈ ks, d.parsePath k.path root.typeOf = some k.parts ∧ k.Decodes root)
    (hp : ks.Pairwise Key.Apart) :
    (∃ ra rb r2, decodeMultipart root Value.root a.path a.parts a.values = .ok (none, ra)
        ∧ decodeMultipart root Value.root b.path b.parts b.values = .ok (none, rb)
        ∧ decodeMultipart ra Value.root b.path b.parts b.values = .ok (none, r2)
        ∧ decodeMultipart rb Value.root a.path a.parts a.values = .ok (none, r2))
      ∧ ∀ ks2 : List Key, ks2.Perm ks →
          d.Decode (some (.ptrTo target)) (some ⟨values, ks2.map Key.entry⟩)
            = d.Decode (some (.ptrTo target)) (some ⟨values, ks.map Key.entry⟩) := by
  constructor
  · refine ⟨_, _, _, ha.run a.path, hb.run b.path,
      (hb.put a.leaf a.value hab.1 hab.2).run b.path, ?_⟩
    rw [(ha.put b.leaf b.value hab.2 hab.1).run a.path,
      Val.put_put_comm a.leaf root b.leaf a.value b.value hab.1 hab.2]
  · intro ks2 hperm
    have hsymm : ∀ x y : Key, Key.Apart x y → Key.Apart y x := fun x y h => ⟨h.2, h.1⟩
    have hp2 : ks2.Pairwise Key.Apart :=
      (List.Perm.pairwise_iff (fun {x y} => hsymm x y) hperm).mpr hp
    have hks2 : ∀ k ∈ ks2, d.parsePath k.path root.typeOf = some k.parts ∧ k.Decodes root :=
      fun k hk => hks k (hperm.mem_iff.mp hk)
    have hfiles : ∀ errors, decodeFiles d root.typeOf (ks2.map Key.entry) errors root
        = decodeFiles d root.typeOf (ks.map Key.entry) errors root := by
      intro errors
      rw [decodeFiles_eq_fillAll d _ errors ks2 root hks2 hp2,
        decodeFiles_eq_fillAll d _ errors ks root hks hp, fillAll_perm root ks ks2 hperm hp]
    cases target <;> simp only [MultipartDecoder.Decode, isPtrToStruct, hdec, hfiles]

/-- C18, amended, at an empty gallery with the keys "photos.0.file" and "photos.1.file", which
go through the same nil slice at different indices, and at a card whose `Sides` is nil with the
keys "sides.front" and "sides.back", which go through the same nil pointer: the two orders end
in the same target, and `Decode` returns the same for the two orders of the file map. -/
theorem file_keys_commute_witness :
    ((∃ ra rb r2, decodeMultipart Gallery.zero Value.root "photos.0.file"
          [⟨["Photos"], 0⟩, ⟨["File"], -1⟩] [some upload1] = .ok (none, ra)
        ∧ decodeMultipart Gallery.zero Value.root "photos.1.file"
          [⟨["Photos"], 1⟩, ⟨["File"], -1⟩] [some upload2] = .ok (none, rb)
        ∧ decodeMultipart ra Value.root "photos.1.file"
          [⟨["Photos"], 1⟩, ⟨["File"], -1⟩] [some upload2] = .ok (none, r2)
        ∧ decodeMultipart rb Value.root "photos.0.file"
          [⟨["Photos"], 0⟩, ⟨["File"], -1⟩] [some upload1] = .ok (none, r2))
      ∧ photoDecoder.Decode (some (.ptrTo Gallery.zero))
          (some ⟨[], [("photos.1.file", [some upload2]), ("photos.0.file", [some upload1])]⟩)
        = photoDecoder.Decode (some (.ptrTo Gallery.zero))
          (some ⟨[], [("photos.0.file", [some upload1]), ("photos.1.file", [some upload2])]⟩))
    ∧ ((∃ ra rb r2, decodeMultipart Card.zero Value.root "sides.front"
          [⟨["Sides", "Front"], -1⟩] [some upload1] = .ok (none, ra)
        ∧ decodeMultipart Card.zero Value.root "sides.back"
          [⟨["Sides", "Back"], -1⟩] [some upload2] = .ok (none, rb)
        ∧ decodeMultipart ra Value.root "sides.back"
          [⟨["Sides", "Back"], -1⟩] [some upload2] = .ok (none, r2)
        ∧ decodeMultipart rb Value.root "sides.front"
          [⟨["Sides", "Front"], -1⟩] [some upload1] = .ok (none, r2))
      ∧ photoDecoder.Decode (some (.ptrTo Card.zero))
          (some ⟨[], [("sides.back", [some upload2]), ("sides.front", [some upload1])]⟩)
        = photoDecoder.Decode (some (.ptrTo Card.zero))
          (some ⟨[], [("sides.front", [some upload1]), ("sides.back", [some upload2])]⟩)) := by
  have hg := file_keys_commute photoDecoder Gallery.zero Gallery.zero none []
    (photoKey "photos.0.file" 0 upload1) (photoKey "photos.1.file" 1 upload2)
    [photoKey "photos.0.file" 0 upload1, photoKey "photos.1.file" 1 upload2]
    ⟨_, _, _, rfl, rfl⟩ ⟨_, _, _, rfl, rfl⟩ ⟨by decide, by decide⟩ rfl
    (by
      intro k hk
      simp only [List.mem_cons, List.mem_singleton, List.not_mem_nil, or_false] at hk
      rcases hk with rfl | rfl
      · exact ⟨rfl, _, _, _, rfl, rfl⟩
      · exact ⟨rfl, _, _, _, rfl, rfl⟩)
    (by
      simp only [List.pairwise_cons, List.mem_singleton, forall_eq, List.not_mem_nil,
        false_implies, implies_true, List.Pairwise.nil, and_true]
      exact ⟨by decide, by decide⟩)
  have hc := file_keys_commute photoDecoder Card.zero Card.zero none []
    (frontKey upload1) (backKey upload2) [frontKey upload1, backKey upload2]
    ⟨_, _, _, rfl, rfl⟩ ⟨_, _, _, rfl, rfl⟩ ⟨by decide, by decide⟩ rfl
    (by
      intro k hk
      simp only [List.mem_cons, List.mem_singleton, List.not_mem_nil, or_false] at hk
      rcases hk with rfl | rfl
      · exact ⟨rfl, _, _, _, rfl, rfl⟩
      · exact ⟨rfl, _, _, _, rfl, rfl⟩)
    (by
      simp only [List.pairwise_cons, List.mem_singleton, forall_eq, List.not_mem_nil,
        false_implies, implies_true, List.Pairwise.nil, and_true]
      exact ⟨by decide, by decide⟩)
  exact ⟨⟨hg.1, hg.2 _ (List.Perm.swap _ _ _)⟩, ⟨hc.1, hc.2 _ (List.Perm.swap _ _ _)⟩⟩

end Schema
